import Mathlib

/-!
Chess rules engine of `script.js`: embedding and verified properties

The JavaScript program keeps an 8×8 grid of one-character strings
(`'.'` for an empty square, upper-case letters for White, lower-case
letters for Black), a side to move and a few session variables.

Embedding conventions.

* A board is a list of rows, each row a list of characters.
* Coordinates are integers (the source computes `r - 1`, `c - 1`, ...).
* A board read `cb[r][c]` is `cellAt cb r c : Option Char`; it is `none`
  when the index lies outside the grid (in JavaScript a row index out of
  range throws and a column index out of range yields `undefined`).
  Every function that reads the board therefore returns an `Option`,
  and `none` means "the program indexed outside the grid".
* Global variables are the fields of `State`; functions that assign to
  them take and return a `State`.
* DOM work (`updateBoardUI`, highlighting, `renderMovesTable`,
  `updateClockDisplay`) does not touch the variables and is left out;
  the text written by `updateStatus` is kept in the field `status`.
-/

namespace Chess

/-! ## Data model -/

/-- The side to move: the values `'W'` and `'B'` of `currentTurn`. -/
inductive Color where
  | W
  | B
deriving DecidableEq, Repr

/-- The grid `board`: rows of one-character cells. -/
abbrev Board := List (List Char)

/-- A target square as pushed by the generators: the object with fields `r`, `c`. -/
abbrev Sq := Int × Int

/-- An element of the list built by `getAllSafeMovesForCurrentPlayer`. -/
structure Move where
  fromR : Int
  fromC : Int
  toR : Int
  toC : Int
deriving DecidableEq, Repr

/-- One row of the move table `movesData`. -/
structure MoveEntry where
  moveNum : Nat
  white : String
  black : String
deriving DecidableEq, Repr

/-- The global variables of the script. `clockInterval` records whether a
timer is installed; `status` is the text last passed to `updateStatus`. -/
structure State where
  board : Board
  selectedSquare : Option Sq
  currentTurn : Color
  gameOver : Bool
  whiteTimeLeft : Int
  blackTimeLeft : Int
  clockInterval : Bool
  activeColor : Color
  movesData : List MoveEntry
  currentMoveNumber : Nat
  status : String
deriving DecidableEq, Repr

/-- The constant `initialLayout`. -/
def initialLayout : Board :=
  [['r','n','b','q','k','b','n','r'],
   ['p','p','p','p','p','p','p','p'],
   ['.','.','.','.','.','.','.','.'],
   ['.','.','.','.','.','.','.','.'],
   ['.','.','.','.','.','.','.','.'],
   ['.','.','.','.','.','.','.','.'],
   ['P','P','P','P','P','P','P','P'],
   ['R','N','B','Q','K','B','N','R']]

/-- The table `pieceValue`; a key that is not in the table has no value. -/
def pieceValue (p : Char) : Option Int :=
  if p = 'P' ∨ p = 'p' then some 1
  else if p = 'N' ∨ p = 'n' then some 3
  else if p = 'B' ∨ p = 'b' then some 3
  else if p = 'R' ∨ p = 'r' then some 5
  else if p = 'Q' ∨ p = 'q' then some 9
  else if p = 'K' ∨ p = 'k' then some 100
  else if p = '.' then some 0
  else none

/-! ## Utilities -/

/-- Source: `inBounds(r,c)`. -/
def inBounds (r c : Int) : Bool :=
  decide (r ≥ 0) && decide (r < 8) && decide (c ≥ 0) && decide (c < 8)

/-- The read `b[r][c]`; `none` when the index is outside the grid. -/
def cellAt (b : Board) (r c : Int) : Option Char :=
  if 0 ≤ r ∧ 0 ≤ c then
    match b.get? r.toNat with
    | some row => row.get? c.toNat
    | none => none
  else none

/-- The assignment `b[r][c] = v`; `none` when the index is outside the grid. -/
def setCell (b : Board) (r c : Int) (v : Char) : Option Board :=
  if 0 ≤ r ∧ 0 ≤ c then
    match b.get? r.toNat with
    | some row =>
      if c.toNat < row.length then some (b.set r.toNat (row.set c.toNat v)) else none
    | none => none
  else none

/-- Source: `isEmptySquare(r,c,b)`. -/
def isEmptySquare (r c : Int) (b : Board) : Option Bool :=
  match cellAt b r c with
  | some x => some (x == '.')
  | none => none

/-- Source: `isWhitePiece(p)`. -/
def isWhitePiece (p : Char) : Bool := decide (p ≥ 'A') && decide (p ≤ 'Z')

/-- Source: `isBlackPiece(p)`. -/
def isBlackPiece (p : Char) : Bool := decide (p ≥ 'a') && decide (p ≤ 'z')

/-- Source: `sameColor(p1,p2)`. -/
def sameColor (p1 p2 : Char) : Bool :=
  if p1 == '.' || p2 == '.' then false
  else (isWhitePiece p1 && isWhitePiece p2) || (isBlackPiece p1 && isBlackPiece p2)

/-- Source: `isCorrectTurnPiece(piece)`, with `currentTurn` passed explicitly. -/
def isCorrectTurnPiece (currentTurn : Color) (piece : Char) : Bool :=
  piece != '.' &&
    ((currentTurn == Color.W && isWhitePiece piece) ||
     (currentTurn == Color.B && isBlackPiece piece))

/-- Source: `copyBoard(src)`. Values are immutable here, so a copy is the value itself. -/
def copyBoard (src : Board) : Board := src.map fun r => r

/-- Source: `colorName(turn)`. -/
def colorName (turn : Color) : String := if turn = Color.W then "White" else "Black"

/-- Source: `toAlgebraic(r,c)`: the character of `'abcdefgh'` at index `c`
(JavaScript prints `undefined` when there is none) followed by `8 - r`. -/
def toAlgebraic (r c : Int) : String :=
  let file : String :=
    if 0 ≤ c then
      match "abcdefgh".toList.get? c.toNat with
      | some ch => ch.toString
      | none => "undefined"
    else "undefined"
  let rank : Int := 8 - r
  file ++ toString rank

/-! ## Move generator -/

/-- The body of the `forEach` over `[c-1, c+1]` in `pawnMoves`, for one column `cc`. -/
def pawnCapture (piece : Char) (f1 cc : Int) (cb : Board) : Option (List Sq) :=
  if inBounds f1 cc then
    match isEmptySquare f1 cc cb with
    | none => none
    | some e =>
      if !e then
        match cellAt cb f1 cc with
        | none => none
        | some t => if !sameColor piece t then some [(f1, cc)] else some []
      else some []
  else some []

/-- One of the two-square advances of `pawnMoves`: when `guard` holds
(`isWhitePiece(piece)&&r===6`, or `isBlackPiece(piece)&&r===1`), read the
cell `(r2,c)` and push it if it is empty. -/
def pawnDouble (guard : Bool) (r2 c : Int) (cb : Board) : Option (List Sq) :=
  if guard then
    match cellAt cb r2 c with
    | none => none
    | some y => if y == '.' then some [(r2, c)] else some []
  else some []

/-- The block `// forward` of `pawnMoves`. -/
def pawnForward (piece : Char) (r c f1 : Int) (cb : Board) : Option (List Sq) :=
  if inBounds f1 c then
    match cellAt cb f1 c with
    | none => none
    | some x =>
      if x == '.' then
        match pawnDouble (isWhitePiece piece && r == 6) (r - 2) c cb with
        | none => none
        | some w =>
          match pawnDouble (isBlackPiece piece && r == 1) (r + 2) c cb with
          | none => none
          | some k => some ((f1, c) :: (w ++ k))
      else some []
  else some []

/-- The value of `direction` in `pawnMoves`. -/
def pawnDirection (piece : Char) : Int := if isWhitePiece piece then -1 else 1

/-- Source: `pawnMoves(r,c,cb)`. -/
def pawnMoves (r c : Int) (cb : Board) : Option (List Sq) :=
  match cellAt cb r c with
  | none => none
  | some piece =>
    let f1 := r + pawnDirection piece
    match pawnForward piece r c f1 cb with
    | none => none
    | some forward =>
      match pawnCapture piece f1 (c - 1) cb with
      | none => none
      | some left =>
        match pawnCapture piece f1 (c + 1) cb with
        | none => none
        | some right => some (forward ++ left ++ right)

/-- One of the eight ray loops of `rookMoves` and `bishopMoves`: starting at
`(i,j)`, while `cond i j` holds push the square, stop after pushing an
occupied square, otherwise step by `(di,dj)`. The loop variable moves by one
square per iteration and a read outside the grid fails, so on the 8×8 grid
no loop runs more than eight iterations; `fuel` bounds the iterations. -/
def ray (cb : Board) (cond : Int → Int → Bool) (di dj : Int) : Nat → Int → Int → Option (List Sq)
  | 0, _, _ => none
  | fuel + 1, i, j =>
    if cond i j then
      match isEmptySquare i j cb with
      | none => none
      | some e =>
        if !e then some [(i, j)]
        else
          match ray cb cond di dj fuel (i + di) (j + dj) with
          | none => none
          | some rest => some ((i, j) :: rest)
    else some []

/-- Source: `rookMoves(r,c,cb)`: the loops up, down, left, right. -/
def rookMoves (r c : Int) (cb : Board) : Option (List Sq) := do
  let up ← ray cb (fun i _ => decide (i ≥ 0)) (-1) 0 9 (r - 1) c
  let down ← ray cb (fun i _ => decide (i < 8)) 1 0 9 (r + 1) c
  let left ← ray cb (fun _ j => decide (j ≥ 0)) 0 (-1) 9 r (c - 1)
  let right ← ray cb (fun _ j => decide (j < 8)) 0 1 9 r (c + 1)
  pure (up ++ down ++ left ++ right)

/-- Source: `bishopMoves(r,c,cb)`: up-left, up-right, down-left, down-right. -/
def bishopMoves (r c : Int) (cb : Board) : Option (List Sq) := do
  let ul ← ray cb inBounds (-1) (-1) 9 (r - 1) (c - 1)
  let ur ← ray cb inBounds (-1) 1 9 (r - 1) (c + 1)
  let dl ← ray cb inBounds 1 (-1) 9 (r + 1) (c - 1)
  let dr ← ray cb inBounds 1 1 9 (r + 1) (c + 1)
  pure (ul ++ ur ++ dl ++ dr)

/-- Source: `queenMoves(r,c,cb)`. -/
def queenMoves (r c : Int) (cb : Board) : Option (List Sq) := do
  let rm ← rookMoves r c cb
  let bm ← bishopMoves r c cb
  pure (rm ++ bm)

/-- The offsets of `knightMoves`. -/
def knightOffsets : List (Int × Int) :=
  [(-2,-1),(-2,1),(-1,-2),(-1,2),(1,-2),(1,2),(2,-1),(2,1)]

/-- Source: `knightMoves(r,c,cb)`; it reads no cell. -/
def knightMoves (r c : Int) (_cb : Board) : Option (List Sq) :=
  some ((knightOffsets.map fun d => (r + d.1, c + d.2)).filter fun s => inBounds s.1 s.2)

/-- The offsets visited by the two nested loops of `kingMoves`, in order. -/
def kingOffsets : List (Int × Int) :=
  [(-1,-1),(-1,0),(-1,1),(0,-1),(0,1),(1,-1),(1,0),(1,1)]

/-- Source: `kingMoves(r,c,cb)`; it reads no cell. -/
def kingMoves (r c : Int) (_cb : Board) : Option (List Sq) :=
  some ((kingOffsets.map fun d => (r + d.1, c + d.2)).filter fun s => inBounds s.1 s.2)

/-- The final `filter` of `generateValidMoves`: drop targets holding a piece
of the colour of `piece`. -/
def filterSameColor (piece : Char) (cb : Board) : List Sq → Option (List Sq)
  | [] => some []
  | m :: ms =>
    match cellAt cb m.1 m.2 with
    | none => none
    | some t =>
      match filterSameColor piece cb ms with
      | none => none
      | some rest => if !sameColor piece t then some (m :: rest) else some rest

/-- The Kelvin sign U+212A: the one character outside ASCII whose lower case
is an ASCII letter (`k`). -/
def kelvinSign : Char := Char.ofNat 0x212A

/-- Source: `piece.toLowerCase()` for a one-character cell, as far as the `switch`
of `generateValidMoves` can tell: ASCII capitals are lowered and the Kelvin sign
becomes `k`; the lower case of any other character is not an ASCII letter, so
it matches no `case`, like the character itself. -/
def toLowerCase (p : Char) : Char := if p = kelvinSign then 'k' else p.toLower

/-- The `switch` of `generateValidMoves` on `piece.toLowerCase()`. -/
def rawMoves (piece : Char) (r c : Int) (cb : Board) : Option (List Sq) :=
  let low := toLowerCase piece
  if low = 'p' then pawnMoves r c cb
  else if low = 'r' then rookMoves r c cb
  else if low = 'n' then knightMoves r c cb
  else if low = 'b' then bishopMoves r c cb
  else if low = 'q' then queenMoves r c cb
  else if low = 'k' then kingMoves r c cb
  else some []

/-- Source: `generateValidMoves(r,c,curBoard)`. -/
def generateValidMoves (r c : Int) (curBoard : Board) : Option (List Sq) :=
  match cellAt curBoard r c with
  | none => none
  | some piece =>
    if piece == '.' then some []
    else
      match rawMoves piece r c curBoard with
      | none => none
      | some moves => filterSameColor piece curBoard moves

/-! ## Simulating a move -/

/-- The two assignments `b[r2][c2] = piece; b[r1][c1] = '.'`. -/
def movePiece (b : Board) (piece : Char) (r1 c1 r2 c2 : Int) : Option Board :=
  match setCell b r2 c2 piece with
  | none => none
  | some b1 => setCell b1 r1 c1 '.'

/-- The two promotion statements
`if (piece === 'P' && r2 === 0) b[r2][c2] = 'Q'; if (piece === 'p' && r2 === 7) b[r2][c2] = 'q';`. -/
def promote (b : Board) (piece : Char) (r2 c2 : Int) : Option Board :=
  match (if piece == 'P' && r2 == 0 then setCell b r2 c2 'Q' else some b) with
  | none => none
  | some b1 => if piece == 'p' && r2 == 7 then setCell b1 r2 c2 'q' else some b1

/-- The simulation used by `tryMove`, `highlightSelectedSquare`, `showBestMove` and
`getAllSafeMovesForCurrentPlayer`: copy the board, read the piece on `(r1,c1)`,
move it to `(r2,c2)` and apply the forced promotion. -/
def simulateMove (b : Board) (r1 c1 r2 c2 : Int) : Option Board :=
  let testBoard := copyBoard b
  match cellAt testBoard r1 c1 with
  | none => none
  | some piece =>
    match movePiece testBoard piece r1 c1 r2 c2 with
    | none => none
    | some b1 => promote b1 piece r2 c2

/-- The simulation of `noMovesAvailable`: `tmp[m.r][m.c] = tmp[r][c]; tmp[r][c] = '.'`,
with no promotion. -/
def simulatePlain (b : Board) (r c mr mc : Int) : Option Board :=
  let tmp := copyBoard b
  match cellAt tmp r c with
  | none => none
  | some piece => movePiece tmp piece r c mr mc

/-! ## Check detection -/

/-- The squares visited by `for r in 0..7, for c in 0..7`, in that order. -/
def allSquares : List Sq :=
  (List.range 8).flatMap fun r => (List.range 8).map fun c => ((r : Int), (c : Int))

/-- The first pair of loops of `kingInCheck`: the first square in row-major
order that holds `kingChar`, if any. -/
def findKing (kingChar : Char) (b : Board) : List Sq → Option (Option Sq)
  | [] => some none
  | s :: rest =>
    match cellAt b s.1 s.2 with
    | none => none
    | some x => if x == kingChar then some (some s) else findKing kingChar b rest

/-- The test `(color==='W'&&isBlackPiece(p))||(color==='B'&&isWhitePiece(p))`. -/
def isEnemyPiece (color : Color) (p : Char) : Bool :=
  (color == Color.W && isBlackPiece p) || (color == Color.B && isWhitePiece p)

/-- The test `(color==='W'&&isWhitePiece(p))||(color==='B'&&isBlackPiece(p))`. -/
def isOwnPiece (color : Color) (p : Char) : Bool :=
  (color == Color.W && isWhitePiece p) || (color == Color.B && isBlackPiece p)

/-- The test `moves.some(m => m.r === r2 && m.c === c2)`. -/
def hasTarget (moves : List Sq) (r2 c2 : Int) : Bool :=
  moves.any fun m => m.1 == r2 && m.2 == c2

/-- The second pair of loops of `kingInCheck`, over the squares still to visit. -/
def attackScan (color : Color) (b : Board) (kingPos : Sq) : List Sq → Option Bool
  | [] => some false
  | s :: rest =>
    match cellAt b s.1 s.2 with
    | none => none
    | some p =>
      if p == '.' then attackScan color b kingPos rest
      else if isEnemyPiece color p then
        match generateValidMoves s.1 s.2 b with
        | none => none
        | some moves =>
          if hasTarget moves kingPos.1 kingPos.2 then some true
          else attackScan color b kingPos rest
      else attackScan color b kingPos rest

/-- Source: `kingInCheck(color,testBoard)`. -/
def kingInCheck (color : Color) (testBoard : Board) : Option Bool :=
  let kingChar : Char := if color = Color.W then 'K' else 'k'
  match findKing kingChar testBoard allSquares with
  | none => none
  | some none => some false
  | some (some kingPos) => attackScan color testBoard kingPos allSquares

/-! ## Exhaustive legality scans -/

/-- The loop `for (let m of pm)` of `noMovesAvailable` for the piece on `(r,c)`:
`some false` as soon as a move leaves the king safe, `some true` when none does. -/
def noSafeTarget (color : Color) (b : Board) (r c : Int) : List Sq → Option Bool
  | [] => some true
  | m :: rest =>
    match simulatePlain b r c m.1 m.2 with
    | none => none
    | some tmp =>
      match kingInCheck color tmp with
      | none => none
      | some chk => if !chk then some false else noSafeTarget color b r c rest

/-- The two outer loops of `noMovesAvailable`, over the squares still to visit. -/
def noMovesScan (color : Color) (b : Board) : List Sq → Option Bool
  | [] => some true
  | s :: rest =>
    match cellAt b s.1 s.2 with
    | none => none
    | some p =>
      if p == '.' then noMovesScan color b rest
      else if isOwnPiece color p then
        match generateValidMoves s.1 s.2 b with
        | none => none
        | some pm =>
          match noSafeTarget color b s.1 s.2 pm with
          | none => none
          | some res => if !res then some false else noMovesScan color b rest
      else noMovesScan color b rest

/-- Source: `noMovesAvailable(color,testBoard)`. -/
def noMovesAvailable (color : Color) (testBoard : Board) : Option Bool :=
  noMovesScan color testBoard allSquares

/-- The loop `for (let mv of rawMoves)` of `getAllSafeMovesForCurrentPlayer` for the
piece on `(r,c)`: the moves that do not leave the king in check, in order. -/
def safeTargets (color : Color) (b : Board) (r c : Int) : List Sq → Option (List Move)
  | [] => some []
  | mv :: rest =>
    match simulateMove b r c mv.1 mv.2 with
    | none => none
    | some testBoard =>
      match kingInCheck color testBoard with
      | none => none
      | some chk =>
        match safeTargets color b r c rest with
        | none => none
        | some more =>
          if !chk then some (Move.mk r c mv.1 mv.2 :: more) else some more

/-- The two outer loops of `getAllSafeMovesForCurrentPlayer`. -/
def safeMovesScan (color : Color) (b : Board) : List Sq → Option (List Move)
  | [] => some []
  | s :: rest =>
    match cellAt b s.1 s.2 with
    | none => none
    | some p =>
      if p != '.' && isOwnPiece color p then
        match generateValidMoves s.1 s.2 b with
        | none => none
        | some raw =>
          match safeTargets color b s.1 s.2 raw with
          | none => none
          | some here =>
            match safeMovesScan color b rest with
            | none => none
            | some more => some (here ++ more)
      else safeMovesScan color b rest

/-- Source: `getAllSafeMovesForCurrentPlayer()`, reading `currentTurn` and `board`. -/
def getAllSafeMovesForCurrentPlayer (s : State) : Option (List Move) :=
  safeMovesScan s.currentTurn s.board allSquares

/-! ## Evaluation and the help button -/

/-- The loops of `evaluateBoard` over the squares still to visit, with the
running `score`. A cell that is not a key of `pieceValue` makes the sum
not a number: `none`. -/
def evalScan (testBoard : Board) : List Sq → Int → Option Int
  | [], score => some score
  | s :: rest, score =>
    match cellAt testBoard s.1 s.2 with
    | none => none
    | some p =>
      if p != '.' then
        match pieceValue p with
        | none => none
        | some v =>
          if isWhitePiece p then evalScan testBoard rest (score + v)
          else evalScan testBoard rest (score - v)
      else evalScan testBoard rest score

/-- Source: `evaluateBoard(testBoard)`. -/
def evaluateBoard (testBoard : Board) : Option Int :=
  evalScan testBoard allSquares 0

/-- The comparison of `evalScore` with `bestEval`, where `none` stands for the
initial `-Infinity` (White) or `+Infinity` (Black). -/
def improves (turn : Color) (evalScore : Int) (bestEval : Option Int) : Bool :=
  match bestEval with
  | none => true
  | some e => if turn = Color.W then decide (evalScore > e) else decide (evalScore < e)

/-- The loop of `showBestMove` over the safe moves still to visit, carrying
`bestMove` and `bestEval`. -/
def bestLoop (turn : Color) (b : Board) :
    List Move → Option Move → Option Int → Option (Option Move × Option Int)
  | [], bestMove, bestEval => some (bestMove, bestEval)
  | mv :: rest, bestMove, bestEval =>
    match simulateMove b mv.fromR mv.fromC mv.toR mv.toC with
    | none => none
    | some testBoard =>
      match evaluateBoard testBoard with
      | none => none
      | some evalScore =>
        if improves turn evalScore bestEval then
          bestLoop turn b rest (some mv) (some evalScore)
        else bestLoop turn b rest bestMove bestEval

/-- The value of `bestMove` at the end of `showBestMove` (`none` inside: no
move is suggested). -/
def bestMoveOf (s : State) : Option (Option Move) :=
  if s.gameOver then some none
  else
    match getAllSafeMovesForCurrentPlayer s with
    | none => none
    | some allSafeMoves =>
      if allSafeMoves.length == 0 then some none
      else
        match bestLoop s.currentTurn s.board allSafeMoves none none with
        | none => none
        | some res => some res.1

/-- Source: `showBestMove()`: the state after the call (only `status` can change). -/
def showBestMove (s : State) : Option State :=
  if s.gameOver then some { s with status := "Game is over! No help available." }
  else
    match getAllSafeMovesForCurrentPlayer s with
    | none => none
    | some allSafeMoves =>
      if allSafeMoves.length == 0 then some { s with status := "No moves available." }
      else
        match bestLoop s.currentTurn s.board allSafeMoves none none with
        | none => none
        | some (none, _) => some s
        | some (some bm, _) =>
          some { s with status := "Suggested move: " ++ toAlgebraic bm.fromR bm.fromC ++
                                   " -> " ++ toAlgebraic bm.toR bm.toC }

/-! ## Move table, clock and game setup -/

/-- The `else` branch of `recordMove`: write Black's text into the last row,
or push a new row when the table is empty. -/
def setLastBlack (movesData : List MoveEntry) (num : Nat) (note : String) : List MoveEntry :=
  match movesData.getLast? with
  | none => movesData ++ [MoveEntry.mk num "" note]
  | some last => movesData.dropLast ++ [{ last with black := note }]

/-- Source: `recordMove(r1,c1,r2,c2,capturedPiece)`. -/
def recordMove (s : State) (r1 c1 r2 c2 : Int) (capturedPiece : Char) : State :=
  let fromAlg := toAlgebraic r1 c1
  let toAlg := toAlgebraic r2 c2
  let sep := if capturedPiece != '.' then "x" else "-"
  let note := fromAlg ++ sep ++ toAlg
  if s.currentTurn = Color.W then
    { s with movesData := s.movesData ++ [MoveEntry.mk s.currentMoveNumber note ""] }
  else
    { s with movesData := setLastBlack s.movesData s.currentMoveNumber note,
             currentMoveNumber := s.currentMoveNumber + 1 }

/-- Source: `stopClock()`. -/
def stopClock (s : State) : State := { s with clockInterval := false }

/-- Source: `startClock()`. -/
def startClock (s : State) : State := { stopClock s with clockInterval := true }

/-- Source: `initGame()`. -/
def initGame (s : State) : State :=
  { s with board := initialLayout.map fun row => row,
           currentTurn := Color.W,
           gameOver := false,
           selectedSquare := none,
           movesData := [],
           currentMoveNumber := 1,
           status := "",
           activeColor := Color.W }

/-- Source: `resetGame()`. -/
def resetGame (s : State) : State := initGame (stopClock s)

/-- Source: `tickClock()`. -/
def tickClock (s : State) : State :=
  if s.gameOver then stopClock s
  else if s.activeColor = Color.W then
    let s1 := { s with whiteTimeLeft := s.whiteTimeLeft - 1 }
    if s1.whiteTimeLeft ≤ 0 then
      stopClock { s1 with whiteTimeLeft := 0, gameOver := true,
                          status := "White ran out of time! Black wins." }
    else s1
  else
    let s1 := { s with blackTimeLeft := s.blackTimeLeft - 1 }
    if s1.blackTimeLeft ≤ 0 then
      stopClock { s1 with blackTimeLeft := 0, gameOver := true,
                          status := "Black ran out of time! White wins." }
    else s1

/-- Source: `setTimeAndStart()`; `minutes` is the value of `parseInt` on the
input field, `none` standing for `NaN`. -/
def setTimeAndStart (s : State) (minutes : Option Int) : State :=
  let m : Int :=
    match minutes with
    | none => 5
    | some v => if v < 1 then 5 else v
  startClock (initGame { s with whiteTimeLeft := m * 60, blackTimeLeft := m * 60 })

/-! ## Move application -/

/-- The last part of `tryMove` (lines "Check for checkmate/stalemate"), run
on the state whose board already holds the move. -/
def classifyAfterMove (s : State) : Option State :=
  let oppColor := if s.currentTurn = Color.W then Color.B else Color.W
  match kingInCheck oppColor s.board with
  | none => none
  | some true =>
    match noMovesAvailable oppColor s.board with
    | none => none
    | some true =>
      some (stopClock { s with status := "Checkmate! " ++ colorName s.currentTurn ++ " wins!",
                               gameOver := true })
    | some false => some { s with status := colorName oppColor ++ " is in check!" }
  | some false =>
    match noMovesAvailable oppColor s.board with
    | none => none
    | some true => some (stopClock { s with status := "Stalemate! Draw!", gameOver := true })
    | some false => some { s with status := "" }

/-- Source: `tryMove(r1,c1,r2,c2)`: the returned boolean and the state after the call. -/
def tryMove (s : State) (r1 c1 r2 c2 : Int) : Option (Bool × State) :=
  if s.gameOver then some (false, s)
  else
    match generateValidMoves r1 c1 s.board with
    | none => none
    | some moves =>
      -- Must be in possible moves
      if !hasTarget moves r2 c2 then some (false, { s with status := "Invalid move!" })
      else
        -- Check king safety
        match cellAt (copyBoard s.board) r1 c1 with
        | none => none
        | some piece =>
          match simulateMove s.board r1 c1 r2 c2 with
          | none => none
          | some testBoard =>
            match kingInCheck s.currentTurn testBoard with
            | none => none
            | some true => some (false, { s with status := "Can't move into check!" })
            | some false =>
              -- Perform the real move
              match cellAt s.board r2 c2, cellAt s.board r1 c1 with
              | some captured, some src =>
                match movePiece s.board src r1 c1 r2 c2 with
                | none => none
                | some b1 =>
                  match promote b1 piece r2 c2 with
                  | none => none
                  | some b2 =>
                    let s1 := recordMove { s with board := b2 } r1 c1 r2 c2 captured
                    match classifyAfterMove s1 with
                    | none => none
                    | some s2 => some (true, s2)
              | _, _ => none

/-- Source: `onSquareClick(e)` for the square `(row,col)` of the clicked element. -/
def onSquareClick (s : State) (row col : Int) : Option State :=
  if s.gameOver then some s
  else
    match s.selectedSquare with
    | none =>
      match isEmptySquare row col s.board with
      | none => none
      | some true => some s
      | some false =>
        match cellAt s.board row col with
        | none => none
        | some piece =>
          if isCorrectTurnPiece s.currentTurn piece then
            some { s with selectedSquare := some (row, col) }
          else some s
    | some sel =>
      -- Attempt a move
      match tryMove s sel.1 sel.2 row col with
      | none => none
      | some (true, s1) =>
        let turn := if s1.currentTurn = Color.W then Color.B else Color.W
        some { s1 with currentTurn := turn, activeColor := turn, selectedSquare := none }
      | some (false, s1) => some { s1 with selectedSquare := none }

/-! ## Well-formed boards and auxiliary notions used in the statements -/

/-- The grid has eight rows of eight cells. -/
def is8x8 (b : Board) : Prop := b.length = 8 ∧ ∀ row ∈ b, row.length = 8

instance (b : Board) : Decidable (is8x8 b) := by unfold is8x8; infer_instance

/-- The piece that stands on the target after the promotion statements. -/
def promoted (piece : Char) (r2 : Int) : Char :=
  if piece = 'P' ∧ r2 = 0 then 'Q' else if piece = 'p' ∧ r2 = 7 then 'q' else piece


/-- The character searched by `kingInCheck`: `(color==='W')?'K':'k'`. -/
def kingCharOf (color : Color) : Char := if color = Color.W then 'K' else 'k'

/-- The square `k` is the first occurrence of `ch` on the board in row-major order. -/
def isFirstOccurrence (b : Board) (ch : Char) (k : Sq) : Prop :=
  cellAt b k.1 k.2 = some ch ∧
  ∀ r c : Int, cellAt b r c = some ch → k.1 < r ∨ (k.1 = r ∧ k.2 ≤ c)

/-- The four axis-aligned ray directions (up, down, left, right). -/
def rookDirs : List (Int × Int) := [(-1, 0), (1, 0), (0, -1), (0, 1)]

/-- The four diagonal ray directions. -/
def bishopDirs : List (Int × Int) := [(-1, -1), (-1, 1), (1, -1), (1, 1)]

/-- The ray directions of a sliding piece: four axis-aligned ones for a rook,
four diagonal ones for a bishop, all eight for a queen. -/
def rayDirs (piece : Char) : List (Int × Int) :=
  if piece = 'R' ∨ piece = 'r' then rookDirs
  else if piece = 'B' ∨ piece = 'b' then bishopDirs
  else if piece = 'Q' ∨ piece = 'q' then rookDirs ++ bishopDirs
  else []

/-- The square `n` steps from `(r,c)` in direction `d`. -/
def stepSq (r c : Int) (d : Int × Int) (n : Int) : Sq := (r + n * d.1, c + n * d.2)

/-- The squares strictly between `(r,c)` and the `n`-th square of the ray in
direction `d` are all empty. -/
def clearBefore (b : Board) (r c : Int) (d : Int × Int) (n : Int) : Prop :=
  ∀ n1 : Int, 1 ≤ n1 → n1 < n → cellAt b (stepSq r c d n1).1 (stepSq r c d n1).2 = some '.'

/-- The piece `t` is of the colour opposite to that of `piece`. -/
def oppositeColor (piece t : Char) : Prop :=
  (isWhitePiece piece = true ∧ isBlackPiece t = true) ∨
  (isBlackPiece piece = true ∧ isWhitePiece t = true)

/-- A cell content of the program: `'.'` or one of the twelve piece letters
(the keys of `pieceToUnicode`). -/
def isCell (p : Char) : Bool :=
  p == '.' || p == 'P' || p == 'R' || p == 'N' || p == 'B' || p == 'Q' || p == 'K' ||
  p == 'p' || p == 'r' || p == 'n' || p == 'b' || p == 'q' || p == 'k'

/-- An 8×8 grid all of whose cells are `'.'` or piece letters. -/
def validBoard (b : Board) : Prop := is8x8 b ∧ ∀ row ∈ b, ∀ x ∈ row, isCell x = true

instance (b : Board) : Decidable (validBoard b) := by unfold validBoard; infer_instance

/-- The score `showBestMove` gives to a move: `evaluateBoard` of the board after
the move (with forced promotion). -/
def scoreAfter (b : Board) (mv : Move) : Option Int :=
  match simulateMove b mv.fromR mv.fromC mv.toR mv.toC with
  | none => none
  | some tb => evaluateBoard tb

/-- For the side `turn`, the score `x` is strictly better than `y`: larger for
White, smaller for Black. -/
def strictlyBetter (turn : Color) (x y : Int) : Prop := if turn = Color.W then y < x else x < y

/-- For the side `turn`, the score `x` is at least as good as `y`. -/
def noWorse (turn : Color) (x y : Int) : Prop := if turn = Color.W then y ≤ x else x ≤ y

/-- Two cell contents that the check detector for `color` cannot tell apart:
equal, or a pawn of `color` and the queen it is promoted to. -/
def cellsAgree (color : Color) (x y : Char) : Prop :=
  x = y ∨ (color = Color.W ∧ x = 'P' ∧ y = 'Q') ∨ (color = Color.B ∧ x = 'p' ∧ y = 'q')

/-- Two boards of the same shape whose cells agree in the sense of `cellsAgree`. -/
def boardsAgree (color : Color) (b b1 : Board) : Prop :=
  ∀ r c : Int, (cellAt b r c = none ∧ cellAt b1 r c = none) ∨
    ∃ x y, cellAt b r c = some x ∧ cellAt b1 r c = some y ∧ cellsAgree color x y

/-! ## Sample positions -/

/-- The variables right after `initGame()` with the default five-minute clocks. -/
def startState : State :=
  { board := initialLayout, selectedSquare := none, currentTurn := Color.W, gameOver := false,
    whiteTimeLeft := 300, blackTimeLeft := 300, clockInterval := false, activeColor := Color.W,
    movesData := [], currentMoveNumber := 1, status := "" }

/-- The state returned by `tryMove(6,4,4,4)` (e2-e4) from `startState`. -/
def afterE4 : State :=
  { startState with
    board :=
      [['r','n','b','q','k','b','n','r'],
       ['p','p','p','p','p','p','p','p'],
       ['.','.','.','.','.','.','.','.'],
       ['.','.','.','.','.','.','.','.'],
       ['.','.','.','.','P','.','.','.'],
       ['.','.','.','.','.','.','.','.'],
       ['P','P','P','P','.','P','P','P'],
       ['R','N','B','Q','K','B','N','R']],
    movesData := [MoveEntry.mk 1 "e2-e4" ""] }

/-- The state returned by `tryMove(1,4,3,4)` from `startState`: a black pawn
moved although White is to move. -/
def afterBlackPawnOnWhiteTurn : State :=
  { startState with
    board :=
      [['r','n','b','q','k','b','n','r'],
       ['p','p','p','p','.','p','p','p'],
       ['.','.','.','.','.','.','.','.'],
       ['.','.','.','.','p','.','.','.'],
       ['.','.','.','.','.','.','.','.'],
       ['.','.','.','.','.','.','.','.'],
       ['P','P','P','P','P','P','P','P'],
       ['R','N','B','Q','K','B','N','R']],
    movesData := [MoveEntry.mk 1 "e7-e5" ""] }

/-- A position with a white pawn one step from the far rank, White to move. -/
def promotionState : State :=
  { startState with
    board :=
      [['k','.','.','.','.','.','.','.'],
       ['.','.','.','.','P','.','.','.'],
       ['.','.','.','.','.','.','.','.'],
       ['.','.','.','.','.','.','.','.'],
       ['.','.','.','.','.','.','.','.'],
       ['.','.','.','.','.','.','.','.'],
       ['.','.','.','.','.','.','.','.'],
       ['.','.','.','.','K','.','.','.']] }

/-- The state returned by `tryMove(1,4,0,4)` from `promotionState`. -/
def afterPromotion : State :=
  { startState with
    board :=
      [['k','.','.','.','Q','.','.','.'],
       ['.','.','.','.','.','.','.','.'],
       ['.','.','.','.','.','.','.','.'],
       ['.','.','.','.','.','.','.','.'],
       ['.','.','.','.','.','.','.','.'],
       ['.','.','.','.','.','.','.','.'],
       ['.','.','.','.','.','.','.','.'],
       ['.','.','.','.','K','.','.','.']],
    movesData := [MoveEntry.mk 1 "e7-e8" ""],
    status := "Black is in check!" }

/-! ## Further notions and sample positions -/

/-- The row `n` steps ahead of row `r` in the direction of the pawn `piece`:
`r - n` for the white pawn `'P'`, `r + n` for the black pawn. -/
def rowAhead (piece : Char) (r n : Int) : Int := if piece = 'P' then r - n else r + n

/-- The cell content `t` is a piece of the colour of `piece`. -/
def sameSide (piece t : Char) : Prop :=
  (isWhitePiece piece = true ∧ isWhitePiece t = true) ∨
  (isBlackPiece piece = true ∧ isBlackPiece t = true)

/-- The two-character text of a square: the file letter (`'a'` for column 0 up to
`'h'` for column 7) followed by the decimal digit of the rank `8 - r`. -/
def algebraicOf (r c : Int) : String :=
  String.mk [Char.ofNat ('a'.toNat + c.toNat), Char.ofNat ('0'.toNat + (8 - r).toNat)]

/-- Reads a square back from its two-character text. -/
def squareOfAlgebraic (s : String) : Int × Int :=
  match s.toList with
  | [f, d] => (8 - ((d.toNat : Int) - 48), (f.toNat : Int) - 97)
  | _ => (0, 0)

/-- The value of a piece kind: Pawn 1, Knight 3, Bishop 3, Rook 5, Queen 9,
King 100; anything else 0. -/
def kindValue (p : Char) : Int :=
  if p = 'P' ∨ p = 'p' then 1
  else if p = 'N' ∨ p = 'n' then 3
  else if p = 'B' ∨ p = 'b' then 3
  else if p = 'R' ∨ p = 'r' then 5
  else if p = 'Q' ∨ p = 'q' then 9
  else if p = 'K' ∨ p = 'k' then 100
  else 0

/-- The value a cell contributes to White's material: the value of its kind
when it holds a white piece. -/
def whiteValueAt (b : Board) (s : Sq) : Int :=
  match cellAt b s.1 s.2 with
  | some p => if isWhitePiece p then kindValue p else 0
  | none => 0

/-- The value a cell contributes to Black's material. -/
def blackValueAt (b : Board) (s : Sq) : Int :=
  match cellAt b s.1 s.2 with
  | some p => if isBlackPiece p then kindValue p else 0
  | none => 0

/-- The sum of the values of all white pieces on the 64 squares. -/
def whiteMaterial (b : Board) : Int := (allSquares.map (whiteValueAt b)).sum

/-- The sum of the values of all black pieces on the 64 squares. -/
def blackMaterial (b : Board) : Int := (allSquares.map (blackValueAt b)).sum

/-- The same piece kind in the other colour; `'.'` stays. -/
def swapCase (p : Char) : Char :=
  if isWhitePiece p then p.toLower else if isBlackPiece p then p.toUpper else p

/-- The board with the colours of all pieces swapped. -/
def swapColors (b : Board) : Board := b.map fun row => row.map swapCase

/-- The turn switch made by `onSquareClick` after an accepted move:
`currentTurn = (currentTurn === 'W') ? 'B' : 'W'; activeColor = currentTurn`. -/
def switchTurn (s : State) : State :=
  { s with currentTurn := (if s.currentTurn = Color.W then Color.B else Color.W),
           activeColor := (if s.currentTurn = Color.W then Color.B else Color.W) }

/-- The state returned by `tryMove(6,5,5,5)` (f2-f3) from `startState`. -/
def foolsMate1 : State :=
  { startState with
    board :=
      [['r','n','b','q','k','b','n','r'],
       ['p','p','p','p','p','p','p','p'],
       ['.','.','.','.','.','.','.','.'],
       ['.','.','.','.','.','.','.','.'],
       ['.','.','.','.','.','.','.','.'],
       ['.','.','.','.','.','P','.','.'],
       ['P','P','P','P','P','.','P','P'],
       ['R','N','B','Q','K','B','N','R']],
    movesData := [MoveEntry.mk 1 "f2-f3" ""] }

/-- The state returned by `tryMove(1,4,3,4)` (e7-e5) after the turn switch. -/
def foolsMate2 : State :=
  { startState with
    board :=
      [['r','n','b','q','k','b','n','r'],
       ['p','p','p','p','.','p','p','p'],
       ['.','.','.','.','.','.','.','.'],
       ['.','.','.','.','p','.','.','.'],
       ['.','.','.','.','.','.','.','.'],
       ['.','.','.','.','.','P','.','.'],
       ['P','P','P','P','P','.','P','P'],
       ['R','N','B','Q','K','B','N','R']],
    currentTurn := Color.B,
    activeColor := Color.B,
    movesData := [MoveEntry.mk 1 "f2-f3" "e7-e5"],
    currentMoveNumber := 2 }

/-- The state returned by `tryMove(6,6,4,6)` (g2-g4) after the turn switch. -/
def foolsMate3 : State :=
  { startState with
    board :=
      [['r','n','b','q','k','b','n','r'],
       ['p','p','p','p','.','p','p','p'],
       ['.','.','.','.','.','.','.','.'],
       ['.','.','.','.','p','.','.','.'],
       ['.','.','.','.','.','.','P','.'],
       ['.','.','.','.','.','P','.','.'],
       ['P','P','P','P','P','.','.','P'],
       ['R','N','B','Q','K','B','N','R']],
    movesData := [MoveEntry.mk 1 "f2-f3" "e7-e5", MoveEntry.mk 2 "g2-g4" ""],
    currentMoveNumber := 2 }

/-- The state returned by `tryMove(0,3,4,7)` (d8-h4) after the turn switch. -/
def foolsMate4 : State :=
  { startState with
    board :=
      [['r','n','b','.','k','b','n','r'],
       ['p','p','p','p','.','p','p','p'],
       ['.','.','.','.','.','.','.','.'],
       ['.','.','.','.','p','.','.','.'],
       ['.','.','.','.','.','.','P','q'],
       ['.','.','.','.','.','P','.','.'],
       ['P','P','P','P','P','.','.','P'],
       ['R','N','B','Q','K','B','N','R']],
    currentTurn := Color.B,
    activeColor := Color.B,
    gameOver := true,
    movesData := [MoveEntry.mk 1 "f2-f3" "e7-e5", MoveEntry.mk 2 "g2-g4" "d8-h4"],
    currentMoveNumber := 3,
    status := "Checkmate! Black wins!" }

/-- The other side: `(color === 'W') ? 'B' : 'W'`. -/
def opponent (color : Color) : Color := if color = Color.W then Color.B else Color.W

/-- The board holds the white king on `wk`, the black king on `bk` and nothing else. -/
def onlyKings (b : Board) (wk bk : Sq) : Prop :=
  is8x8 b ∧ cellAt b wk.1 wk.2 = some 'K' ∧ cellAt b bk.1 bk.2 = some 'k' ∧
  ∀ r c : Int, inBounds r c = true → (r, c) ≠ wk → (r, c) ≠ bk → cellAt b r c = some '.'

/-- The square `a` is one king step away from the square `e`. -/
def kingStep (a e : Sq) : Prop := (a.1 - e.1, a.2 - e.2) ∈ kingOffsets

instance (a e : Sq) : Decidable (kingStep a e) := by unfold kingStep; infer_instance

/-- A position with the two kings and a white queen, White to move: black king
a8, white king b6, white queen h7. -/
def beforeStalemate : State :=
  { startState with
    board :=
      [['k','.','.','.','.','.','.','.'],
       ['.','.','.','.','.','.','.','Q'],
       ['.','K','.','.','.','.','.','.'],
       ['.','.','.','.','.','.','.','.'],
       ['.','.','.','.','.','.','.','.'],
       ['.','.','.','.','.','.','.','.'],
       ['.','.','.','.','.','.','.','.'],
       ['.','.','.','.','.','.','.','.']] }

/-- The state returned by `tryMove(1,7,1,2)` (queen h7-c7) from `beforeStalemate`. -/
def afterStalemate : State :=
  { startState with
    board :=
      [['k','.','.','.','.','.','.','.'],
       ['.','.','Q','.','.','.','.','.'],
       ['.','K','.','.','.','.','.','.'],
       ['.','.','.','.','.','.','.','.'],
       ['.','.','.','.','.','.','.','.'],
       ['.','.','.','.','.','.','.','.'],
       ['.','.','.','.','.','.','.','.'],
       ['.','.','.','.','.','.','.','.']],
    gameOver := true,
    movesData := [MoveEntry.mk 1 "h7-c7" ""],
    status := "Stalemate! Draw!" }

/-- The states the session can be in: the state left by `initGame()`, and the
states reached from such a state by clicks on squares of the board
(`onSquareClick`, the clicked element carrying a row and a column in `[0,8)`),
clock ticks (`tickClock`) and presses of the help button (`showBestMove`). -/
inductive Reachable : State → Prop where
  | init (s0 : State) : Reachable (initGame s0)
  | click (s s1 : State) (row col : Int) :
      Reachable s → inBounds row col = true → onSquareClick s row col = some s1 → Reachable s1
  | tick (s : State) : Reachable s → Reachable (tickClock s)
  | help (s s1 : State) : Reachable s → showBestMove s = some s1 → Reachable s1

/-- The character `ch` stands on exactly one square of the board. -/
def exactlyOne (b : Board) (ch : Char) : Prop :=
  ∃ k : Sq, cellAt b k.1 k.2 = some ch ∧ ∀ r c : Int, cellAt b r c = some ch → (r, c) = k

/-- The selected square, if any, holds a piece of the side to move. -/
def selectionOwn (s : State) : Prop :=
  ∀ sel : Sq, s.selectedSquare = some sel →
    ∃ p, cellAt s.board sel.1 sel.2 = some p ∧ isCorrectTurnPiece s.currentTurn p = true

/-- The invariant of the session: an 8×8 board with one king of each colour,
the king of the side that has just moved is not attacked, and the selection
holds a piece of the side to move. -/
def GoodState (s : State) : Prop :=
  is8x8 s.board ∧ exactlyOne s.board 'K' ∧ exactlyOne s.board 'k' ∧
  kingInCheck (opponent s.currentTurn) s.board = some false ∧ selectionOwn s

/-- The state after a click on e2 in `startState`: the white pawn is selected. -/
def selectedE2 : State := { startState with selectedSquare := some (6, 4) }

/-- The state after the clicks e2, e4 in `startState`: the pawn has moved and
Black is to move. -/
def afterE4Clicks : State :=
  { afterE4 with currentTurn := Color.B, activeColor := Color.B }

/-! # Theorems -/

/-! ## Reading and writing cells -/

theorem inBounds_iff (r c : Int) : inBounds r c = true ↔ 0 ≤ r ∧ r < 8 ∧ 0 ≤ c ∧ c < 8 := by
  simp [inBounds, and_assoc]

theorem copyBoard_eq (b : Board) : copyBoard b = b := by
  simp [copyBoard]

theorem cellAt_isSome {b : Board} (hb : is8x8 b) {r c : Int} (h : inBounds r c = true) :
    ∃ x, cellAt b r c = some x := by
  rw [inBounds_iff] at h
  obtain ⟨h0, h1, h2, h3⟩ := h
  have hr : r.toNat < b.length := by rw [hb.1]; omega
  have hrow : (b[r.toNat]).length = 8 := hb.2 _ (List.getElem_mem _)
  have hc : c.toNat < (b[r.toNat]).length := by rw [hrow]; omega
  refine ⟨(b[r.toNat])[c.toNat], ?_⟩
  simp [cellAt, h0, h2, List.getElem?_eq_getElem hr, List.getElem?_eq_getElem hc]

theorem inBounds_of_cellAt {b : Board} (hb : is8x8 b) {r c : Int} {x : Char}
    (h : cellAt b r c = some x) : inBounds r c = true := by
  rw [inBounds_iff]
  unfold cellAt at h
  split at h
  · rename_i hrc
    split at h
    · rename_i row hrow
      rw [List.get?_eq_getElem?] at hrow h
      obtain ⟨hr, hr2⟩ := List.getElem?_eq_some_iff.mp hrow
      obtain ⟨hc, _⟩ := List.getElem?_eq_some_iff.mp h
      have : row.length = 8 := hb.2 row (hr2 ▸ List.getElem_mem _)
      rw [hb.1] at hr
      omega
    · cases h
  · cases h

theorem setCell_isSome {b : Board} (hb : is8x8 b) {r c : Int} (h : inBounds r c = true) (v : Char) :
    ∃ b1, setCell b r c v = some b1 := by
  rw [inBounds_iff] at h
  obtain ⟨h0, h1, h2, h3⟩ := h
  have hr : r.toNat < b.length := by rw [hb.1]; omega
  have hrow : (b[r.toNat]).length = 8 := hb.2 _ (List.getElem_mem _)
  have hc : c.toNat < (b[r.toNat]).length := by rw [hrow]; omega
  simp [setCell, h0, h2, List.getElem?_eq_getElem hr, hc]

theorem setCell_is8x8 {b b1 : Board} {r c : Int} {v : Char}
    (h : setCell b r c v = some b1) (hb : is8x8 b) : is8x8 b1 := by
  unfold setCell at h
  split at h
  · split at h
    · rename_i row hrow
      split at h
      · cases h
        rw [List.get?_eq_getElem?] at hrow
        obtain ⟨hr, hr2⟩ := List.getElem?_eq_some_iff.mp hrow
        refine ⟨by simp [hb.1], ?_⟩
        intro x hx
        rcases List.mem_or_eq_of_mem_set hx with hx | hx
        · exact hb.2 x hx
        · rw [hx, List.length_set]
          exact hb.2 row (hr2 ▸ List.getElem_mem _)
      · cases h
    · cases h
  · cases h

theorem cellAt_setCell {b b1 : Board} {r c : Int} {v : Char}
    (h : setCell b r c v = some b1) (i j : Int) :
    cellAt b1 i j = if i = r ∧ j = c then some v else cellAt b i j := by
  unfold setCell at h
  split at h
  · rename_i hrc
    split at h
    · rename_i row hrow
      split at h
      · rename_i hc
        cases h
        rw [List.get?_eq_getElem?] at hrow
        obtain ⟨hr, hr2⟩ := List.getElem?_eq_some_iff.mp hrow
        unfold cellAt
        by_cases hij : 0 ≤ i ∧ 0 ≤ j
        · simp only [hij, and_self, if_true, List.get?_eq_getElem?]
          by_cases hi : i = r
          · subst hi
            simp only [true_and, List.getElem?_set_self hr]
            by_cases hj : j = c
            · subst hj
              simp [List.getElem?_set_self hc]
            · have : c.toNat ≠ j.toNat := by omega
              simp [hj, List.getElem?_set_ne this, hrow]
          · have : r.toNat ≠ i.toNat := by omega
            simp [hi, List.getElem?_set_ne this]
        · have : ¬ (i = r ∧ j = c) := by
            rintro ⟨rfl, rfl⟩; exact hij hrc
          simp [hij, this]
      · cases h
    · cases h
  · cases h

theorem movePiece_isSome {b : Board} (hb : is8x8 b) {r1 c1 r2 c2 : Int}
    (h1 : inBounds r1 c1 = true) (h2 : inBounds r2 c2 = true) (piece : Char) :
    ∃ b1, movePiece b piece r1 c1 r2 c2 = some b1 := by
  obtain ⟨b1, e1⟩ := setCell_isSome hb h2 piece
  obtain ⟨b2, e2⟩ := setCell_isSome (setCell_is8x8 e1 hb) h1 '.'
  exact ⟨b2, by simp [movePiece, e1, e2]⟩

theorem movePiece_is8x8 {b b1 : Board} {r1 c1 r2 c2 : Int} {piece : Char}
    (h : movePiece b piece r1 c1 r2 c2 = some b1) (hb : is8x8 b) : is8x8 b1 := by
  unfold movePiece at h
  split at h
  · cases h
  · rename_i b0 e0
    exact setCell_is8x8 h (setCell_is8x8 e0 hb)

theorem cellAt_movePiece {b b1 : Board} {r1 c1 r2 c2 : Int} {piece : Char}
    (h : movePiece b piece r1 c1 r2 c2 = some b1) (i j : Int) :
    cellAt b1 i j =
      if i = r1 ∧ j = c1 then some '.'
      else if i = r2 ∧ j = c2 then some piece else cellAt b i j := by
  unfold movePiece at h
  split at h
  · cases h
  · rename_i b0 e0
    rw [cellAt_setCell h, cellAt_setCell e0]

theorem promote_isSome {b : Board} (hb : is8x8 b) {r2 c2 : Int}
    (h2 : inBounds r2 c2 = true) (piece : Char) :
    ∃ b1, promote b piece r2 c2 = some b1 := by
  unfold promote
  by_cases hP : (piece == 'P' && r2 == 0) = true
  · obtain ⟨b1, e1⟩ := setCell_isSome hb h2 'Q'
    obtain ⟨b2, e2⟩ := setCell_isSome (setCell_is8x8 e1 hb) h2 'q'
    by_cases hq : (piece == 'p' && r2 == 7) = true
    · exact ⟨b2, by simp [hP, hq, e1, e2]⟩
    · exact ⟨b1, by simp [hP, hq, e1]⟩
  · obtain ⟨b2, e2⟩ := setCell_isSome hb h2 'q'
    by_cases hq : (piece == 'p' && r2 == 7) = true
    · exact ⟨b2, by simp [hP, hq, e2]⟩
    · exact ⟨b, by simp [hP, hq]⟩

theorem promote_is8x8 {b b1 : Board} {r2 c2 : Int} {piece : Char}
    (h : promote b piece r2 c2 = some b1) (hb : is8x8 b) : is8x8 b1 := by
  unfold promote at h
  split at h
  · cases h
  · rename_i b0 e0
    have hb0 : is8x8 b0 := by
      split at e0
      · exact setCell_is8x8 e0 hb
      · cases e0; exact hb
    split at h
    · exact setCell_is8x8 h hb0
    · cases h; exact hb0

theorem cellAt_promote {b b1 : Board} {r2 c2 : Int} {piece : Char}
    (h : promote b piece r2 c2 = some b1) (hp : cellAt b r2 c2 = some piece) (i j : Int) :
    cellAt b1 i j = if i = r2 ∧ j = c2 then some (promoted piece r2) else cellAt b i j := by
  unfold promote at h
  by_cases hP : piece = 'P' ∧ r2 = 0
  · obtain ⟨rfl, rfl⟩ := hP
    simp only [beq_self_eq_true, Bool.and_self, if_true] at h
    split at h
    · cases h
    · rename_i b0 e0
      simp only [show (('P' : Char) == 'p') = false by decide, Bool.false_and] at h
      cases h
      rw [cellAt_setCell e0]
      simp [promoted]
  · have hP' : (piece == 'P' && r2 == 0) = false := by simpa using hP
    simp only [hP', Bool.false_eq_true, if_false] at h
    by_cases hq : piece = 'p' ∧ r2 = 7
    · obtain ⟨rfl, rfl⟩ := hq
      simp only [beq_self_eq_true, Bool.and_self, if_true] at h
      rw [cellAt_setCell h]
      simp [promoted]
    · have hq' : (piece == 'p' && r2 == 7) = false := by simpa using hq
      simp only [hq', Bool.false_eq_true, if_false] at h
      cases h
      simp only [promoted, hP, hq, if_false]
      split
      · rename_i hij; rw [hij.1, hij.2, hp]
      · rfl

/-! ## Shape of an accepted move -/

theorem simulateMove_eq {b tb : Board} {r1 c1 r2 c2 : Int}
    (h : simulateMove b r1 c1 r2 c2 = some tb) :
    ∃ piece b1, cellAt b r1 c1 = some piece ∧ movePiece b piece r1 c1 r2 c2 = some b1 ∧
      promote b1 piece r2 c2 = some tb := by
  simp only [simulateMove, copyBoard_eq] at h
  split at h
  · cases h
  · rename_i piece hp
    split at h
    · cases h
    · rename_i b1 hb1
      exact ⟨piece, b1, hp, hb1, h⟩

theorem tryMove_true_inv {s s1 : State} {r1 c1 r2 c2 : Int}
    (h : tryMove s r1 c1 r2 c2 = some (true, s1)) :
    s.gameOver = false ∧
    ∃ moves piece captured b1 b2,
      generateValidMoves r1 c1 s.board = some moves ∧ hasTarget moves r2 c2 = true ∧
      cellAt s.board r1 c1 = some piece ∧ cellAt s.board r2 c2 = some captured ∧
      movePiece s.board piece r1 c1 r2 c2 = some b1 ∧ promote b1 piece r2 c2 = some b2 ∧
      simulateMove s.board r1 c1 r2 c2 = some b2 ∧
      kingInCheck s.currentTurn b2 = some false ∧
      classifyAfterMove (recordMove { s with board := b2 } r1 c1 r2 c2 captured) = some s1 := by
  unfold tryMove at h
  split at h
  · simp at h
  · rename_i hgo
    refine ⟨by simpa using hgo, ?_⟩
    split at h
    · cases h
    · rename_i moves hm
      split at h
      · simp at h
      · rename_i hin
        simp only [copyBoard_eq] at h
        split at h
        · cases h
        · rename_i piece hp
          split at h
          · cases h
          · rename_i tb htb
            obtain ⟨piece1, b1, hp1, hb1, hb2⟩ := simulateMove_eq htb
            rw [hp] at hp1
            cases hp1
            split at h
            · cases h
            · simp at h
            · rename_i hk
              split at h
              · rename_i captured src hcap hsrc
                rw [hp] at hsrc
                cases hsrc
                rw [hb1] at h
                simp only [hb2] at h
                split at h
                · cases h
                · rename_i s2 hs2
                  simp only [Option.some.injEq, Prod.mk.injEq, true_and] at h
                  subst h
                  exact ⟨moves, piece, captured, b1, tb, hm, by simpa using hin, hp, hcap,
                    hb1, hb2, htb, hk, hs2⟩
              · cases h

/-! ## The generic same-colour filter -/

theorem mem_filterSameColor {piece : Char} {cb : Board} :
    ∀ {l out : List Sq}, filterSameColor piece cb l = some out →
      ∀ m : Sq, m ∈ out ↔ m ∈ l ∧ ∃ t, cellAt cb m.1 m.2 = some t ∧ sameColor piece t = false
  | [], out, h, m => by
    simp only [filterSameColor, Option.some.injEq] at h
    subst h
    simp
  | x :: xs, out, h, m => by
    unfold filterSameColor at h
    split at h
    · cases h
    · rename_i t ht
      split at h
      · cases h
      · rename_i rest hrest
        have ih := mem_filterSameColor hrest m
        by_cases hs : sameColor piece t = true
        · simp only [hs, Bool.not_true, Bool.false_eq_true, if_false, Option.some.injEq] at h
          subst h
          rw [ih, List.mem_cons]
          constructor
          · rintro ⟨h1, h2⟩; exact ⟨Or.inr h1, h2⟩
          · rintro ⟨h1 | h1, t1, h2, h3⟩
            · subst h1; rw [ht] at h2; cases h2; rw [hs] at h3; cases h3
            · exact ⟨h1, t1, h2, h3⟩
        · have hs' : sameColor piece t = false := by simpa using hs
          simp only [hs', Bool.not_false, if_true, Option.some.injEq] at h
          subst h
          rw [List.mem_cons, ih, List.mem_cons]
          constructor
          · rintro (h1 | ⟨h1, h2⟩)
            · subst h1; exact ⟨Or.inl rfl, t, ht, hs'⟩
            · exact ⟨Or.inr h1, h2⟩
          · rintro ⟨h1 | h1, h2⟩
            · exact Or.inl h1
            · exact Or.inr ⟨h1, h2⟩

theorem hasTarget_iff (moves : List Sq) (r2 c2 : Int) :
    hasTarget moves r2 c2 = true ↔ (r2, c2) ∈ moves := by
  simp only [hasTarget, List.any_eq_true, Bool.and_eq_true, beq_iff_eq]
  constructor
  · rintro ⟨⟨a, b⟩, hm, h1, h2⟩
    simp only at h1 h2
    subst h1; subst h2; exact hm
  · intro h; exact ⟨(r2, c2), h, rfl, rfl⟩

theorem isLetter_of_toLowerCase {piece : Char}
    (h : toLowerCase piece = 'p' ∨ toLowerCase piece = 'r' ∨ toLowerCase piece = 'n' ∨
      toLowerCase piece = 'b' ∨ toLowerCase piece = 'q' ∨ toLowerCase piece = 'k') :
    isWhitePiece piece = true ∨ isBlackPiece piece = true ∨ piece = kelvinSign := by
  by_cases hk : piece = kelvinSign
  · exact Or.inr (Or.inr hk)
  · have hl : toLowerCase piece = piece.toLower := by simp [toLowerCase, hk]
    rw [hl] at h
    by_cases hu : piece.toNat ≥ 65 ∧ piece.toNat ≤ 90
    · left
      simp only [isWhitePiece, Bool.and_eq_true, decide_eq_true_eq, ge_iff_le, Char.le_def]
      exact hu
    · right; left
      have : piece.toLower = piece := by
        simp only [Char.toLower]
        rw [if_neg hu]
      rw [this] at h
      rcases h with h | h | h | h | h | h <;> subst h <;> decide

theorem rawMoves_nil_of_not_letter {piece : Char} {r c : Int} {cb : Board}
    (h : ¬ (isWhitePiece piece = true ∨ isBlackPiece piece = true ∨ piece = kelvinSign)) :
    rawMoves piece r c cb = some [] := by
  unfold rawMoves
  simp only
  split
  · rename_i h1; exact absurd (isLetter_of_toLowerCase (Or.inl h1)) h
  split
  · rename_i h1; exact absurd (isLetter_of_toLowerCase (Or.inr (Or.inl h1))) h
  split
  · rename_i h1; exact absurd (isLetter_of_toLowerCase (Or.inr (Or.inr (Or.inl h1)))) h
  split
  · rename_i h1
    exact absurd (isLetter_of_toLowerCase (Or.inr (Or.inr (Or.inr (Or.inl h1))))) h
  split
  · rename_i h1
    exact absurd (isLetter_of_toLowerCase (Or.inr (Or.inr (Or.inr (Or.inr (Or.inl h1)))))) h
  split
  · rename_i h1
    exact absurd (isLetter_of_toLowerCase (Or.inr (Or.inr (Or.inr (Or.inr (Or.inr h1)))))) h
  rfl

theorem rawMoves_kelvinSign (r c : Int) (cb : Board) :
    rawMoves kelvinSign r c cb = kingMoves r c cb := by
  rfl

theorem not_mem_kingMoves_self {r c : Int} {cb : Board} {l : List Sq}
    (h : kingMoves r c cb = some l) : (r, c) ∉ l := by
  simp only [kingMoves, Option.some.injEq] at h
  subst h
  intro hm
  obtain ⟨hm1, _⟩ := List.mem_filter.mp hm
  obtain ⟨d, hd, he⟩ := List.mem_map.mp hm1
  simp only [Prod.mk.injEq] at he
  have h1 : d.1 = 0 := by omega
  have h2 : d.2 = 0 := by omega
  have : d = (0, 0) := Prod.ext h1 h2
  subst this
  revert hd
  decide

/-- The two stages of `generateValidMoves` on an occupied square. -/
theorem generateValidMoves_stages {r c : Int} {b : Board} {moves : List Sq}
    (h : generateValidMoves r c b = some moves) {m : Sq} (hm : m ∈ moves) :
    ∃ piece raw, cellAt b r c = some piece ∧ piece ≠ '.' ∧
      rawMoves piece r c b = some raw ∧ filterSameColor piece b raw = some moves := by
  unfold generateValidMoves at h
  split at h
  · cases h
  · rename_i piece hp
    split at h
    · cases h; cases hm
    · rename_i hdot
      split at h
      · cases h
      · rename_i raw hraw
        exact ⟨piece, raw, hp, by simpa using hdot, hraw, h⟩

/-- Every target of `generateValidMoves` holds something that is not of the
colour of the moving piece. -/
theorem generateValidMoves_target {r c : Int} {b : Board} {moves : List Sq}
    (h : generateValidMoves r c b = some moves) {m : Sq} (hm : m ∈ moves) :
    ∃ piece t, cellAt b r c = some piece ∧ cellAt b m.1 m.2 = some t ∧
      sameColor piece t = false ∧ piece ≠ '.' := by
  obtain ⟨piece, raw, hp, hdot, _, hf⟩ := generateValidMoves_stages h hm
  obtain ⟨_, t, ht, hs⟩ := (mem_filterSameColor hf m).mp hm
  exact ⟨piece, t, hp, ht, hs, hdot⟩

theorem generateValidMoves_ne_self {r c : Int} {b : Board} {moves : List Sq}
    (h : generateValidMoves r c b = some moves) : (r, c) ∉ moves := by
  intro hm
  obtain ⟨piece, raw, hp, hdot, hraw, hf⟩ := generateValidMoves_stages h hm
  obtain ⟨hmraw, t, ht, hs⟩ := (mem_filterSameColor hf (r, c)).mp hm
  simp only at ht
  rw [hp] at ht
  cases ht
  have hd : (piece == '.') = false := by simpa using hdot
  by_cases hl : isWhitePiece piece = true ∨ isBlackPiece piece = true ∨ piece = kelvinSign
  · rcases hl with hl | hl | hl
    · simp [sameColor, hd, hl] at hs
    · simp [sameColor, hd, hl] at hs
    · subst hl
      rw [rawMoves_kelvinSign] at hraw
      exact not_mem_kingMoves_self hraw hmraw
  · rw [rawMoves_nil_of_not_letter hl] at hraw
    cases hraw
    cases hmraw

/-! ## Frame of the bookkeeping after a move -/

theorem recordMove_frame (s : State) (r1 c1 r2 c2 : Int) (cap : Char) :
    (recordMove s r1 c1 r2 c2 cap).board = s.board ∧
    (recordMove s r1 c1 r2 c2 cap).currentTurn = s.currentTurn ∧
    (recordMove s r1 c1 r2 c2 cap).gameOver = s.gameOver := by
  unfold recordMove
  simp only
  split <;> exact ⟨rfl, rfl, rfl⟩

theorem classifyAfterMove_frame {s s1 : State} (h : classifyAfterMove s = some s1) :
    s1.board = s.board ∧ s1.currentTurn = s.currentTurn ∧ s1.movesData = s.movesData := by
  unfold classifyAfterMove at h
  simp only at h
  split at h
  · cases h
  · split at h
    · cases h
    · cases h; exact ⟨rfl, rfl, rfl⟩
    · cases h; exact ⟨rfl, rfl, rfl⟩
  · split at h
    · cases h
    · cases h; exact ⟨rfl, rfl, rfl⟩
    · cases h; exact ⟨rfl, rfl, rfl⟩

theorem tryMove_true_board {s s1 : State} {r1 c1 r2 c2 : Int}
    (h : tryMove s r1 c1 r2 c2 = some (true, s1)) :
    simulateMove s.board r1 c1 r2 c2 = some s1.board ∧ s1.currentTurn = s.currentTurn ∧
      kingInCheck s.currentTurn s1.board = some false := by
  obtain ⟨_, moves, piece, captured, b1, b2, _, _, _, _, _, _, hsim, hk, hcl⟩ := tryMove_true_inv h
  obtain ⟨e1, e2, _⟩ := classifyAfterMove_frame hcl
  obtain ⟨f1, f2, _⟩ := recordMove_frame { s with board := b2 } r1 c1 r2 c2 captured
  rw [f1] at e1
  rw [f2] at e2
  simp only at e1 e2
  rw [e1]
  exact ⟨hsim, e2, hk⟩

/-! ## The generators never index outside the grid -/

theorem isEmptySquare_isSome {b : Board} (hb : is8x8 b) {r c : Int} (h : inBounds r c = true) :
    ∃ e, isEmptySquare r c b = some e := by
  obtain ⟨x, hx⟩ := cellAt_isSome hb h
  exact ⟨x == '.', by simp [isEmptySquare, hx]⟩

theorem pawnCapture_total {b : Board} (hb : is8x8 b) (piece : Char) (f1 cc : Int) :
    ∃ l, pawnCapture piece f1 cc b = some l ∧ ∀ m ∈ l, inBounds m.1 m.2 = true := by
  unfold pawnCapture
  by_cases h : inBounds f1 cc = true
  · obtain ⟨x, hx⟩ := cellAt_isSome hb h
    simp only [h, if_true, isEmptySquare, hx]
    by_cases he : (x == '.') = true
    · simp [he]
    · by_cases hs : sameColor piece x = true
      · simp [he, hs]
      · simp [he, hs, h]
  · simp [h]

theorem pawnDouble_total {b : Board} (hb : is8x8 b) (g : Bool) {r2 c : Int}
    (h : g = true → inBounds r2 c = true) :
    ∃ l, pawnDouble g r2 c b = some l ∧ ∀ m ∈ l, inBounds m.1 m.2 = true := by
  unfold pawnDouble
  by_cases hg : g = true
  · obtain ⟨y, hy⟩ := cellAt_isSome hb (h hg)
    simp only [hg, if_true, hy]
    by_cases hyd : (y == '.') = true
    · exact ⟨[(r2, c)], by simp [hyd], by simpa using h hg⟩
    · exact ⟨[], by simp [hyd], by simp⟩
  · exact ⟨[], by simp [hg], by simp⟩

theorem pawnForward_total {b : Board} (hb : is8x8 b) (piece : Char) {r c : Int} (f1 : Int)
    (h : inBounds r c = true) :
    ∃ l, pawnForward piece r c f1 b = some l ∧ ∀ m ∈ l, inBounds m.1 m.2 = true := by
  unfold pawnForward
  by_cases hf : inBounds f1 c = true
  · obtain ⟨x, hx⟩ := cellAt_isSome hb hf
    simp only [hf, if_true, hx]
    by_cases hdot : (x == '.') = true
    · obtain ⟨w, ew, gw⟩ := pawnDouble_total hb (isWhitePiece piece && r == 6)
        (show _ → inBounds (r - 2) c = true by
          intro h6; simp at h6; rw [inBounds_iff] at h ⊢; omega)
      obtain ⟨k, ek, gk⟩ := pawnDouble_total hb (isBlackPiece piece && r == 1)
        (show _ → inBounds (r + 2) c = true by
          intro h6; simp at h6; rw [inBounds_iff] at h ⊢; omega)
      refine ⟨(f1, c) :: (w ++ k), by simp [hdot, ew, ek], ?_⟩
      intro m hm
      rcases List.mem_cons.mp hm with hm | hm
      · subst hm; exact hf
      · rcases List.mem_append.mp hm with hm | hm
        · exact gw m hm
        · exact gk m hm
    · exact ⟨[], by simp [hdot], by simp⟩
  · exact ⟨[], by simp [hf], by simp⟩

theorem pawnMoves_total {b : Board} (hb : is8x8 b) {r c : Int} (h : inBounds r c = true) :
    ∃ l, pawnMoves r c b = some l ∧ ∀ m ∈ l, inBounds m.1 m.2 = true := by
  obtain ⟨piece, hp⟩ := cellAt_isSome hb h
  obtain ⟨fw, e0, g0⟩ := pawnForward_total hb piece (r + pawnDirection piece) h
  obtain ⟨l1, e1, g1⟩ := pawnCapture_total hb piece (r + pawnDirection piece) (c - 1)
  obtain ⟨l2, e2, g2⟩ := pawnCapture_total hb piece (r + pawnDirection piece) (c + 1)
  refine ⟨fw ++ l1 ++ l2, by simp [pawnMoves, hp, e0, e1, e2], ?_⟩
  intro m hm
  simp only [List.mem_append] at hm
  rcases hm with (hm | hm) | hm
  · exact g0 m hm
  · exact g1 m hm
  · exact g2 m hm

theorem ray_total {b : Board} (hb : is8x8 b) (cond : Int → Int → Bool) (di dj : Int)
    (inv : Int → Int → Prop) (mu : Int → Int → Nat)
    (hin : ∀ i j, cond i j = true → inv i j → inBounds i j = true)
    (hstep : ∀ i j, cond i j = true → inv i j →
      inv (i + di) (j + dj) ∧ mu (i + di) (j + dj) < mu i j) :
    ∀ (fuel : Nat) (i j : Int), inv i j → mu i j < fuel →
      ∃ l, ray b cond di dj fuel i j = some l ∧ ∀ m ∈ l, inBounds m.1 m.2 = true := by
  intro fuel
  induction fuel with
  | zero => intro i j _ h; omega
  | succ n ih =>
    intro i j hinv hmu
    unfold ray
    by_cases hc : cond i j = true
    · have hb1 := hin i j hc hinv
      obtain ⟨e, he⟩ := isEmptySquare_isSome hb hb1
      simp only [hc, if_true, he]
      cases e with
      | false => exact ⟨[(i, j)], by simp, by simpa using hb1⟩
      | true =>
        obtain ⟨hinv1, hmu1⟩ := hstep i j hc hinv
        obtain ⟨l, hl, gl⟩ := ih (i + di) (j + dj) hinv1 (by omega)
        refine ⟨(i, j) :: l, by simp [hl], ?_⟩
        intro m hm
        rcases List.mem_cons.mp hm with hm | hm
        · subst hm; exact hb1
        · exact gl m hm
    · exact ⟨[], by simp [hc], by simp⟩

theorem rookMoves_total {b : Board} (hb : is8x8 b) {r c : Int} (h : inBounds r c = true) :
    ∃ l, rookMoves r c b = some l ∧ ∀ m ∈ l, inBounds m.1 m.2 = true := by
  rw [inBounds_iff] at h
  obtain ⟨u, eu, gu⟩ := ray_total hb (fun i _ => decide (i ≥ 0)) (-1) 0
    (fun i j => i < 8 ∧ 0 ≤ j ∧ j < 8) (fun i _ => (i + 1).toNat)
    (by intro i j hc hi; simp at hc; rw [inBounds_iff]; omega)
    (by intro i j hc hi; simp at hc; dsimp only; omega) 9 (r - 1) c (by dsimp only; omega) (by dsimp only; omega)
  obtain ⟨d, ed, gd⟩ := ray_total hb (fun i _ => decide (i < 8)) 1 0
    (fun i j => 0 ≤ i ∧ 0 ≤ j ∧ j < 8) (fun i _ => (8 - i).toNat)
    (by intro i j hc hi; simp at hc; rw [inBounds_iff]; omega)
    (by intro i j hc hi; simp at hc; dsimp only; omega) 9 (r + 1) c (by dsimp only; omega) (by dsimp only; omega)
  obtain ⟨l, el, gl⟩ := ray_total hb (fun _ j => decide (j ≥ 0)) 0 (-1)
    (fun i j => j < 8 ∧ 0 ≤ i ∧ i < 8) (fun _ j => (j + 1).toNat)
    (by intro i j hc hi; simp at hc; rw [inBounds_iff]; omega)
    (by intro i j hc hi; simp at hc; dsimp only; omega) 9 r (c - 1) (by dsimp only; omega) (by dsimp only; omega)
  obtain ⟨rt, ert, grt⟩ := ray_total hb (fun _ j => decide (j < 8)) 0 1
    (fun i j => 0 ≤ j ∧ 0 ≤ i ∧ i < 8) (fun _ j => (8 - j).toNat)
    (by intro i j hc hi; simp at hc; rw [inBounds_iff]; omega)
    (by intro i j hc hi; simp at hc; dsimp only; omega) 9 r (c + 1) (by dsimp only; omega) (by dsimp only; omega)
  refine ⟨u ++ d ++ l ++ rt, by simp [rookMoves, eu, ed, el, ert], ?_⟩
  intro m hm
  simp only [List.mem_append] at hm
  rcases hm with ((hm | hm) | hm) | hm
  · exact gu m hm
  · exact gd m hm
  · exact gl m hm
  · exact grt m hm

theorem bishopMoves_total {b : Board} (hb : is8x8 b) {r c : Int} (h : inBounds r c = true) :
    ∃ l, bishopMoves r c b = some l ∧ ∀ m ∈ l, inBounds m.1 m.2 = true := by
  rw [inBounds_iff] at h
  obtain ⟨u, eu, gu⟩ := ray_total hb inBounds (-1) (-1)
    (fun _ _ => True) (fun i _ => (i + 1).toNat)
    (by intro i j hc _; exact hc)
    (by intro i j hc _; rw [inBounds_iff] at hc; exact ⟨trivial, by dsimp only; omega⟩)
    9 (r - 1) (c - 1) trivial (by dsimp only; omega)
  obtain ⟨d, ed, gd⟩ := ray_total hb inBounds (-1) 1
    (fun _ _ => True) (fun i _ => (i + 1).toNat)
    (by intro i j hc _; exact hc)
    (by intro i j hc _; rw [inBounds_iff] at hc; exact ⟨trivial, by dsimp only; omega⟩)
    9 (r - 1) (c + 1) trivial (by dsimp only; omega)
  obtain ⟨l, el, gl⟩ := ray_total hb inBounds 1 (-1)
    (fun _ _ => True) (fun i _ => (8 - i).toNat)
    (by intro i j hc _; exact hc)
    (by intro i j hc _; rw [inBounds_iff] at hc; exact ⟨trivial, by dsimp only; omega⟩)
    9 (r + 1) (c - 1) trivial (by dsimp only; omega)
  obtain ⟨rt, ert, grt⟩ := ray_total hb inBounds 1 1
    (fun _ _ => True) (fun i _ => (8 - i).toNat)
    (by intro i j hc _; exact hc)
    (by intro i j hc _; rw [inBounds_iff] at hc; exact ⟨trivial, by dsimp only; omega⟩)
    9 (r + 1) (c + 1) trivial (by dsimp only; omega)
  refine ⟨u ++ d ++ l ++ rt, by simp [bishopMoves, eu, ed, el, ert], ?_⟩
  intro m hm
  simp only [List.mem_append] at hm
  rcases hm with ((hm | hm) | hm) | hm
  · exact gu m hm
  · exact gd m hm
  · exact gl m hm
  · exact grt m hm

theorem queenMoves_total {b : Board} (hb : is8x8 b) {r c : Int} (h : inBounds r c = true) :
    ∃ l, queenMoves r c b = some l ∧ ∀ m ∈ l, inBounds m.1 m.2 = true := by
  obtain ⟨l1, e1, g1⟩ := rookMoves_total hb h
  obtain ⟨l2, e2, g2⟩ := bishopMoves_total hb h
  refine ⟨l1 ++ l2, by simp [queenMoves, e1, e2], ?_⟩
  intro m hm
  rcases List.mem_append.mp hm with hm | hm
  · exact g1 m hm
  · exact g2 m hm

theorem rawMoves_total {b : Board} (hb : is8x8 b) (piece : Char) {r c : Int}
    (h : inBounds r c = true) :
    ∃ l, rawMoves piece r c b = some l ∧ ∀ m ∈ l, inBounds m.1 m.2 = true := by
  unfold rawMoves
  simp only
  split
  · exact pawnMoves_total hb h
  split
  · exact rookMoves_total hb h
  split
  · exact ⟨_, rfl, by intro m hm; exact (List.mem_filter.mp hm).2⟩
  split
  · exact bishopMoves_total hb h
  split
  · exact queenMoves_total hb h
  split
  · exact ⟨_, rfl, by intro m hm; exact (List.mem_filter.mp hm).2⟩
  exact ⟨[], rfl, by simp⟩

theorem filterSameColor_total {b : Board} (hb : is8x8 b) (piece : Char) :
    ∀ l : List Sq, (∀ m ∈ l, inBounds m.1 m.2 = true) →
      ∃ out, filterSameColor piece b l = some out
  | [], _ => ⟨[], rfl⟩
  | x :: xs, h => by
    obtain ⟨t, ht⟩ := cellAt_isSome hb (h x (List.mem_cons_self _ _))
    obtain ⟨rest, hrest⟩ := filterSameColor_total hb piece xs
      (fun m hm => h m (List.mem_cons_of_mem _ hm))
    unfold filterSameColor
    simp only [ht, hrest]
    split
    · exact ⟨_, rfl⟩
    · exact ⟨_, rfl⟩

theorem generateValidMoves_total {b : Board} (hb : is8x8 b) {r c : Int}
    (h : inBounds r c = true) :
    ∃ l, generateValidMoves r c b = some l ∧ ∀ m ∈ l, inBounds m.1 m.2 = true := by
  obtain ⟨piece, hp⟩ := cellAt_isSome hb h
  unfold generateValidMoves
  simp only [hp]
  split
  · exact ⟨[], rfl, by simp⟩
  · obtain ⟨raw, hraw, graw⟩ := rawMoves_total hb piece h
    obtain ⟨out, hout⟩ := filterSameColor_total hb piece raw graw
    simp only [hraw]
    exact ⟨out, hout, fun m hm => graw m ((mem_filterSameColor hout m).mp hm).1⟩

/-! ## The square scans -/

theorem allSquares_inBounds : ∀ s ∈ allSquares, inBounds s.1 s.2 = true := by decide

theorem mem_allSquares {r c : Int} (h : inBounds r c = true) : (r, c) ∈ allSquares := by
  rw [inBounds_iff] at h
  obtain ⟨h0, h1, h2, h3⟩ := h
  have hr : r = 0 ∨ r = 1 ∨ r = 2 ∨ r = 3 ∨ r = 4 ∨ r = 5 ∨ r = 6 ∨ r = 7 := by omega
  have hc : c = 0 ∨ c = 1 ∨ c = 2 ∨ c = 3 ∨ c = 4 ∨ c = 5 ∨ c = 6 ∨ c = 7 := by omega
  rcases hr with rfl | rfl | rfl | rfl | rfl | rfl | rfl | rfl <;>
    rcases hc with rfl | rfl | rfl | rfl | rfl | rfl | rfl | rfl <;> decide

/-- The squares are visited in strictly increasing row-major order. -/
theorem allSquares_sorted :
    allSquares.Pairwise fun s t => s.1 < t.1 ∨ (s.1 = t.1 ∧ s.2 < t.2) := by decide

theorem findKing_spec {b : Board} (hb : is8x8 b) (ch : Char) :
    ∀ l : List Sq, (∀ s ∈ l, inBounds s.1 s.2 = true) →
      ∃ res, findKing ch b l = some res ∧
        (res = none → ∀ s ∈ l, cellAt b s.1 s.2 ≠ some ch) ∧
        (∀ k, res = some k → cellAt b k.1 k.2 = some ch ∧
          ∃ l1 l2, l = l1 ++ k :: l2 ∧ ∀ s ∈ l1, cellAt b s.1 s.2 ≠ some ch)
  | [], _ => ⟨none, rfl, by simp, by simp⟩
  | x :: xs, h => by
    obtain ⟨t, ht⟩ := cellAt_isSome hb (h x (List.mem_cons_self _ _))
    obtain ⟨res, hres, h1, h2⟩ := findKing_spec hb ch xs
      (fun m hm => h m (List.mem_cons_of_mem _ hm))
    unfold findKing
    simp only [ht]
    by_cases hk : (t == ch) = true
    · have htc : t = ch := by simpa using hk
      refine ⟨some x, by simp [hk], by simp, ?_⟩
      intro k hk1
      cases hk1
      exact ⟨by rw [ht, htc], [], xs, rfl, by simp⟩
    · have htc : t ≠ ch := by simpa using hk
      refine ⟨res, by simp [hk, hres], ?_, ?_⟩
      · intro hn s hs
        rcases List.mem_cons.mp hs with hs | hs
        · subst hs; rw [ht]; simpa using htc
        · exact h1 hn s hs
      · intro k hk1
        obtain ⟨g1, l1, l2, g2, g3⟩ := h2 k hk1
        refine ⟨g1, x :: l1, l2, by rw [g2]; rfl, ?_⟩
        intro s hs
        rcases List.mem_cons.mp hs with hs | hs
        · subst hs; rw [ht]; simpa using htc
        · exact g3 s hs

theorem attackScan_spec {b : Board} (hb : is8x8 b) (color : Color) (k : Sq) :
    ∀ l : List Sq, (∀ s ∈ l, inBounds s.1 s.2 = true) →
      ∃ v, attackScan color b k l = some v ∧
        (v = true ↔ ∃ s ∈ l, ∃ p moves, cellAt b s.1 s.2 = some p ∧
          isEnemyPiece color p = true ∧ generateValidMoves s.1 s.2 b = some moves ∧ k ∈ moves)
  | [], _ => ⟨false, rfl, by simp⟩
  | x :: xs, h => by
    have hx := h x (List.mem_cons_self _ _)
    obtain ⟨p, hp⟩ := cellAt_isSome hb hx
    obtain ⟨moves, hm, _⟩ := generateValidMoves_total hb hx
    obtain ⟨v, hv, hiff⟩ := attackScan_spec hb color k xs
      (fun m hm => h m (List.mem_cons_of_mem _ hm))
    have hrest : (∃ s ∈ x :: xs, ∃ p moves, cellAt b s.1 s.2 = some p ∧
          isEnemyPiece color p = true ∧ generateValidMoves s.1 s.2 b = some moves ∧ k ∈ moves) ↔
        ((isEnemyPiece color p = true ∧ k ∈ moves) ∨ v = true) := by
      rw [hiff]
      constructor
      · rintro ⟨s, hs, p1, m1, e1, e2, e3, e4⟩
        rcases List.mem_cons.mp hs with hs | hs
        · subst hs
          rw [hp] at e1; cases e1
          rw [hm] at e3; cases e3
          exact Or.inl ⟨e2, e4⟩
        · exact Or.inr ⟨s, hs, p1, m1, e1, e2, e3, e4⟩
      · rintro (⟨e2, e4⟩ | ⟨s, hs, rest⟩)
        · exact ⟨x, List.mem_cons_self _ _, p, moves, hp, e2, hm, e4⟩
        · exact ⟨s, List.mem_cons_of_mem _ hs, rest⟩
    unfold attackScan
    simp only [hp]
    by_cases hdot : (p == '.') = true
    · have : isEnemyPiece color p = false := by
        have : p = '.' := by simpa using hdot
        subst this
        cases color <;> decide
      refine ⟨v, by simp [hdot, hv], ?_⟩
      rw [hrest, this]
      simp
    · by_cases hen : isEnemyPiece color p = true
      · simp only [hdot, hen, if_true, hm, Bool.false_eq_true, if_false]
        by_cases ht : hasTarget moves k.1 k.2 = true
        · refine ⟨true, by simp [ht], ?_⟩
          rw [hrest]
          simp only [true_iff]
          exact Or.inl ⟨hen, (hasTarget_iff _ _ _).mp ht⟩
        · refine ⟨v, by simp [ht, hv], ?_⟩
          rw [hrest]
          have : ¬ k ∈ moves := fun hk => ht ((hasTarget_iff _ _ _).mpr hk)
          simp [this]
      · refine ⟨v, by simp [hdot, hen, hv], ?_⟩
        rw [hrest]
        simp [hen]

theorem kingInCheck_total {b : Board} (hb : is8x8 b) (color : Color) :
    ∃ v, kingInCheck color b = some v := by
  unfold kingInCheck
  obtain ⟨res, hres, _, _⟩ := findKing_spec hb (if color = Color.W then 'K' else 'k')
    allSquares allSquares_inBounds
  simp only [hres]
  cases res with
  | none => exact ⟨false, rfl⟩
  | some k =>
    obtain ⟨v, hv, _⟩ := attackScan_spec hb color k allSquares allSquares_inBounds
    exact ⟨v, hv⟩

/-! ## Simulated moves stay on the grid -/

theorem simulateMove_total {b : Board} (hb : is8x8 b) {r1 c1 r2 c2 : Int}
    (h1 : inBounds r1 c1 = true) (h2 : inBounds r2 c2 = true) :
    ∃ tb, simulateMove b r1 c1 r2 c2 = some tb ∧ is8x8 tb := by
  obtain ⟨piece, hp⟩ := cellAt_isSome hb h1
  obtain ⟨b1, hb1⟩ := movePiece_isSome hb h1 h2 piece
  obtain ⟨b2, hb2⟩ := promote_isSome (movePiece_is8x8 hb1 hb) h2 piece
  exact ⟨b2, by simp [simulateMove, copyBoard_eq, hp, hb1, hb2],
    promote_is8x8 hb2 (movePiece_is8x8 hb1 hb)⟩

theorem simulatePlain_total {b : Board} (hb : is8x8 b) {r1 c1 r2 c2 : Int}
    (h1 : inBounds r1 c1 = true) (h2 : inBounds r2 c2 = true) :
    ∃ tb, simulatePlain b r1 c1 r2 c2 = some tb ∧ is8x8 tb := by
  obtain ⟨piece, hp⟩ := cellAt_isSome hb h1
  obtain ⟨b1, hb1⟩ := movePiece_isSome hb h1 h2 piece
  exact ⟨b1, by simp [simulatePlain, copyBoard_eq, hp, hb1], movePiece_is8x8 hb1 hb⟩

theorem simulateMove_is8x8 {b tb : Board} {r1 c1 r2 c2 : Int}
    (h : simulateMove b r1 c1 r2 c2 = some tb) (hb : is8x8 b) : is8x8 tb := by
  obtain ⟨piece, b1, _, h1, h2⟩ := simulateMove_eq h
  exact promote_is8x8 h2 (movePiece_is8x8 h1 hb)

/-! ## The exhaustive scans of `noMovesAvailable` and `getAllSafeMovesForCurrentPlayer` -/

theorem noSafeTarget_spec {b : Board} (hb : is8x8 b) (color : Color) {r c : Int}
    (hrc : inBounds r c = true) :
    ∀ l : List Sq, (∀ m ∈ l, inBounds m.1 m.2 = true) →
      ∃ v, noSafeTarget color b r c l = some v ∧
        (v = true ↔ ∀ m ∈ l, ∃ tmp, simulatePlain b r c m.1 m.2 = some tmp ∧
          kingInCheck color tmp = some true)
  | [], _ => ⟨true, rfl, by simp⟩
  | x :: xs, h => by
    obtain ⟨tmp, htmp, htb⟩ := simulatePlain_total hb hrc (h x (List.mem_cons_self _ _))
    obtain ⟨chk, hchk⟩ := kingInCheck_total htb color
    obtain ⟨v, hv, hiff⟩ := noSafeTarget_spec hb color hrc xs
      (fun m hm => h m (List.mem_cons_of_mem _ hm))
    unfold noSafeTarget
    simp only [htmp, hchk]
    cases chk with
    | false =>
      refine ⟨false, by simp, ?_⟩
      simp only [Bool.false_eq_true, false_iff, not_forall]
      refine ⟨x, List.mem_cons_self _ _, ?_⟩
      rintro ⟨t, h1, h2⟩
      rw [htmp] at h1; cases h1
      rw [hchk] at h2; cases h2
    | true =>
      refine ⟨v, by simp [hv], ?_⟩
      rw [hiff]
      constructor
      · intro hall m hm
        rcases List.mem_cons.mp hm with hm | hm
        · subst hm; exact ⟨tmp, htmp, hchk⟩
        · exact hall m hm
      · intro hall m hm
        exact hall m (List.mem_cons_of_mem _ hm)

theorem noMovesScan_spec {b : Board} (hb : is8x8 b) (color : Color) :
    ∀ l : List Sq, (∀ s ∈ l, inBounds s.1 s.2 = true) →
      ∃ v, noMovesScan color b l = some v ∧
        (v = true ↔ ∀ s ∈ l, ∀ p moves, cellAt b s.1 s.2 = some p →
          isOwnPiece color p = true → generateValidMoves s.1 s.2 b = some moves →
          ∀ m ∈ moves, ∃ tmp, simulatePlain b s.1 s.2 m.1 m.2 = some tmp ∧
            kingInCheck color tmp = some true)
  | [], _ => ⟨true, rfl, by simp⟩
  | x :: xs, h => by
    have hx := h x (List.mem_cons_self _ _)
    obtain ⟨p, hp⟩ := cellAt_isSome hb hx
    obtain ⟨moves, hm, gm⟩ := generateValidMoves_total hb hx
    obtain ⟨res, hres, hriff⟩ := noSafeTarget_spec hb color hx moves gm
    obtain ⟨v, hv, hiff⟩ := noMovesScan_spec hb color xs
      (fun m hm => h m (List.mem_cons_of_mem _ hm))
    have hrest : (∀ s ∈ x :: xs, ∀ p moves, cellAt b s.1 s.2 = some p →
          isOwnPiece color p = true → generateValidMoves s.1 s.2 b = some moves →
          ∀ m ∈ moves, ∃ tmp, simulatePlain b s.1 s.2 m.1 m.2 = some tmp ∧
            kingInCheck color tmp = some true) ↔
        ((isOwnPiece color p = true → res = true) ∧ v = true) := by
      rw [hiff, hriff]
      constructor
      · intro hall
        refine ⟨fun ho => hall x (List.mem_cons_self _ _) p moves hp ho hm, ?_⟩
        intro s hs
        exact hall s (List.mem_cons_of_mem _ hs)
      · rintro ⟨h1, h2⟩ s hs p1 m1 e1 e2 e3
        rcases List.mem_cons.mp hs with hs | hs
        · subst hs
          rw [hp] at e1; cases e1
          rw [hm] at e3; cases e3
          exact h1 e2
        · exact h2 s hs p1 m1 e1 e2 e3
    unfold noMovesScan
    simp only [hp]
    by_cases hdot : (p == '.') = true
    · have : isOwnPiece color p = false := by
        have : p = '.' := by simpa using hdot
        subst this
        cases color <;> decide
      refine ⟨v, by simp [hdot, hv], ?_⟩
      rw [hrest, this]
      simp
    · by_cases hown : isOwnPiece color p = true
      · simp only [hdot, hown, if_true, hm, hres, Bool.false_eq_true, if_false]
        cases res with
        | false =>
          refine ⟨false, by simp, ?_⟩
          rw [hrest]
          simp [hown]
        | true =>
          refine ⟨v, by simp [hv], ?_⟩
          rw [hrest]
          simp
      · refine ⟨v, by simp [hdot, hown, hv], ?_⟩
        rw [hrest]
        simp [hown]

theorem noMovesAvailable_total {b : Board} (hb : is8x8 b) (color : Color) :
    ∃ v, noMovesAvailable color b = some v := by
  obtain ⟨v, hv, _⟩ := noMovesScan_spec hb color allSquares allSquares_inBounds
  exact ⟨v, hv⟩

theorem safeTargets_spec {b : Board} (hb : is8x8 b) (color : Color) {r c : Int}
    (hrc : inBounds r c = true) :
    ∀ l : List Sq, (∀ m ∈ l, inBounds m.1 m.2 = true) →
      ∃ out, safeTargets color b r c l = some out ∧
        ∀ mv : Move, mv ∈ out ↔ mv.fromR = r ∧ mv.fromC = c ∧ (mv.toR, mv.toC) ∈ l ∧
          ∃ tb, simulateMove b r c mv.toR mv.toC = some tb ∧ kingInCheck color tb = some false
  | [], _ => ⟨[], rfl, by simp⟩
  | x :: xs, h => by
    obtain ⟨tb, htb, htb8⟩ := simulateMove_total hb hrc (h x (List.mem_cons_self _ _))
    obtain ⟨chk, hchk⟩ := kingInCheck_total htb8 color
    obtain ⟨more, hmore, hiff⟩ := safeTargets_spec hb color hrc xs
      (fun m hm => h m (List.mem_cons_of_mem _ hm))
    unfold safeTargets
    simp only [htb, hchk, hmore]
    cases chk with
    | false =>
      refine ⟨Move.mk r c x.1 x.2 :: more, by simp, ?_⟩
      intro mv
      rw [List.mem_cons, hiff, List.mem_cons]
      constructor
      · rintro (h1 | ⟨h1, h2, h3, h4⟩)
        · subst h1; exact ⟨rfl, rfl, Or.inl rfl, tb, htb, hchk⟩
        · exact ⟨h1, h2, Or.inr h3, h4⟩
      · rintro ⟨h1, h2, h3 | h3, h4⟩
        · left
          cases mv
          simp only at h1 h2 h3
          subst h1; subst h2
          simp only [Move.mk.injEq, true_and]
          rw [← h3]
          exact ⟨rfl, rfl⟩
        · exact Or.inr ⟨h1, h2, h3, h4⟩
    | true =>
      refine ⟨more, by simp, ?_⟩
      intro mv
      rw [hiff]
      constructor
      · rintro ⟨h1, h2, h3, h4⟩
        exact ⟨h1, h2, List.mem_cons_of_mem _ h3, h4⟩
      · rintro ⟨h1, h2, h3, t, h4, h5⟩
        rcases List.mem_cons.mp h3 with h3 | h3
        · have e1 : mv.toR = x.1 := by rw [← h3]
          have e2 : mv.toC = x.2 := by rw [← h3]
          rw [e1, e2, htb] at h4; cases h4
          rw [hchk] at h5; cases h5
        · exact ⟨h1, h2, h3, t, h4, h5⟩

theorem safeMovesScan_spec {b : Board} (hb : is8x8 b) (color : Color) :
    ∀ l : List Sq, (∀ s ∈ l, inBounds s.1 s.2 = true) →
      ∃ out, safeMovesScan color b l = some out ∧
        ∀ mv : Move, mv ∈ out ↔ (mv.fromR, mv.fromC) ∈ l ∧
          ∃ p moves tb, cellAt b mv.fromR mv.fromC = some p ∧ isOwnPiece color p = true ∧
            generateValidMoves mv.fromR mv.fromC b = some moves ∧ (mv.toR, mv.toC) ∈ moves ∧
            simulateMove b mv.fromR mv.fromC mv.toR mv.toC = some tb ∧
            kingInCheck color tb = some false
  | [], _ => ⟨[], rfl, by simp⟩
  | x :: xs, h => by
    have hx := h x (List.mem_cons_self _ _)
    obtain ⟨p, hp⟩ := cellAt_isSome hb hx
    obtain ⟨moves, hm, gm⟩ := generateValidMoves_total hb hx
    obtain ⟨here, hhere, hhiff⟩ := safeTargets_spec hb color hx moves gm
    obtain ⟨more, hmore, hiff⟩ := safeMovesScan_spec hb color xs
      (fun m hm => h m (List.mem_cons_of_mem _ hm))
    have hdotown : (p == '.') = true → isOwnPiece color p = false := by
      intro hdot
      have : p = '.' := by simpa using hdot
      subst this
      cases color <;> decide
    unfold safeMovesScan
    simp only [hp]
    by_cases hown : isOwnPiece color p = true
    · have hdot : (p != '.') = true := by
        cases hd : (p == '.') with
        | true => rw [hdotown hd] at hown; cases hown
        | false => simp [bne, hd]
      refine ⟨here ++ more, by simp [hdot, hown, hm, hhere, hmore], ?_⟩
      intro mv
      rw [List.mem_append, hhiff, hiff, List.mem_cons]
      constructor
      · rintro (⟨h1, h2, h3, tb, h4, h5⟩ | ⟨h1, h2⟩)
        · have : (mv.fromR, mv.fromC) = x := by rw [h1, h2]
          refine ⟨Or.inl this, p, moves, tb, ?_, hown, ?_, h3, ?_, h5⟩
          · rw [h1, h2]; exact hp
          · rw [h1, h2]; exact hm
          · rw [h1, h2]; exact h4
        · exact ⟨Or.inr h1, h2⟩
      · rintro ⟨h1 | h1, p1, m1, tb, e1, e2, e3, e4, e5, e6⟩
        · left
          have h11 : mv.fromR = x.1 := by rw [← h1]
          have h12 : mv.fromC = x.2 := by rw [← h1]
          rw [h11, h12] at e3 e5
          rw [hm] at e3; cases e3
          exact ⟨h11, h12, e4, tb, e5, e6⟩
        · exact Or.inr ⟨h1, p1, m1, tb, e1, e2, e3, e4, e5, e6⟩
    · have hcond : (p != '.' && isOwnPiece color p) = false := by simp [hown]
      refine ⟨more, by simp only [hcond, hmore]; rfl, ?_⟩
      intro mv
      rw [hiff, List.mem_cons]
      constructor
      · rintro ⟨h1, h2⟩; exact ⟨Or.inr h1, h2⟩
      · rintro ⟨h1 | h1, p1, m1, tb, e1, e2, e3, e4, e5, e6⟩
        · have h11 : mv.fromR = x.1 := by rw [← h1]
          have h12 : mv.fromC = x.2 := by rw [← h1]
          rw [h11, h12, hp] at e1; cases e1
          exact absurd e2 hown
        · exact ⟨h1, p1, m1, tb, e1, e2, e3, e4, e5, e6⟩

/-! ## Classification after a move -/

theorem classifyAfterMove_spec {s s1 : State} (h : classifyAfterMove s = some s1) :
    ∃ inCheck noMoves,
      kingInCheck (if s.currentTurn = Color.W then Color.B else Color.W) s.board = some inCheck ∧
      noMovesAvailable (if s.currentTurn = Color.W then Color.B else Color.W) s.board
        = some noMoves ∧
      s1.status =
        (if inCheck = true then
          if noMoves = true then "Checkmate! " ++ colorName s.currentTurn ++ " wins!"
          else colorName (if s.currentTurn = Color.W then Color.B else Color.W) ++ " is in check!"
        else if noMoves = true then "Stalemate! Draw!" else "") ∧
      s1.gameOver = (if noMoves = true then true else s.gameOver) := by
  unfold classifyAfterMove at h
  simp only at h
  split at h
  · cases h
  · rename_i hk
    split at h
    · cases h
    · rename_i hn
      cases h
      exact ⟨true, true, hk, hn, rfl, rfl⟩
    · rename_i hn
      cases h
      exact ⟨true, false, hk, hn, rfl, rfl⟩
  · rename_i hk
    split at h
    · cases h
    · rename_i hn
      cases h
      exact ⟨false, true, hk, hn, rfl, rfl⟩
    · rename_i hn
      cases h
      exact ⟨false, false, hk, hn, rfl, rfl⟩

theorem classifyAfterMove_total {s : State} (hb : is8x8 s.board) :
    ∃ s1, classifyAfterMove s = some s1 := by
  obtain ⟨ic, hic⟩ := kingInCheck_total hb (if s.currentTurn = Color.W then Color.B else Color.W)
  obtain ⟨nm, hnm⟩ := noMovesAvailable_total hb
    (if s.currentTurn = Color.W then Color.B else Color.W)
  unfold classifyAfterMove
  simp only [hic, hnm]
  cases ic <;> cases nm <;> exact ⟨_, rfl⟩

/-! ## Outcome of `tryMove` -/

theorem tryMove_gameOver {s : State} (r1 c1 r2 c2 : Int) (h : s.gameOver = true) :
    tryMove s r1 c1 r2 c2 = some (false, s) := by
  simp [tryMove, h]

theorem tryMove_not_target {s : State} {r1 c1 r2 c2 : Int} {moves : List Sq}
    (hg : s.gameOver = false) (hm : generateValidMoves r1 c1 s.board = some moves)
    (h : (r2, c2) ∉ moves) :
    tryMove s r1 c1 r2 c2 = some (false, { s with status := "Invalid move!" }) := by
  have : hasTarget moves r2 c2 = false := by
    cases hh : hasTarget moves r2 c2 with
    | false => rfl
    | true => exact absurd ((hasTarget_iff _ _ _).mp hh) h
  simp [tryMove, hg, hm, this]

theorem tryMove_into_check {s : State} {r1 c1 r2 c2 : Int} {moves : List Sq} {tb : Board}
    (hg : s.gameOver = false) (hm : generateValidMoves r1 c1 s.board = some moves)
    (h : (r2, c2) ∈ moves) (hsim : simulateMove s.board r1 c1 r2 c2 = some tb)
    (hk : kingInCheck s.currentTurn tb = some true) :
    tryMove s r1 c1 r2 c2 = some (false, { s with status := "Can't move into check!" }) := by
  have ht : hasTarget moves r2 c2 = true := (hasTarget_iff _ _ _).mpr h
  obtain ⟨piece, b1, hp, _, _⟩ := simulateMove_eq hsim
  simp [tryMove, hg, hm, ht, copyBoard_eq, hp, hsim, hk]

theorem tryMove_accept {s : State} (hb : is8x8 s.board) {r1 c1 r2 c2 : Int} {moves : List Sq}
    {tb : Board} (hg : s.gameOver = false) (hm : generateValidMoves r1 c1 s.board = some moves)
    (h : (r2, c2) ∈ moves) (hsim : simulateMove s.board r1 c1 r2 c2 = some tb)
    (hk : kingInCheck s.currentTurn tb = some false) :
    ∃ s1, tryMove s r1 c1 r2 c2 = some (true, s1) := by
  have ht : hasTarget moves r2 c2 = true := (hasTarget_iff _ _ _).mpr h
  obtain ⟨piece, b1, hp, hb1, hb2⟩ := simulateMove_eq hsim
  obtain ⟨_, t, _, hcap, _, _⟩ := generateValidMoves_target hm h
  simp only at hcap
  have h8 : is8x8 tb := simulateMove_is8x8 hsim hb
  obtain ⟨s1, hs1⟩ := classifyAfterMove_total
    (s := recordMove { s with board := tb } r1 c1 r2 c2 t)
    (by rw [(recordMove_frame _ r1 c1 r2 c2 t).1]; exact h8)
  refine ⟨s1, ?_⟩
  simp only [hg] at hs1
  simp [tryMove, hg, hm, ht, copyBoard_eq, hp, hsim, hk, hcap, hb1, hb2, hs1]

/-! ## Claims about `tryMove` -/

theorem tryMove_startState_e4 : tryMove startState 6 4 4 4 = some (true, afterE4) := by decide

theorem tryMove_promotionState : tryMove promotionState 1 4 0 4 = some (true, afterPromotion) := by
  decide

/-- C1: an accepted `tryMove` leaves the board on which `kingInCheck(currentTurn, board)`
is false (the mover's king is not in check), and every move returned by
`getAllSafeMovesForCurrentPlayer`, applied to a copy with forced promotion, leaves
`kingInCheck(currentTurn, copy)` false. -/
theorem accepted_move_keeps_own_king_safe (s : State) (hb : is8x8 s.board) :
    (∀ r1 c1 r2 c2 s1, tryMove s r1 c1 r2 c2 = some (true, s1) →
      s1.currentTurn = s.currentTurn ∧ kingInCheck s.currentTurn s1.board = some false) ∧
    (∃ safe, getAllSafeMovesForCurrentPlayer s = some safe ∧
      ∀ mv ∈ safe, ∃ copy,
        simulateMove s.board mv.fromR mv.fromC mv.toR mv.toC = some copy ∧
        kingInCheck s.currentTurn copy = some false) := by
  constructor
  · intro r1 c1 r2 c2 s1 h
    exact (tryMove_true_board h).2
  · obtain ⟨out, hout, hiff⟩ := safeMovesScan_spec hb s.currentTurn allSquares allSquares_inBounds
    refine ⟨out, hout, ?_⟩
    intro mv hmv
    obtain ⟨_, _, _, tb, _, _, _, _, h1, h2⟩ := (hiff mv).mp hmv
    exact ⟨tb, h1, h2⟩

/-- Witness for C1 on the initial position: e2-e4 is accepted and White's king is
not in check afterwards. -/
theorem accepted_move_keeps_own_king_safe_witness :
    is8x8 startState.board ∧ kingInCheck Color.W afterE4.board = some false :=
  ⟨by decide,
    ((accepted_move_keeps_own_king_safe startState (by decide)).1 6 4 4 4 afterE4
      tryMove_startState_e4).2⟩

/-- C2: `tryMove` returns false exactly when `gameOver` is set, or the target is
not among `generateValidMoves(r1,c1,board)`, or the simulated move (with forced
promotion) leaves `currentTurn`'s king in check; and when it returns false the
board, `currentTurn`, `gameOver` and `movesData` are unchanged. -/
theorem tryMove_rejects_iff (s : State) (r1 c1 r2 c2 : Int) (hb : is8x8 s.board)
    (h1 : inBounds r1 c1 = true) :
    ∃ ok s1 moves, tryMove s r1 c1 r2 c2 = some (ok, s1) ∧
      generateValidMoves r1 c1 s.board = some moves ∧
      (ok = false ↔
        (s.gameOver = true ∨ (r2, c2) ∉ moves ∨
          ∃ tb, simulateMove s.board r1 c1 r2 c2 = some tb ∧
            kingInCheck s.currentTurn tb = some true)) ∧
      (ok = false → s1.board = s.board ∧ s1.currentTurn = s.currentTurn ∧
        s1.gameOver = s.gameOver ∧ s1.movesData = s.movesData) := by
  obtain ⟨moves, hm, gm⟩ := generateValidMoves_total hb h1
  by_cases hg : s.gameOver = true
  · exact ⟨false, s, moves, tryMove_gameOver r1 c1 r2 c2 hg, hm, by simp [hg],
      fun _ => ⟨rfl, rfl, rfl, rfl⟩⟩
  · have hg' : s.gameOver = false := by simpa using hg
    by_cases hmem : (r2, c2) ∈ moves
    · obtain ⟨tb, hsim, h8⟩ := simulateMove_total hb h1 (gm _ hmem)
      obtain ⟨chk, hchk⟩ := kingInCheck_total h8 s.currentTurn
      cases chk with
      | true =>
        exact ⟨false, _, moves, tryMove_into_check hg' hm hmem hsim hchk, hm,
          by simp only [true_iff]; exact Or.inr (Or.inr ⟨tb, hsim, hchk⟩),
          fun _ => ⟨rfl, rfl, rfl, rfl⟩⟩
      | false =>
        obtain ⟨s1, hs1⟩ := tryMove_accept hb hg' hm hmem hsim hchk
        refine ⟨true, s1, moves, hs1, hm, ?_, by simp⟩
        simp only [Bool.true_eq_false, false_iff, not_or, not_not, not_exists, not_and]
        refine ⟨hg, hmem, ?_⟩
        intro t ht
        rw [hsim] at ht
        cases ht
        rw [hchk]
        simp
    · exact ⟨false, _, moves, tryMove_not_target hg' hm hmem, hm,
        by simp only [true_iff]; exact Or.inr (Or.inl hmem), fun _ => ⟨rfl, rfl, rfl, rfl⟩⟩

/-- Witness for C2: from the initial position the request e2-e5 is answered. -/
theorem tryMove_rejects_iff_witness :
    is8x8 startState.board ∧ inBounds 6 4 = true ∧
    ∃ ok s1 moves, tryMove startState 6 4 3 4 = some (ok, s1) ∧
      generateValidMoves 6 4 startState.board = some moves ∧
      (ok = false ↔
        (startState.gameOver = true ∨ (3, 4) ∉ moves ∨
          ∃ tb, simulateMove startState.board 6 4 3 4 = some tb ∧
            kingInCheck startState.currentTurn tb = some true)) ∧
      (ok = false → s1.board = startState.board ∧ s1.currentTurn = startState.currentTurn ∧
        s1.gameOver = startState.gameOver ∧ s1.movesData = startState.movesData) :=
  ⟨by decide, by decide, tryMove_rejects_iff startState 6 4 3 4 (by decide) (by decide)⟩

/-- C4: after an accepted `tryMove` the opponent is classified by the decision
table on `inCheck = kingInCheck(opp, board)` and `noMoves = noMovesAvailable(opp, board)`:
checkmate text and `gameOver` iff both, stalemate text and `gameOver` iff only
`noMoves`, check text without `gameOver` iff only `inCheck`, empty text without
`gameOver` iff neither; `gameOver` becomes true iff `noMoves`. -/
theorem tryMove_classifies_opponent (s s1 : State) (r1 c1 r2 c2 : Int)
    (h : tryMove s r1 c1 r2 c2 = some (true, s1)) :
    ∃ inCheck noMoves,
      kingInCheck (if s.currentTurn = Color.W then Color.B else Color.W) s1.board
        = some inCheck ∧
      noMovesAvailable (if s.currentTurn = Color.W then Color.B else Color.W) s1.board
        = some noMoves ∧
      ((s1.status = "Checkmate! " ++ colorName s.currentTurn ++ " wins!" ∧ s1.gameOver = true)
        ↔ (inCheck = true ∧ noMoves = true)) ∧
      ((s1.status = "Stalemate! Draw!" ∧ s1.gameOver = true)
        ↔ (inCheck = false ∧ noMoves = true)) ∧
      ((s1.status = colorName (if s.currentTurn = Color.W then Color.B else Color.W)
            ++ " is in check!" ∧ s1.gameOver = false)
        ↔ (inCheck = true ∧ noMoves = false)) ∧
      ((s1.status = "" ∧ s1.gameOver = false) ↔ (inCheck = false ∧ noMoves = false)) ∧
      (s1.gameOver = true ↔ noMoves = true) := by
  obtain ⟨hg, moves, piece, captured, b1, b2, _, _, _, _, _, _, _, _, hcl⟩ := tryMove_true_inv h
  obtain ⟨f1, f2, f3⟩ := recordMove_frame { s with board := b2 } r1 c1 r2 c2 captured
  obtain ⟨e1, _, _⟩ := classifyAfterMove_frame hcl
  obtain ⟨ic, nm, hic, hnm, hst, hgo⟩ := classifyAfterMove_spec hcl
  rw [f2, ← e1] at hic hnm
  rw [f2] at hst
  rw [f3] at hgo
  simp only at hic hnm hst hgo
  rw [hg] at hgo
  refine ⟨ic, nm, hic, hnm, ?_⟩
  rw [hst, hgo]
  cases ic <;> cases nm <;> cases s.currentTurn <;> decide

/-- Witness for C4: after e2-e4 from the initial position Black is neither in
check nor without moves, the status is empty and the game goes on. -/
theorem tryMove_classifies_opponent_witness :
    ∃ inCheck noMoves,
      kingInCheck Color.B afterE4.board = some inCheck ∧
      noMovesAvailable Color.B afterE4.board = some noMoves ∧
      ((afterE4.status = "" ∧ afterE4.gameOver = false) ↔ (inCheck = false ∧ noMoves = false)) ∧
      (afterE4.gameOver = true ↔ noMoves = true) := by
  obtain ⟨ic, nm, h1, h2, _, _, _, h6, h7⟩ :=
    tryMove_classifies_opponent startState afterE4 6 4 4 4 tryMove_startState_e4
  exact ⟨ic, nm, h1, h2, h6, h7⟩

/-- C9: after an accepted `tryMove(r1,c1,r2,c2)` the target holds `'Q'` when a
white pawn reached row 0, `'q'` when a black pawn reached row 7, and otherwise
exactly the piece that stood on `(r1,c1)`; no pawn stays on the far rank it reached. -/
theorem tryMove_promotes_to_queen (s s1 : State) (r1 c1 r2 c2 : Int)
    (h : tryMove s r1 c1 r2 c2 = some (true, s1)) :
    ∃ piece, cellAt s.board r1 c1 = some piece ∧
      (piece = 'P' ∧ r2 = 0 → cellAt s1.board r2 c2 = some 'Q') ∧
      (piece = 'p' ∧ r2 = 7 → cellAt s1.board r2 c2 = some 'q') ∧
      (¬ (piece = 'P' ∧ r2 = 0) ∧ ¬ (piece = 'p' ∧ r2 = 7) →
        cellAt s1.board r2 c2 = some piece) ∧
      ¬ (r2 = 0 ∧ cellAt s1.board r2 c2 = some 'P') ∧
      ¬ (r2 = 7 ∧ cellAt s1.board r2 c2 = some 'p') := by
  obtain ⟨hsim, _, _⟩ := tryMove_true_board h
  obtain ⟨_, moves, piece, captured, b1, b2, hm, ht, hp, _, hb1, hb2, hsim2, _, _⟩ :=
    tryMove_true_inv h
  rw [hsim] at hsim2
  cases hsim2
  have hne : ¬ (r2 = r1 ∧ c2 = c1) := by
    rintro ⟨rfl, rfl⟩
    exact generateValidMoves_ne_self hm ((hasTarget_iff _ _ _).mp ht)
  have hmid : cellAt b1 r2 c2 = some piece := by
    rw [cellAt_movePiece hb1]
    simp [hne]
  have hfin : cellAt s1.board r2 c2 = some (promoted piece r2) := by
    rw [cellAt_promote hb2 hmid]
    simp
  refine ⟨piece, hp, ?_, ?_, ?_, ?_, ?_⟩
  · rintro ⟨rfl, rfl⟩; rw [hfin]; rfl
  · rintro ⟨rfl, rfl⟩; rw [hfin]; rfl
  · rintro ⟨n1, n2⟩; rw [hfin]; simp [promoted, n1, n2]
  · rintro ⟨rfl, h2⟩
    rw [hfin] at h2
    simp only [promoted, and_true, Option.some.injEq] at h2
    split at h2
    · revert h2; decide
    · rename_i hP
      simp only [show ¬ ((0 : Int) = 7) by decide, and_false, if_false] at h2
      exact hP h2
  · rintro ⟨rfl, h2⟩
    rw [hfin] at h2
    simp only [promoted, and_true, Option.some.injEq,
      show ¬ ((7 : Int) = 0) by decide, and_false, if_false] at h2
    split at h2
    · revert h2; decide
    · rename_i hP
      exact hP h2

/-- Witness for C9: the white pawn on e7 moves to e8 and a white queen stands there. -/
theorem tryMove_promotes_to_queen_witness :
    cellAt promotionState.board 1 4 = some 'P' ∧ cellAt afterPromotion.board 0 4 = some 'Q' := by
  obtain ⟨piece, hp, hQ, _⟩ :=
    tryMove_promotes_to_queen promotionState afterPromotion 1 4 0 4 tryMove_promotionState
  have : piece = 'P' := by
    have h0 : cellAt promotionState.board 1 4 = some 'P' := by decide
    rw [h0] at hp
    cases hp
    rfl
  exact ⟨by decide, hQ ⟨this, rfl⟩⟩

/-! ## Wrong-colour pieces -/

/-- C3, as stated, fails: with White to move on the initial position,
`tryMove(1,4,3,4)` moves the black pawn from e7 to e5, returns true and changes
the board; `tryMove` has no test of the piece's colour. -/
theorem tryMove_accepts_wrong_color :
    cellAt startState.board 1 4 = some 'p' ∧
    isCorrectTurnPiece startState.currentTurn 'p' = false ∧
    inBounds 1 4 = true ∧ inBounds 3 4 = true ∧
    tryMove startState 1 4 3 4 = some (true, afterBlackPawnOnWhiteTurn) ∧
    afterBlackPawnOnWhiteTurn.board ≠ startState.board := by
  decide

theorem onSquareClick_board_of_unselected {s s1 : State} {row col : Int}
    (hsel : s.selectedSquare = none) (h : onSquareClick s row col = some s1) :
    s1.board = s.board ∧ s1.currentTurn = s.currentTurn ∧ s1.gameOver = s.gameOver ∧
      s1.movesData = s.movesData := by
  unfold onSquareClick at h
  split at h
  · cases h; exact ⟨rfl, rfl, rfl, rfl⟩
  · simp only [hsel] at h
    split at h
    · cases h
    · cases h; exact ⟨rfl, rfl, rfl, rfl⟩
    · split at h
      · cases h
      · split at h <;> cases h <;> exact ⟨rfl, rfl, rfl, rfl⟩

theorem onSquareClick_total_of_unselected {s : State} (hb : is8x8 s.board) {row col : Int}
    (hsel : s.selectedSquare = none) (hin : inBounds row col = true) :
    ∃ s1, onSquareClick s row col = some s1 := by
  obtain ⟨p, hp⟩ := cellAt_isSome hb hin
  unfold onSquareClick
  split
  · exact ⟨_, rfl⟩
  · simp only [hsel, isEmptySquare, hp]
    cases hd : (p == '.') with
    | true => exact ⟨_, rfl⟩
    | false =>
      simp only
      split <;> exact ⟨_, rfl⟩

/-- C3, amended: the colour test sits in `onSquareClick`. With no square selected,
a click on a square whose piece does not belong to the side to move selects
nothing and leaves every variable as it was, and a following click on any
in-bounds square leaves the board, the side to move, `gameOver` and the move
list unchanged: no move from that square reaches `tryMove`. -/
theorem onSquareClick_rejects_wrong_color (s : State) (r1 c1 r2 c2 : Int) (piece : Char)
    (hb : is8x8 s.board) (hsel : s.selectedSquare = none)
    (h2 : inBounds r2 c2 = true)
    (hp : cellAt s.board r1 c1 = some piece)
    (hw : isCorrectTurnPiece s.currentTurn piece = false) :
    onSquareClick s r1 c1 = some s ∧
    ∃ s2, onSquareClick s r2 c2 = some s2 ∧ s2.board = s.board ∧
      s2.currentTurn = s.currentTurn ∧ s2.gameOver = s.gameOver ∧
      s2.movesData = s.movesData := by
  constructor
  · unfold onSquareClick
    split
    · rfl
    · simp only [hsel, isEmptySquare, hp]
      cases hd : (piece == '.') with
      | true => rfl
      | false => simp [hw]
  · obtain ⟨s2, hs2⟩ := onSquareClick_total_of_unselected hb hsel h2
    exact ⟨s2, hs2, onSquareClick_board_of_unselected hsel hs2⟩

/-- Witness for the amended C3: on the initial position, clicking the black pawn
on e7 and then e5 leaves the position as it was. -/
theorem onSquareClick_rejects_wrong_color_witness :
    onSquareClick startState 1 4 = some startState ∧
    ∃ s2, onSquareClick startState 3 4 = some s2 ∧ s2.board = startState.board ∧
      s2.currentTurn = startState.currentTurn ∧ s2.gameOver = startState.gameOver ∧
      s2.movesData = startState.movesData :=
  onSquareClick_rejects_wrong_color startState 1 4 3 4 'p' (by decide) rfl (by decide)
    (by decide) (by decide)

/-! ## Check detection -/

theorem findKing_first {b : Board} (hb : is8x8 b) (ch : Char) :
    ∃ res, findKing ch b allSquares = some res ∧
      (res = none → ∀ r c, cellAt b r c ≠ some ch) ∧
      (∀ k, res = some k → isFirstOccurrence b ch k) := by
  obtain ⟨res, hres, h1, h2⟩ := findKing_spec hb ch allSquares allSquares_inBounds
  refine ⟨res, hres, ?_, ?_⟩
  · intro hn r c hc
    exact h1 hn (r, c) (mem_allSquares (inBounds_of_cellAt hb hc)) hc
  · intro k hk
    obtain ⟨g1, l1, l2, g2, g3⟩ := h2 k hk
    refine ⟨g1, ?_⟩
    intro r c hc
    have hmem : (r, c) ∈ allSquares := mem_allSquares (inBounds_of_cellAt hb hc)
    have hs := allSquares_sorted
    rw [g2] at hmem hs
    rcases List.mem_append.mp hmem with hm | hm
    · exact absurd hc (g3 (r, c) hm)
    · rcases List.mem_cons.mp hm with hm | hm
      · rw [← hm]; exact Or.inr ⟨rfl, le_refl _⟩
      · have := (List.pairwise_cons.mp (List.pairwise_append.mp hs).2.1).1 (r, c) hm
        rcases this with h | ⟨h, h'⟩
        · exact Or.inl h
        · exact Or.inr ⟨h, le_of_lt h'⟩

theorem isFirstOccurrence_unique {b : Board} {ch : Char} {k k1 : Sq}
    (h : isFirstOccurrence b ch k) (h1 : isFirstOccurrence b ch k1) : k = k1 := by
  have a := h.2 k1.1 k1.2 h1.1
  have a1 := h1.2 k.1 k.2 h.1
  have e1 : k.1 = k1.1 := by omega
  have e2 : k.2 = k1.2 := by omega
  exact Prod.ext e1 e2

/-- C6: `kingInCheck(color, board)` is true iff the board contains that colour's
king and some square holding a piece of the opposite colour has the king's square
(the first occurrence of the king character in row-major order) among its
`generateValidMoves` on this board; it is false when the king is absent. -/
theorem kingInCheck_iff_attacked (color : Color) (b : Board) (hb : is8x8 b) :
    ∃ v, kingInCheck color b = some v ∧
      (v = true ↔ ∃ k : Sq, isFirstOccurrence b (kingCharOf color) k ∧
        ∃ r c p moves, cellAt b r c = some p ∧ isEnemyPiece color p = true ∧
          generateValidMoves r c b = some moves ∧ k ∈ moves) ∧
      ((∀ r c, cellAt b r c ≠ some (kingCharOf color)) → v = false) := by
  obtain ⟨res, hres, h1, h2⟩ := findKing_first hb (kingCharOf color)
  unfold kingCharOf at hres
  cases res with
  | none =>
    refine ⟨false, by simp [kingInCheck, hres], ?_, fun _ => rfl⟩
    simp only [Bool.false_eq_true, false_iff, not_exists, not_and]
    intro k hk
    exact absurd hk.1 (h1 rfl k.1 k.2)
  | some k =>
    obtain ⟨v, hv, hiff⟩ := attackScan_spec hb color k allSquares allSquares_inBounds
    have hk := h2 k rfl
    refine ⟨v, by simp [kingInCheck, hres, hv], ?_, ?_⟩
    · rw [hiff]
      constructor
      · rintro ⟨s, _, p, moves, e1, e2, e3, e4⟩
        exact ⟨k, hk, s.1, s.2, p, moves, e1, e2, e3, e4⟩
      · rintro ⟨k1, hk1, r, c, p, moves, e1, e2, e3, e4⟩
        have := isFirstOccurrence_unique hk hk1
        subst this
        exact ⟨(r, c), mem_allSquares (inBounds_of_cellAt hb e1), p, moves, e1, e2, e3, e4⟩
    · intro hno
      exact absurd hk.1 (hno k.1 k.2)

/-- Witness for C6: on the initial position White's king is on e1 and is not in check. -/
theorem kingInCheck_iff_attacked_witness :
    is8x8 initialLayout ∧
    ∃ v, kingInCheck Color.W initialLayout = some v ∧
      (v = true ↔ ∃ k : Sq, isFirstOccurrence initialLayout (kingCharOf Color.W) k ∧
        ∃ r c p moves, cellAt initialLayout r c = some p ∧ isEnemyPiece Color.W p = true ∧
          generateValidMoves r c initialLayout = some moves ∧ k ∈ moves) ∧
      ((∀ r c, cellAt initialLayout r c ≠ some (kingCharOf Color.W)) → v = false) :=
  ⟨by decide, kingInCheck_iff_attacked Color.W initialLayout (by decide)⟩

/-! ## Pawn moves -/

theorem mem_pawnCapture {piece : Char} {f1 cc : Int} {b : Board} {l : List Sq}
    (h : pawnCapture piece f1 cc b = some l) (m : Sq) :
    m ∈ l ↔ m = (f1, cc) ∧ inBounds f1 cc = true ∧
      ∃ t, cellAt b f1 cc = some t ∧ t ≠ '.' ∧ sameColor piece t = false := by
  by_cases hin : inBounds f1 cc = true
  · cases hx : cellAt b f1 cc with
    | none => simp [pawnCapture, hin, isEmptySquare, hx] at h
    | some x =>
      by_cases hd : x = '.'
      · subst hd
        simp [pawnCapture, hin, isEmptySquare, hx] at h
        subst h
        simp
      · cases hs : sameColor piece x with
        | true =>
          simp [pawnCapture, hin, isEmptySquare, hx, hd, hs] at h
          subst h
          simp [hs]
        | false =>
          simp [pawnCapture, hin, isEmptySquare, hx, hd, hs] at h
          subst h
          simp [hin, hd, hs]
  · simp [pawnCapture, hin] at h
    subst h
    simp [hin]

theorem mem_pawnDouble {g : Bool} {r2 c : Int} {b : Board} {l : List Sq}
    (h : pawnDouble g r2 c b = some l) (m : Sq) :
    m ∈ l ↔ m = (r2, c) ∧ g = true ∧ cellAt b r2 c = some '.' := by
  cases g with
  | false =>
    simp [pawnDouble] at h
    subst h
    simp
  | true =>
    cases hy : cellAt b r2 c with
    | none => simp [pawnDouble, hy] at h
    | some y =>
      by_cases hd : y = '.'
      · subst hd
        simp [pawnDouble, hy] at h
        subst h
        simp
      · simp [pawnDouble, hy, hd] at h
        subst h
        simp [hd]

theorem mem_pawnForward {piece : Char} {r c f1 : Int} {b : Board} {l : List Sq}
    (h : pawnForward piece r c f1 b = some l) (m : Sq) :
    m ∈ l ↔ inBounds f1 c = true ∧ cellAt b f1 c = some '.' ∧
      (m = (f1, c) ∨
       (m = (r - 2, c) ∧ isWhitePiece piece = true ∧ r = 6 ∧ cellAt b (r - 2) c = some '.') ∨
       (m = (r + 2, c) ∧ isBlackPiece piece = true ∧ r = 1 ∧ cellAt b (r + 2) c = some '.')) := by
  by_cases hin : inBounds f1 c = true
  · cases hx : cellAt b f1 c with
    | none => simp [pawnForward, hin, hx] at h
    | some x =>
      by_cases hd : x = '.'
      · subst hd
        cases hw : pawnDouble (isWhitePiece piece && r == 6) (r - 2) c b with
        | none => simp [pawnForward, hin, hx, hw] at h
        | some w =>
          cases hk : pawnDouble (isBlackPiece piece && r == 1) (r + 2) c b with
          | none => simp [pawnForward, hin, hx, hw, hk] at h
          | some k =>
            simp [pawnForward, hin, hx, hw, hk] at h
            subst h
            rw [List.mem_cons, List.mem_append, mem_pawnDouble hw, mem_pawnDouble hk]
            simp only [hin, true_and, Bool.and_eq_true, beq_iff_eq]
            tauto
      · simp [pawnForward, hin, hx, hd] at h
        subst h
        simp [hd]
  · simp [pawnForward, hin] at h
    subst h
    simp [hin]

theorem mem_pawnMoves {r c : Int} {b : Board} {piece : Char} {l : List Sq}
    (hp : cellAt b r c = some piece) (h : pawnMoves r c b = some l) (m : Sq) :
    m ∈ l ↔
      (inBounds (r + pawnDirection piece) c = true ∧
        cellAt b (r + pawnDirection piece) c = some '.' ∧
        (m = (r + pawnDirection piece, c) ∨
         (m = (r - 2, c) ∧ isWhitePiece piece = true ∧ r = 6 ∧
            cellAt b (r - 2) c = some '.') ∨
         (m = (r + 2, c) ∧ isBlackPiece piece = true ∧ r = 1 ∧
            cellAt b (r + 2) c = some '.'))) ∨
      (∃ cc, (cc = c - 1 ∨ cc = c + 1) ∧ m = (r + pawnDirection piece, cc) ∧
        inBounds (r + pawnDirection piece) cc = true ∧
        ∃ t, cellAt b (r + pawnDirection piece) cc = some t ∧ t ≠ '.' ∧
          sameColor piece t = false) := by
  unfold pawnMoves at h
  simp only [hp] at h
  split at h
  · cases h
  · rename_i fw hfw
    split at h
    · cases h
    · rename_i lf hlf
      split at h
      · cases h
      · rename_i rt hrt
        cases h
        rw [List.mem_append, List.mem_append, mem_pawnForward hfw, mem_pawnCapture hlf,
          mem_pawnCapture hrt]
        constructor
        · rintro ((h1 | h1) | h1)
          · exact Or.inl h1
          · exact Or.inr ⟨c - 1, Or.inl rfl, h1⟩
          · exact Or.inr ⟨c + 1, Or.inr rfl, h1⟩
        · rintro (h1 | ⟨cc, rfl | rfl, h1⟩)
          · exact Or.inl (Or.inl h1)
          · exact Or.inl (Or.inr h1)
          · exact Or.inr h1

theorem rawMoves_pawn {piece : Char} (hp : piece = 'P' ∨ piece = 'p') (r c : Int) (b : Board) :
    rawMoves piece r c b = pawnMoves r c b := by
  rcases hp with rfl | rfl <;> rfl

/-- Membership in `generateValidMoves` for a square that holds a pawn. -/
theorem mem_generateValidMoves_pawn {r c : Int} {b : Board} {piece : Char} {moves : List Sq}
    (hpc : piece = 'P' ∨ piece = 'p') (hp : cellAt b r c = some piece)
    (h : generateValidMoves r c b = some moves) (m : Sq) :
    m ∈ moves ↔
      (inBounds (r + pawnDirection piece) c = true ∧
        cellAt b (r + pawnDirection piece) c = some '.' ∧
        (m = (r + pawnDirection piece, c) ∨
         (m = (r - 2, c) ∧ isWhitePiece piece = true ∧ r = 6 ∧
            cellAt b (r - 2) c = some '.') ∨
         (m = (r + 2, c) ∧ isBlackPiece piece = true ∧ r = 1 ∧
            cellAt b (r + 2) c = some '.'))) ∨
      (∃ cc, (cc = c - 1 ∨ cc = c + 1) ∧ m = (r + pawnDirection piece, cc) ∧
        inBounds (r + pawnDirection piece) cc = true ∧
        ∃ t, cellAt b (r + pawnDirection piece) cc = some t ∧ t ≠ '.' ∧
          sameColor piece t = false) := by
  have hdot : (piece == '.') = false := by rcases hpc with rfl | rfl <;> decide
  unfold generateValidMoves at h
  simp only [hp, hdot, Bool.false_eq_true, if_false, rawMoves_pawn hpc] at h
  split at h
  · cases h
  · rename_i raw hraw
    rw [mem_filterSameColor h m, mem_pawnMoves hp hraw m]
    constructor
    · rintro ⟨h1, _⟩; exact h1
    · intro h1
      refine ⟨h1, ?_⟩
      have hsd : sameColor piece '.' = false := by simp [sameColor]
      rcases h1 with ⟨_, h2, (rfl | ⟨rfl, _, _, h3⟩ | ⟨rfl, _, _, h3⟩)⟩ | ⟨cc, _, rfl, _, t, h2, _, h3⟩
      · exact ⟨'.', h2, hsd⟩
      · exact ⟨'.', h3, hsd⟩
      · exact ⟨'.', h3, hsd⟩
      · exact ⟨t, h2, h3⟩

/-- C8: for a square holding a pawn, `generateValidMoves` contains the square two
rows ahead (row `r-2` for `'P'`, row `r+2` for `'p'`, same column) iff the pawn
stands on its starting row (6 for White, 1 for Black) and both the intermediate
and the destination square are empty. -/
theorem pawn_double_step_iff (b : Board) (r c : Int) (piece : Char) (hb : is8x8 b)
    (hp : cellAt b r c = some piece) (hpc : piece = 'P' ∨ piece = 'p') :
    ∃ moves, generateValidMoves r c b = some moves ∧
      (piece = 'P' → ((r - 2, c) ∈ moves ↔
        r = 6 ∧ cellAt b (r - 1) c = some '.' ∧ cellAt b (r - 2) c = some '.')) ∧
      (piece = 'p' → ((r + 2, c) ∈ moves ↔
        r = 1 ∧ cellAt b (r + 1) c = some '.' ∧ cellAt b (r + 2) c = some '.')) := by
  have hin := inBounds_of_cellAt hb hp
  obtain ⟨moves, hm, _⟩ := generateValidMoves_total hb hin
  refine ⟨moves, hm, ?_, ?_⟩
  · intro hP
    subst hP
    rw [mem_generateValidMoves_pawn hpc hp hm]
    have hd : pawnDirection 'P' = -1 := by decide
    have hw : isWhitePiece 'P' = true := by decide
    have hk : isBlackPiece 'P' = false := by decide
    rw [hd]
    constructor
    · rintro (⟨_, h2, (h3 | ⟨_, _, h4, h5⟩ | ⟨_, h4, _⟩)⟩ | ⟨cc, _, h3, _⟩)
      · simp only [Prod.mk.injEq] at h3; omega
      · exact ⟨h4, by rw [sub_eq_add_neg]; exact h2, h5⟩
      · rw [hk] at h4; cases h4
      · simp only [Prod.mk.injEq] at h3; omega
    · rintro ⟨h1, h2, h3⟩
      have hb1 : inBounds (r + -1) c = true := by
        rw [inBounds_iff] at hin ⊢; omega
      exact Or.inl ⟨hb1, by rw [← sub_eq_add_neg]; exact h2, Or.inr (Or.inl ⟨rfl, hw, h1, h3⟩)⟩
  · intro hP
    subst hP
    rw [mem_generateValidMoves_pawn hpc hp hm]
    have hd : pawnDirection 'p' = 1 := by decide
    have hw : isWhitePiece 'p' = false := by decide
    have hk : isBlackPiece 'p' = true := by decide
    rw [hd]
    constructor
    · rintro (⟨_, h2, (h3 | ⟨_, h4, _⟩ | ⟨_, _, h4, h5⟩)⟩ | ⟨cc, _, h3, _⟩)
      · simp only [Prod.mk.injEq] at h3; omega
      · rw [hw] at h4; cases h4
      · exact ⟨h4, h2, h5⟩
      · simp only [Prod.mk.injEq] at h3; omega
    · rintro ⟨h1, h2, h3⟩
      have hb1 : inBounds (r + 1) c = true := by
        rw [inBounds_iff] at hin ⊢; omega
      exact Or.inl ⟨hb1, h2, Or.inr (Or.inr ⟨rfl, hk, h1, h3⟩)⟩

/-- Witness for C8: the white e-pawn of the initial position may advance two squares. -/
theorem pawn_double_step_iff_witness :
    is8x8 initialLayout ∧ cellAt initialLayout 6 4 = some 'P' ∧
    ∃ moves, generateValidMoves 6 4 initialLayout = some moves ∧
      (('P' : Char) = 'P' → (((6 : Int) - 2, (4 : Int)) ∈ moves ↔
        (6 : Int) = 6 ∧ cellAt initialLayout (6 - 1) 4 = some '.' ∧
          cellAt initialLayout (6 - 2) 4 = some '.')) ∧
      (('P' : Char) = 'p' → (((6 : Int) + 2, (4 : Int)) ∈ moves ↔
        (6 : Int) = 1 ∧ cellAt initialLayout (6 + 1) 4 = some '.' ∧
          cellAt initialLayout (6 + 2) 4 = some '.')) :=
  ⟨by decide, by decide,
    pawn_double_step_iff initialLayout 6 4 'P' (by decide) (by decide) (Or.inl rfl)⟩

/-! ## Sliding pieces -/

theorem mem_ray {b : Board} {cond : Int → Int → Bool} {di dj : Int} :
    ∀ (fuel : Nat) (i j : Int) (l : List Sq), ray b cond di dj fuel i j = some l →
      ∀ m : Sq, m ∈ l ↔ ∃ k : Nat, m = (i + k * di, j + k * dj) ∧
        (∀ k1 : Nat, k1 ≤ k → cond (i + k1 * di) (j + k1 * dj) = true) ∧
        (∀ k1 : Nat, k1 < k → cellAt b (i + k1 * di) (j + k1 * dj) = some '.') := by
  intro fuel
  induction fuel with
  | zero => intro i j l h; simp [ray] at h
  | succ n ih =>
    intro i j l h m
    by_cases hc : cond i j = true
    · cases hx : cellAt b i j with
      | none => simp [ray, hc, isEmptySquare, hx] at h
      | some x =>
        by_cases hd : x = '.'
        · subst hd
          cases hr : ray b cond di dj n (i + di) (j + dj) with
          | none => simp [ray, hc, isEmptySquare, hx, hr] at h
          | some rest =>
            simp [ray, hc, isEmptySquare, hx, hr] at h
            subst h
            rw [List.mem_cons, ih _ _ _ hr m]
            constructor
            · rintro (h1 | ⟨k, h1, h2, h3⟩)
              · exact ⟨0, by simp [h1], by
                  intro k1 hk1
                  have : k1 = 0 := by omega
                  subst this; simpa using hc, by intro k1 hk1; omega⟩
              · refine ⟨k + 1, ?_, ?_, ?_⟩
                · rw [h1]; push_cast; congr 1 <;> ring
                · intro k1 hk1
                  rcases Nat.eq_zero_or_pos k1 with h0 | h0
                  · subst h0; simpa using hc
                  · have := h2 (k1 - 1) (by omega)
                    have e : ((k1 - 1 : Nat) : Int) = (k1 : Int) - 1 := by omega
                    rw [e] at this
                    have e1 : i + di + ((k1 : Int) - 1) * di = i + k1 * di := by ring
                    have e2 : j + dj + ((k1 : Int) - 1) * dj = j + k1 * dj := by ring
                    rw [e1, e2] at this
                    exact this
                · intro k1 hk1
                  rcases Nat.eq_zero_or_pos k1 with h0 | h0
                  · subst h0; simpa using hx
                  · have := h3 (k1 - 1) (by omega)
                    have e : ((k1 - 1 : Nat) : Int) = (k1 : Int) - 1 := by omega
                    rw [e] at this
                    have e1 : i + di + ((k1 : Int) - 1) * di = i + k1 * di := by ring
                    have e2 : j + dj + ((k1 : Int) - 1) * dj = j + k1 * dj := by ring
                    rw [e1, e2] at this
                    exact this
            · rintro ⟨k, h1, h2, h3⟩
              rcases Nat.eq_zero_or_pos k with h0 | h0
              · subst h0; left; simpa using h1
              · right
                refine ⟨k - 1, ?_, ?_, ?_⟩
                · rw [h1]
                  have e : ((k - 1 : Nat) : Int) = (k : Int) - 1 := by omega
                  rw [e]
                  congr 1 <;> ring
                · intro k1 hk1
                  have := h2 (k1 + 1) (by omega)
                  push_cast at this
                  have e1 : i + ((k1 : Int) + 1) * di = i + di + k1 * di := by ring
                  have e2 : j + ((k1 : Int) + 1) * dj = j + dj + k1 * dj := by ring
                  rw [e1, e2] at this
                  exact this
                · intro k1 hk1
                  have := h3 (k1 + 1) (by omega)
                  push_cast at this
                  have e1 : i + ((k1 : Int) + 1) * di = i + di + k1 * di := by ring
                  have e2 : j + ((k1 : Int) + 1) * dj = j + dj + k1 * dj := by ring
                  rw [e1, e2] at this
                  exact this
        · simp [ray, hc, isEmptySquare, hx, hd] at h
          subst h
          rw [List.mem_singleton]
          constructor
          · intro h1
            exact ⟨0, by simp [h1], by
              intro k1 hk1
              have : k1 = 0 := by omega
              subst this; simpa using hc, by intro k1 hk1; omega⟩
          · rintro ⟨k, h1, _, h3⟩
            rcases Nat.eq_zero_or_pos k with h0 | h0
            · subst h0; simpa using h1
            · have := h3 0 h0
              simp only [Nat.cast_zero, zero_mul, add_zero, hx, Option.some.injEq] at this
              exact absurd this hd
    · simp [ray, hc] at h
      subst h
      simp only [List.not_mem_nil, false_iff, not_exists, not_and]
      intro k _ h2
      have := h2 0 (Nat.zero_le _)
      simp only [Nat.cast_zero, zero_mul, add_zero] at this
      exact absurd this hc

theorem mem_ray_dir {b : Board} (cond : Int → Int → Bool) {d : Int × Int} {r c : Int}
    (h1 : ∀ n : Int, 1 ≤ n → (cond (r + n * d.1) (c + n * d.2) = true ↔
      inBounds (r + n * d.1) (c + n * d.2) = true))
    (h2 : ∀ n : Int, 1 ≤ n → inBounds (r + n * d.1) (c + n * d.2) = true →
      ∀ n1 : Int, 1 ≤ n1 → n1 ≤ n → inBounds (r + n1 * d.1) (c + n1 * d.2) = true)
    {fuel : Nat} {i j : Int} (hi : i = r + d.1) (hj : j = c + d.2) {l : List Sq}
    (h : ray b cond d.1 d.2 fuel i j = some l) (m : Sq) :
    m ∈ l ↔ ∃ n : Int, 1 ≤ n ∧ m = stepSq r c d n ∧ inBounds m.1 m.2 = true ∧
      clearBefore b r c d n := by
  subst hi hj
  rw [mem_ray fuel _ _ l h m]
  have e1 : ∀ k : Nat, r + d.1 + (k : Int) * d.1 = r + ((k : Int) + 1) * d.1 := by
    intro k; ring
  have e2 : ∀ k : Nat, c + d.2 + (k : Int) * d.2 = c + ((k : Int) + 1) * d.2 := by
    intro k; ring
  constructor
  · rintro ⟨k, g1, g2, g3⟩
    refine ⟨(k : Int) + 1, by omega, ?_, ?_, ?_⟩
    · rw [g1, e1, e2]; rfl
    · rw [g1]
      have := g2 k (le_refl _)
      rw [e1, e2] at this ⊢
      exact (h1 _ (by omega)).mp this
    · intro n1 hn1 hn2
      have := g3 (n1 - 1).toNat (by omega)
      rw [e1, e2] at this
      have e : (((n1 - 1).toNat : Nat) : Int) + 1 = n1 := by omega
      rw [e] at this
      exact this
  · rintro ⟨n, hn, g1, g2, g3⟩
    refine ⟨(n - 1).toNat, ?_, ?_, ?_⟩
    · rw [g1, e1, e2]
      have e : (((n - 1).toNat : Nat) : Int) + 1 = n := by omega
      rw [e]; rfl
    · intro k1 hk1
      rw [e1, e2]
      refine (h1 _ (by omega)).mpr ?_
      rw [g1] at g2
      exact h2 n hn g2 _ (by omega) (by omega)
    · intro k1 hk1
      rw [e1, e2]
      exact g3 _ (by omega) (by omega)

theorem mem_rookMoves {b : Board} {r c : Int} (hin : inBounds r c = true) {l : List Sq}
    (h : rookMoves r c b = some l) (m : Sq) :
    m ∈ l ↔ ∃ d ∈ rookDirs, ∃ n : Int, 1 ≤ n ∧ m = stepSq r c d n ∧
      inBounds m.1 m.2 = true ∧ clearBefore b r c d n := by
  rw [inBounds_iff] at hin
  cases hu : ray b (fun i _ => decide (i ≥ 0)) (-1) 0 9 (r - 1) c with
  | none => simp [rookMoves, hu] at h
  | some u =>
  cases hd : ray b (fun i _ => decide (i < 8)) 1 0 9 (r + 1) c with
  | none => simp [rookMoves, hu, hd] at h
  | some dn =>
  cases hl : ray b (fun _ j => decide (j ≥ 0)) 0 (-1) 9 r (c - 1) with
  | none => simp [rookMoves, hu, hd, hl] at h
  | some lf =>
  cases hr : ray b (fun _ j => decide (j < 8)) 0 1 9 r (c + 1) with
  | none => simp [rookMoves, hu, hd, hl, hr] at h
  | some rt =>
  simp [rookMoves, hu, hd, hl, hr] at h
  subst h
  have mu := mem_ray_dir _ (d := (-1, 0)) (r := r) (c := c)
    (by intro n hn; simp only [inBounds_iff, decide_eq_true_eq]; omega)
    (by intro n hn; simp only [inBounds_iff]; omega) (by ring) (by ring) hu m
  have md := mem_ray_dir _ (d := (1, 0)) (r := r) (c := c)
    (by intro n hn; simp only [inBounds_iff, decide_eq_true_eq]; omega)
    (by intro n hn; simp only [inBounds_iff]; omega) (by ring) (by ring) hd m
  have ml := mem_ray_dir _ (d := (0, -1)) (r := r) (c := c)
    (by intro n hn; simp only [inBounds_iff, decide_eq_true_eq]; omega)
    (by intro n hn; simp only [inBounds_iff]; omega) (by ring) (by ring) hl m
  have mr := mem_ray_dir _ (d := (0, 1)) (r := r) (c := c)
    (by intro n hn; simp only [inBounds_iff, decide_eq_true_eq]; omega)
    (by intro n hn; simp only [inBounds_iff]; omega) (by ring) (by ring) hr m
  simp only [List.mem_append, mu, md, ml, mr, rookDirs, List.mem_cons, List.mem_singleton,
    List.not_mem_nil, or_false, exists_eq_or_imp, exists_eq_left, or_assoc]

theorem mem_bishopMoves {b : Board} {r c : Int} (hin : inBounds r c = true) {l : List Sq}
    (h : bishopMoves r c b = some l) (m : Sq) :
    m ∈ l ↔ ∃ d ∈ bishopDirs, ∃ n : Int, 1 ≤ n ∧ m = stepSq r c d n ∧
      inBounds m.1 m.2 = true ∧ clearBefore b r c d n := by
  rw [inBounds_iff] at hin
  cases hu : ray b inBounds (-1) (-1) 9 (r - 1) (c - 1) with
  | none => simp [bishopMoves, hu] at h
  | some u =>
  cases hd : ray b inBounds (-1) 1 9 (r - 1) (c + 1) with
  | none => simp [bishopMoves, hu, hd] at h
  | some dn =>
  cases hl : ray b inBounds 1 (-1) 9 (r + 1) (c - 1) with
  | none => simp [bishopMoves, hu, hd, hl] at h
  | some lf =>
  cases hr : ray b inBounds 1 1 9 (r + 1) (c + 1) with
  | none => simp [bishopMoves, hu, hd, hl, hr] at h
  | some rt =>
  simp [bishopMoves, hu, hd, hl, hr] at h
  subst h
  have mu := mem_ray_dir inBounds (d := (-1, -1)) (r := r) (c := c)
    (by intro n hn; rfl)
    (by intro n hn; simp only [inBounds_iff]; omega) (by ring) (by ring) hu m
  have md := mem_ray_dir inBounds (d := (-1, 1)) (r := r) (c := c)
    (by intro n hn; rfl)
    (by intro n hn; simp only [inBounds_iff]; omega) (by ring) (by ring) hd m
  have ml := mem_ray_dir inBounds (d := (1, -1)) (r := r) (c := c)
    (by intro n hn; rfl)
    (by intro n hn; simp only [inBounds_iff]; omega) (by ring) (by ring) hl m
  have mr := mem_ray_dir inBounds (d := (1, 1)) (r := r) (c := c)
    (by intro n hn; rfl)
    (by intro n hn; simp only [inBounds_iff]; omega) (by ring) (by ring) hr m
  simp only [List.mem_append, mu, md, ml, mr, bishopDirs, List.mem_cons, List.mem_singleton,
    List.not_mem_nil, or_false, exists_eq_or_imp, exists_eq_left, or_assoc]

theorem mem_queenMoves {b : Board} {r c : Int} (hin : inBounds r c = true) {l : List Sq}
    (h : queenMoves r c b = some l) (m : Sq) :
    m ∈ l ↔ ∃ d ∈ rookDirs ++ bishopDirs, ∃ n : Int, 1 ≤ n ∧ m = stepSq r c d n ∧
      inBounds m.1 m.2 = true ∧ clearBefore b r c d n := by
  cases h1 : rookMoves r c b with
  | none => simp [queenMoves, h1] at h
  | some l1 =>
  cases h2 : bishopMoves r c b with
  | none => simp [queenMoves, h1, h2] at h
  | some l2 =>
  simp [queenMoves, h1, h2] at h
  subst h
  rw [List.mem_append, mem_rookMoves hin h1, mem_bishopMoves hin h2]
  simp only [List.mem_append, or_and_right, exists_or]

theorem isCell_of_cellAt {b : Board} (hb : validBoard b) {r c : Int} {t : Char}
    (h : cellAt b r c = some t) : isCell t = true := by
  unfold cellAt at h
  split at h
  · split at h
    · rename_i row hrow
      rw [List.get?_eq_getElem?] at hrow h
      obtain ⟨hr, hr2⟩ := List.getElem?_eq_some_iff.mp hrow
      obtain ⟨hc, hc2⟩ := List.getElem?_eq_some_iff.mp h
      exact hb.2 row (hr2 ▸ List.getElem_mem _) t (hc2 ▸ List.getElem_mem _)
    · cases h
  · cases h

theorem isCell_cases {t : Char} (h : isCell t = true) :
    t = '.' ∨ t = 'P' ∨ t = 'R' ∨ t = 'N' ∨ t = 'B' ∨ t = 'Q' ∨ t = 'K' ∨
    t = 'p' ∨ t = 'r' ∨ t = 'n' ∨ t = 'b' ∨ t = 'q' ∨ t = 'k' := by
  simpa [isCell, or_assoc] using h

theorem stepSq_inj {r c : Int} {d d1 : Int × Int} {n n1 : Int}
    (hd : d ∈ rookDirs ++ bishopDirs) (hd1 : d1 ∈ rookDirs ++ bishopDirs)
    (hn : 1 ≤ n) (hn1 : 1 ≤ n1) (h : stepSq r c d n = stepSq r c d1 n1) :
    d = d1 ∧ n = n1 := by
  simp only [rookDirs, bishopDirs, List.cons_append, List.nil_append, List.mem_cons,
    List.mem_singleton, List.not_mem_nil, or_false] at hd hd1
  simp only [stepSq, Prod.mk.injEq] at h
  obtain ⟨h1, h2⟩ := h
  rcases hd with rfl | rfl | rfl | rfl | rfl | rfl | rfl | rfl <;>
    rcases hd1 with rfl | rfl | rfl | rfl | rfl | rfl | rfl | rfl <;>
    simp only at h1 h2 <;> first | exact ⟨rfl, by omega⟩ | (exfalso; omega)

theorem rayDirs_subset {piece : Char} {d : Int × Int} (h : d ∈ rayDirs piece) :
    d ∈ rookDirs ++ bishopDirs := by
  unfold rayDirs at h
  split at h
  · exact List.mem_append_left _ h
  · split at h
    · exact List.mem_append_right _ h
    · split at h
      · exact h
      · cases h

theorem mem_rawMoves_sliding {b : Board} {r c : Int} {piece : Char}
    (hpc : piece = 'R' ∨ piece = 'r' ∨ piece = 'B' ∨ piece = 'b' ∨ piece = 'Q' ∨ piece = 'q')
    (hin : inBounds r c = true) {l : List Sq} (h : rawMoves piece r c b = some l) (m : Sq) :
    m ∈ l ↔ ∃ d ∈ rayDirs piece, ∃ n : Int, 1 ≤ n ∧ m = stepSq r c d n ∧
      inBounds m.1 m.2 = true ∧ clearBefore b r c d n := by
  rcases hpc with rfl | rfl | rfl | rfl | rfl | rfl
  · exact mem_rookMoves hin h m
  · exact mem_rookMoves hin h m
  · exact mem_bishopMoves hin h m
  · exact mem_bishopMoves hin h m
  · exact mem_queenMoves hin h m
  · exact mem_queenMoves hin h m

theorem not_sameColor_iff {piece t : Char}
    (hpc : piece = 'R' ∨ piece = 'r' ∨ piece = 'B' ∨ piece = 'b' ∨ piece = 'Q' ∨ piece = 'q')
    (ht : isCell t = true) :
    sameColor piece t = false ↔ (t = '.' ∨ oppositeColor piece t) := by
  unfold oppositeColor
  rcases hpc with rfl | rfl | rfl | rfl | rfl | rfl <;>
    rcases isCell_cases ht with rfl | rfl | rfl | rfl | rfl | rfl | rfl | rfl | rfl | rfl | rfl |
      rfl | rfl <;> decide

/-- C7: for a rook, bishop or queen and each of its ray directions,
`generateValidMoves` contains an in-bounds square of the ray iff all squares
before it on the ray are empty and it is empty or holds a piece of the opposite
colour (so: every empty square before the first occupied one, the first
occupied one iff it is an enemy, nothing beyond it); and it contains no square
off those rays. -/
theorem sliding_piece_moves (b : Board) (r c : Int) (piece : Char) (hb : validBoard b)
    (hp : cellAt b r c = some piece)
    (hpc : piece = 'R' ∨ piece = 'r' ∨ piece = 'B' ∨ piece = 'b' ∨ piece = 'Q' ∨ piece = 'q') :
    ∃ moves, generateValidMoves r c b = some moves ∧
      (∀ d ∈ rayDirs piece, ∀ n : Int, 1 ≤ n →
        inBounds (stepSq r c d n).1 (stepSq r c d n).2 = true →
        (stepSq r c d n ∈ moves ↔
          clearBefore b r c d n ∧
          ∃ t, cellAt b (stepSq r c d n).1 (stepSq r c d n).2 = some t ∧
            (t = '.' ∨ oppositeColor piece t))) ∧
      (∀ m ∈ moves, ∃ d ∈ rayDirs piece, ∃ n : Int, 1 ≤ n ∧ m = stepSq r c d n) := by
  have hin := inBounds_of_cellAt hb.1 hp
  obtain ⟨moves, hm, _⟩ := generateValidMoves_total hb.1 hin
  have hdot : (piece == '.') = false := by
    rcases hpc with rfl | rfl | rfl | rfl | rfl | rfl <;> decide
  have hm0 := hm
  unfold generateValidMoves at hm
  simp only [hp, hdot, Bool.false_eq_true, if_false] at hm
  cases hraw : rawMoves piece r c b with
  | none => simp [hraw] at hm
  | some raw =>
    simp only [hraw] at hm
    refine ⟨moves, hm0, ?_, ?_⟩
    · intro d hd n hn hbn
      rw [mem_filterSameColor hm, mem_rawMoves_sliding hpc hin hraw]
      constructor
      · rintro ⟨⟨d1, hd1, n1, hn1, e1, _, hclear⟩, t, ht, hs⟩
        obtain ⟨rfl, rfl⟩ := stepSq_inj (rayDirs_subset hd) (rayDirs_subset hd1) hn hn1 e1
        exact ⟨hclear, t, ht, (not_sameColor_iff hpc (isCell_of_cellAt hb ht)).mp hs⟩
      · rintro ⟨hclear, t, ht, hs⟩
        exact ⟨⟨d, hd, n, hn, rfl, hbn, hclear⟩, t, ht,
          (not_sameColor_iff hpc (isCell_of_cellAt hb ht)).mpr hs⟩
    · intro m hmem
      obtain ⟨d, hd, n, hn, e, _⟩ :=
        (mem_rawMoves_sliding hpc hin hraw m).mp ((mem_filterSameColor hm m).mp hmem).1
      exact ⟨d, hd, n, hn, e⟩

/-- Witness for C7: the white queen that has just been promoted on e8 (black king
on a8, nothing in between) has moves only along its eight rays. -/
theorem sliding_piece_moves_witness :
    validBoard afterPromotion.board ∧ cellAt afterPromotion.board 0 4 = some 'Q' ∧
    ∃ moves, generateValidMoves 0 4 afterPromotion.board = some moves ∧
      (∀ m ∈ moves, ∃ d ∈ rayDirs 'Q', ∃ n : Int, 1 ≤ n ∧ m = stepSq 0 4 d n) := by
  obtain ⟨moves, h1, _, h3⟩ := sliding_piece_moves afterPromotion.board 0 4 'Q' (by decide)
    (by decide) (by simp)
  exact ⟨by decide, by decide, moves, h1, h3⟩

/-! ## Valid boards are preserved by simulated moves -/

theorem setCell_validBoard {b b1 : Board} {r c : Int} {v : Char}
    (h : setCell b r c v = some b1) (hb : validBoard b) (hv : isCell v = true) :
    validBoard b1 := by
  refine ⟨setCell_is8x8 h hb.1, ?_⟩
  unfold setCell at h
  split at h
  · split at h
    · rename_i row hrow
      split at h
      · cases h
        rw [List.get?_eq_getElem?] at hrow
        obtain ⟨hr, hr2⟩ := List.getElem?_eq_some_iff.mp hrow
        intro x hx y hy
        rcases List.mem_or_eq_of_mem_set hx with hx | hx
        · exact hb.2 x hx y hy
        · subst hx
          rcases List.mem_or_eq_of_mem_set hy with hy | hy
          · exact hb.2 row (hr2 ▸ List.getElem_mem _) y hy
          · rw [hy]; exact hv
      · cases h
    · cases h
  · cases h

theorem simulateMove_validBoard {b tb : Board} {r1 c1 r2 c2 : Int}
    (h : simulateMove b r1 c1 r2 c2 = some tb) (hb : validBoard b) : validBoard tb := by
  obtain ⟨piece, b1, hp, h1, h2⟩ := simulateMove_eq h
  have hpv := isCell_of_cellAt hb hp
  have hb1 : validBoard b1 := by
    unfold movePiece at h1
    split at h1
    · cases h1
    · rename_i b0 e0
      exact setCell_validBoard h1 (setCell_validBoard e0 hb hpv) (by decide)
  unfold promote at h2
  split at h2
  · cases h2
  · rename_i b0 e0
    have hb0 : validBoard b0 := by
      split at e0
      · exact setCell_validBoard e0 hb1 (by decide)
      · cases e0; exact hb1
    split at h2
    · exact setCell_validBoard h2 hb0 (by decide)
    · cases h2; exact hb0

theorem pieceValue_isSome {p : Char} (h : isCell p = true) : ∃ v, pieceValue p = some v := by
  rcases isCell_cases h with rfl | rfl | rfl | rfl | rfl | rfl | rfl | rfl | rfl | rfl | rfl |
    rfl | rfl <;> exact ⟨_, rfl⟩

theorem evalScan_total {b : Board} (hb : validBoard b) :
    ∀ (l : List Sq), (∀ s ∈ l, inBounds s.1 s.2 = true) → ∀ score : Int,
      ∃ v, evalScan b l score = some v
  | [], _, score => ⟨score, rfl⟩
  | x :: xs, h, score => by
    obtain ⟨p, hp⟩ := cellAt_isSome hb.1 (h x (List.mem_cons_self _ _))
    obtain ⟨v, hv⟩ := pieceValue_isSome (isCell_of_cellAt hb hp)
    have ih := evalScan_total hb xs (fun m hm => h m (List.mem_cons_of_mem _ hm))
    unfold evalScan
    simp only [hp, hv]
    split
    · split
      · exact ih _
      · exact ih _
    · exact ih _

theorem evaluateBoard_total {b : Board} (hb : validBoard b) : ∃ v, evaluateBoard b = some v :=
  evalScan_total hb allSquares allSquares_inBounds 0

/-! ## The help button -/

theorem bestLoop_cons (turn : Color) (b : Board) (mv : Move) (rest : List Move)
    (bm : Option Move) (be : Option Int) :
    bestLoop turn b (mv :: rest) bm be =
      match scoreAfter b mv with
      | none => none
      | some e =>
        if improves turn e be = true then bestLoop turn b rest (some mv) (some e)
        else bestLoop turn b rest bm be := by
  unfold scoreAfter
  rw [bestLoop]
  cases simulateMove b mv.fromR mv.fromC mv.toR mv.toC with
  | none => rfl
  | some tb => rfl

theorem improves_some_iff (turn : Color) (e e0 : Int) :
    improves turn e (some e0) = true ↔ strictlyBetter turn e e0 := by
  cases turn <;> simp [improves, strictlyBetter]

theorem noWorse_of_not_strictlyBetter {turn : Color} {e e0 : Int}
    (h : ¬ strictlyBetter turn e e0) : noWorse turn e0 e := by
  cases turn <;> simp [strictlyBetter, noWorse] at h ⊢ <;> exact h

theorem strictlyBetter_trans {turn : Color} {a b c : Int}
    (h1 : strictlyBetter turn a b) (h2 : strictlyBetter turn b c) : strictlyBetter turn a c := by
  cases turn <;> simp [strictlyBetter] at h1 h2 ⊢ <;> omega

theorem strictlyBetter_of_noWorse {turn : Color} {a b c : Int}
    (h1 : strictlyBetter turn a b) (h2 : noWorse turn b c) : strictlyBetter turn a c := by
  cases turn <;> simp [strictlyBetter, noWorse] at h1 h2 ⊢ <;> omega

theorem bestLoop_total (turn : Color) (b : Board) :
    ∀ (l : List Move) (bm : Option Move) (be : Option Int),
      (∀ x ∈ l, ∃ ex, scoreAfter b x = some ex) → ∃ res, bestLoop turn b l bm be = some res
  | [], bm, be, _ => ⟨(bm, be), rfl⟩
  | mv :: rest, bm, be, h => by
    obtain ⟨e, he⟩ := h mv (List.mem_cons_self _ _)
    rw [bestLoop_cons, he]
    simp only
    split
    · exact bestLoop_total turn b rest _ _ (fun x hx => h x (List.mem_cons_of_mem _ hx))
    · exact bestLoop_total turn b rest _ _ (fun x hx => h x (List.mem_cons_of_mem _ hx))

theorem bestLoop_spec (turn : Color) (b : Board) :
    ∀ (l : List Move) (bm : Option Move) (e0 : Int) (res : Option Move × Option Int),
      bestLoop turn b l bm (some e0) = some res →
      (res = (bm, some e0) ∧ ∀ x ∈ l, ∃ ex, scoreAfter b x = some ex ∧ noWorse turn e0 ex) ∨
      (∃ pre m post e, l = pre ++ m :: post ∧ res = (some m, some e) ∧
        scoreAfter b m = some e ∧ strictlyBetter turn e e0 ∧
        (∀ x ∈ pre, ∃ ex, scoreAfter b x = some ex ∧ strictlyBetter turn e ex) ∧
        (∀ x ∈ post, ∃ ex, scoreAfter b x = some ex ∧ noWorse turn e ex))
  | [], bm, e0, res, h => by
    simp only [bestLoop, Option.some.injEq] at h
    exact Or.inl ⟨h.symm, by simp⟩
  | mv :: rest, bm, e0, res, h => by
    rw [bestLoop_cons] at h
    cases hs : scoreAfter b mv with
    | none => simp [hs] at h
    | some ev =>
      simp only [hs] at h
      by_cases himp : improves turn ev (some e0) = true
      · have hsb := (improves_some_iff turn ev e0).mp himp
        simp only [himp, if_true] at h
        rcases bestLoop_spec turn b rest (some mv) ev res h with
          ⟨h1, h2⟩ | ⟨pre, m, post, e, h1, h2, h3, h4, h5, h6⟩
        · exact Or.inr ⟨[], mv, rest, ev, rfl, h1, hs, hsb, by simp, h2⟩
        · refine Or.inr ⟨mv :: pre, m, post, e, by rw [h1]; rfl, h2, h3,
            strictlyBetter_trans h4 hsb, ?_, h6⟩
          intro x hx
          rcases List.mem_cons.mp hx with hx | hx
          · subst hx; exact ⟨ev, hs, h4⟩
          · exact h5 x hx
      · have hnw := noWorse_of_not_strictlyBetter
          (fun hh => himp ((improves_some_iff turn ev e0).mpr hh))
        simp only [himp, if_false] at h
        rcases bestLoop_spec turn b rest bm e0 res h with
          ⟨h1, h2⟩ | ⟨pre, m, post, e, h1, h2, h3, h4, h5, h6⟩
        · refine Or.inl ⟨h1, ?_⟩
          intro x hx
          rcases List.mem_cons.mp hx with hx | hx
          · subst hx; exact ⟨ev, hs, hnw⟩
          · exact h2 x hx
        · refine Or.inr ⟨mv :: pre, m, post, e, by rw [h1]; rfl, h2, h3, h4, ?_, h6⟩
          intro x hx
          rcases List.mem_cons.mp hx with hx | hx
          · subst hx; exact ⟨ev, hs, strictlyBetter_of_noWorse h4 hnw⟩
          · exact h5 x hx

/-- Started with `bestMove = null` and `bestEval = ∓Infinity` on a non-empty list,
the loop ends with the first move of best score. -/
theorem bestLoop_first_best (turn : Color) (b : Board) {l : List Move} (hl : l ≠ [])
    {res : Option Move × Option Int} (h : bestLoop turn b l none none = some res) :
    ∃ pre m post e, l = pre ++ m :: post ∧ res = (some m, some e) ∧
      scoreAfter b m = some e ∧
      (∀ x ∈ pre, ∃ ex, scoreAfter b x = some ex ∧ strictlyBetter turn e ex) ∧
      (∀ x ∈ post, ∃ ex, scoreAfter b x = some ex ∧ noWorse turn e ex) := by
  cases l with
  | nil => exact absurd rfl hl
  | cons mv rest =>
    rw [bestLoop_cons] at h
    cases hs : scoreAfter b mv with
    | none => simp [hs] at h
    | some ev =>
      simp only [hs, improves, if_true] at h
      rcases bestLoop_spec turn b rest (some mv) ev res h with
        ⟨h1, h2⟩ | ⟨pre, m, post, e, h1, h2, h3, h4, h5, h6⟩
      · exact ⟨[], mv, rest, ev, rfl, h1, hs, by simp, h2⟩
      · refine ⟨mv :: pre, m, post, e, by rw [h1]; rfl, h2, h3, ?_, h6⟩
        intro x hx
        rcases List.mem_cons.mp hx with hx | hx
        · subst hx; exact ⟨ev, hs, h4⟩
        · exact h5 x hx

/-! ## Order of the safe-move list -/

theorem safeTargets_order {color : Color} {b : Board} {r c : Int} :
    ∀ {l : List Sq} {out : List Move}, safeTargets color b r c l = some out →
      (out.map fun mv => (mv.toR, mv.toC)).Sublist l ∧
      ∀ mv ∈ out, mv.fromR = r ∧ mv.fromC = c
  | [], out, h => by
    simp only [safeTargets, Option.some.injEq] at h
    subst h
    simp
  | x :: xs, out, h => by
    unfold safeTargets at h
    split at h
    · cases h
    · split at h
      · cases h
      · rename_i chk _
        split at h
        · cases h
        · rename_i more hmore
          obtain ⟨ih1, ih2⟩ := safeTargets_order hmore
          cases chk with
          | false =>
            simp only [Bool.not_false, if_true, Option.some.injEq] at h
            subst h
            refine ⟨?_, ?_⟩
            · simp only [List.map_cons]
              exact List.Sublist.cons₂ _ ih1
            · intro mv hmv
              rcases List.mem_cons.mp hmv with hmv | hmv
              · subst hmv; exact ⟨rfl, rfl⟩
              · exact ih2 mv hmv
          | true =>
            simp only [Bool.not_true, Bool.false_eq_true, if_false, Option.some.injEq] at h
            subst h
            exact ⟨List.Sublist.cons _ ih1, ih2⟩

theorem safeMovesScan_order {color : Color} {b : Board} :
    ∀ {l : List Sq} {out : List Move},
      l.Pairwise (fun s t => s.1 < t.1 ∨ (s.1 = t.1 ∧ s.2 < t.2)) →
      safeMovesScan color b l = some out →
      out.Pairwise (fun x y => x.fromR < y.fromR ∨ (x.fromR = y.fromR ∧ x.fromC ≤ y.fromC)) ∧
      (∀ mv ∈ out, (mv.fromR, mv.fromC) ∈ l) ∧
      ∀ r c moves, generateValidMoves r c b = some moves →
        ((out.filter fun mv => mv.fromR == r && mv.fromC == c).map
          fun mv => (mv.toR, mv.toC)).Sublist moves
  | [], out, _, h => by
    simp only [safeMovesScan, Option.some.injEq] at h
    subst h
    simp
  | x :: xs, out, hl, h => by
    obtain ⟨hx, hxs⟩ := List.pairwise_cons.mp hl
    unfold safeMovesScan at h
    split at h
    · cases h
    · split at h
      · split at h
        · cases h
        · rename_i raw hraw
          split at h
          · cases h
          · rename_i here hhere
            split at h
            · cases h
            · rename_i more hmore
              cases h
              obtain ⟨ih1, ih2, ih3⟩ := safeMovesScan_order hxs hmore
              obtain ⟨g1, g2⟩ := safeTargets_order hhere
              refine ⟨?_, ?_, ?_⟩
              · rw [List.pairwise_append]
                refine ⟨?_, ih1, ?_⟩
                · rw [List.pairwise_iff_forall_sublist]
                  intro a b1 hab
                  have ha := g2 a (hab.subset (List.mem_cons_self _ _))
                  have hb1 := g2 b1 (hab.subset (List.mem_cons_of_mem _ (List.mem_singleton_self _)))
                  right
                  rw [ha.1, ha.2, hb1.1, hb1.2]
                  exact ⟨rfl, le_refl _⟩
                · intro a ha b1 hb1
                  have ha' := g2 a ha
                  have := hx _ (ih2 b1 hb1)
                  simp only at this
                  rw [ha'.1, ha'.2]
                  rcases this with h1 | ⟨h1, h2⟩
                  · exact Or.inl h1
                  · exact Or.inr ⟨h1, le_of_lt h2⟩
              · intro mv hmv
                rcases List.mem_append.mp hmv with hmv | hmv
                · have := g2 mv hmv
                  rw [this.1, this.2]
                  exact List.mem_cons_self _ _
                · exact List.mem_cons_of_mem _ (ih2 mv hmv)
              · intro r c moves hmoves
                rw [List.filter_append, List.map_append]
                by_cases hrc : x = (r, c)
                · subst hrc
                  simp only at hraw
                  rw [hraw] at hmoves
                  cases hmoves
                  have e1 : (here.filter fun mv => mv.fromR == r && mv.fromC == c) = here := by
                    rw [List.filter_eq_self]
                    intro mv hmv
                    have := g2 mv hmv
                    simp [this.1, this.2]
                  have e2 : (more.filter fun mv => mv.fromR == r && mv.fromC == c) = [] := by
                    rw [List.filter_eq_nil_iff]
                    intro mv hmv
                    have hmem := ih2 mv hmv
                    have := hx _ hmem
                    simp only [Bool.and_eq_true, beq_iff_eq, not_and]
                    intro h1 h2
                    simp only [h1, h2] at this
                    omega
                  rw [e1, e2, List.map_nil, List.append_nil]
                  exact g1
                · have e1 : (here.filter fun mv => mv.fromR == r && mv.fromC == c) = [] := by
                    rw [List.filter_eq_nil_iff]
                    intro mv hmv
                    have := g2 mv hmv
                    simp only [Bool.and_eq_true, beq_iff_eq, not_and]
                    intro h1 h2
                    apply hrc
                    rw [← h1, ← h2, this.1, this.2]
                  rw [e1, List.map_nil, List.nil_append]
                  exact ih3 r c moves hmoves
      · obtain ⟨ih1, ih2, ih3⟩ := safeMovesScan_order hxs h
        exact ⟨ih1, fun mv hmv => List.mem_cons_of_mem _ (ih2 mv hmv), ih3⟩

theorem scoreAfter_total_of_safe {s : State} (hb : validBoard s.board) {safe : List Move}
    (h : getAllSafeMovesForCurrentPlayer s = some safe) :
    ∀ x ∈ safe, ∃ ex, scoreAfter s.board x = some ex := by
  obtain ⟨out, hout, hiff⟩ :=
    safeMovesScan_spec hb.1 s.currentTurn allSquares allSquares_inBounds
  unfold getAllSafeMovesForCurrentPlayer at h
  rw [hout] at h
  cases h
  intro x hx
  obtain ⟨_, _, _, tb, _, _, _, _, h1, _⟩ := (hiff x).mp hx
  obtain ⟨v, hv⟩ := evaluateBoard_total (simulateMove_validBoard h1 hb)
  exact ⟨v, by simp [scoreAfter, h1, hv]⟩

theorem showBestMove_startState :
    showBestMove startState = some { startState with status := "Suggested move: a2 -> a3" } := by
  decide

/-- C10: in a non-terminal state `showBestMove` suggests the first move of the
safe-move list whose score (`evaluateBoard` after the move, with promotion) is
maximal for White, minimal for Black: every earlier move scores strictly
worse, every later move no better. The list is in row-major order of source
squares and, per square, in the order of `generateValidMoves`. With an empty
list nothing is suggested. On the initial layout the suggestion is a2 -> a3. -/
theorem showBestMove_first_best (s : State) (hb : validBoard s.board)
    (hg : s.gameOver = false) :
    ∃ safe s1, getAllSafeMovesForCurrentPlayer s = some safe ∧ showBestMove s = some s1 ∧
      (safe = [] → bestMoveOf s = some none ∧ s1.status = "No moves available.") ∧
      (safe ≠ [] → ∃ pre m post e, safe = pre ++ m :: post ∧
        bestMoveOf s = some (some m) ∧
        s1.status = "Suggested move: " ++ toAlgebraic m.fromR m.fromC ++ " -> " ++
          toAlgebraic m.toR m.toC ∧
        scoreAfter s.board m = some e ∧
        (∀ x ∈ pre, ∃ ex, scoreAfter s.board x = some ex ∧ strictlyBetter s.currentTurn e ex) ∧
        (∀ x ∈ post, ∃ ex, scoreAfter s.board x = some ex ∧ noWorse s.currentTurn e ex)) ∧
      safe.Pairwise (fun x y =>
        x.fromR < y.fromR ∨ (x.fromR = y.fromR ∧ x.fromC ≤ y.fromC)) ∧
      (∀ r c moves, generateValidMoves r c s.board = some moves →
        ((safe.filter fun mv => mv.fromR == r && mv.fromC == c).map
          fun mv => (mv.toR, mv.toC)).Sublist moves) ∧
      showBestMove startState =
        some { startState with status := "Suggested move: a2 -> a3" } := by
  obtain ⟨safe, hsafe, _⟩ :=
    safeMovesScan_spec hb.1 s.currentTurn allSquares allSquares_inBounds
  have hsafe' : getAllSafeMovesForCurrentPlayer s = some safe := hsafe
  obtain ⟨o1, _, o3⟩ := safeMovesScan_order allSquares_sorted hsafe
  have hscore := scoreAfter_total_of_safe hb hsafe'
  by_cases hnil : safe = []
  · subst hnil
    refine ⟨[], { s with status := "No moves available." }, hsafe', ?_, ?_, ?_, o1, o3, ?_⟩
    · simp [showBestMove, hg, hsafe']
    · intro _
      exact ⟨by simp [bestMoveOf, hg, hsafe'], rfl⟩
    · intro h; exact absurd rfl h
    · exact showBestMove_startState
  · obtain ⟨res, hres⟩ := bestLoop_total s.currentTurn s.board safe none none hscore
    obtain ⟨pre, m, post, e, h1, h2, h3, h4, h5⟩ := bestLoop_first_best _ _ hnil hres
    have hlen : (safe.length == 0) = false := by
      cases safe with
      | nil => exact absurd rfl hnil
      | cons a l => rfl
    subst h2
    refine ⟨safe, { s with status := "Suggested move: " ++ toAlgebraic m.fromR m.fromC ++
        " -> " ++ toAlgebraic m.toR m.toC }, hsafe', ?_, ?_, ?_, o1, o3, ?_⟩
    · simp [showBestMove, hg, hsafe', hlen, hres]
    · intro h; exact absurd h hnil
    · intro _
      exact ⟨pre, m, post, e, h1, by simp [bestMoveOf, hg, hsafe', hlen, hres], rfl, h3, h4, h5⟩
    · exact showBestMove_startState

/-- Witness for C10: on the initial position the twenty safe moves all score 0
and the first of them, a2 -> a3, is suggested. -/
theorem showBestMove_first_best_witness :
    validBoard startState.board ∧ startState.gameOver = false ∧
    showBestMove startState = some { startState with status := "Suggested move: a2 -> a3" } := by
  obtain ⟨_, _, _, _, _, _, _, _, h⟩ := showBestMove_first_best startState (by decide) rfl
  exact ⟨by decide, rfl, h⟩

/-! ## Promotion does not change what the check detector sees -/

theorem cellsAgree_dot {color : Color} {x y : Char} (h : cellsAgree color x y) :
    (x == '.') = (y == '.') := by
  rcases h with rfl | ⟨_, rfl, rfl⟩ | ⟨_, rfl, rfl⟩
  · rfl
  · decide
  · decide

theorem cellsAgree_sameColor {color : Color} {x y : Char} (h : cellsAgree color x y)
    (piece : Char) : sameColor piece x = sameColor piece y := by
  rcases h with rfl | ⟨_, rfl, rfl⟩ | ⟨_, rfl, rfl⟩
  · rfl
  · simp [sameColor, show isWhitePiece 'P' = true by decide, show isWhitePiece 'Q' = true by decide,
      show isBlackPiece 'P' = false by decide, show isBlackPiece 'Q' = false by decide]
  · simp [sameColor, show isWhitePiece 'p' = false by decide,
      show isWhitePiece 'q' = false by decide,
      show isBlackPiece 'p' = true by decide, show isBlackPiece 'q' = true by decide]

theorem cellsAgree_enemy {color : Color} {x y : Char} (h : cellsAgree color x y) :
    isEnemyPiece color x = isEnemyPiece color y ∧ (isEnemyPiece color x = true → x = y) := by
  rcases h with rfl | ⟨rfl, rfl, rfl⟩ | ⟨rfl, rfl, rfl⟩
  · exact ⟨rfl, fun _ => rfl⟩
  · exact ⟨by decide, by decide⟩
  · exact ⟨by decide, by decide⟩

theorem cellsAgree_king {color : Color} {x y : Char} (h : cellsAgree color x y) (c : Color) :
    (x == (if c = Color.W then 'K' else 'k')) = (y == (if c = Color.W then 'K' else 'k')) := by
  rcases h with rfl | ⟨_, rfl, rfl⟩ | ⟨_, rfl, rfl⟩
  · rfl
  · cases c <;> decide
  · cases c <;> decide

theorem isEmptySquare_agree {color : Color} {b b1 : Board} (h : boardsAgree color b b1)
    (r c : Int) : isEmptySquare r c b = isEmptySquare r c b1 := by
  rcases h r c with ⟨h1, h2⟩ | ⟨x, y, h1, h2, h3⟩
  · simp [isEmptySquare, h1, h2]
  · simp [isEmptySquare, h1, h2, cellsAgree_dot h3]

theorem pawnCapture_agree {color : Color} {b b1 : Board} (h : boardsAgree color b b1)
    (piece : Char) (f1 cc : Int) : pawnCapture piece f1 cc b = pawnCapture piece f1 cc b1 := by
  unfold pawnCapture
  rw [isEmptySquare_agree h]
  rcases h f1 cc with ⟨h1, h2⟩ | ⟨x, y, h1, h2, h3⟩
  · simp [h1, h2]
  · simp [h1, h2, cellsAgree_sameColor h3]

theorem pawnDouble_agree {color : Color} {b b1 : Board} (h : boardsAgree color b b1)
    (g : Bool) (r2 c : Int) : pawnDouble g r2 c b = pawnDouble g r2 c b1 := by
  unfold pawnDouble
  rcases h r2 c with ⟨h1, h2⟩ | ⟨x, y, h1, h2, h3⟩
  · simp [h1, h2]
  · simp [h1, h2, cellsAgree_dot h3]

theorem pawnForward_agree {color : Color} {b b1 : Board} (h : boardsAgree color b b1)
    (piece : Char) (r c f1 : Int) :
    pawnForward piece r c f1 b = pawnForward piece r c f1 b1 := by
  unfold pawnForward
  rw [pawnDouble_agree h, pawnDouble_agree h]
  rcases h f1 c with ⟨h1, h2⟩ | ⟨x, y, h1, h2, h3⟩
  · simp [h1, h2]
  · simp [h1, h2, cellsAgree_dot h3]

theorem pawnMoves_agree {color : Color} {b b1 : Board} (h : boardsAgree color b b1)
    {r c : Int} (hrc : cellAt b r c = cellAt b1 r c) : pawnMoves r c b = pawnMoves r c b1 := by
  unfold pawnMoves
  rw [hrc]
  cases cellAt b1 r c with
  | none => rfl
  | some piece =>
    simp only
    rw [pawnForward_agree h, pawnCapture_agree h, pawnCapture_agree h]

theorem ray_agree {color : Color} {b b1 : Board} (h : boardsAgree color b b1)
    (cond : Int → Int → Bool) (di dj : Int) :
    ∀ (fuel : Nat) (i j : Int), ray b cond di dj fuel i j = ray b1 cond di dj fuel i j := by
  intro fuel
  induction fuel with
  | zero => intro i j; rfl
  | succ n ih =>
    intro i j
    unfold ray
    rw [isEmptySquare_agree h, ih]

theorem rawMoves_agree {color : Color} {b b1 : Board} (h : boardsAgree color b b1)
    (piece : Char) {r c : Int} (hrc : cellAt b r c = cellAt b1 r c) :
    rawMoves piece r c b = rawMoves piece r c b1 := by
  unfold rawMoves queenMoves rookMoves bishopMoves knightMoves kingMoves
  simp only [pawnMoves_agree h hrc, ray_agree h]

theorem filterSameColor_agree {color : Color} {b b1 : Board} (h : boardsAgree color b b1)
    (piece : Char) : ∀ l : List Sq, filterSameColor piece b l = filterSameColor piece b1 l
  | [] => rfl
  | m :: ms => by
    unfold filterSameColor
    rw [filterSameColor_agree h piece ms]
    rcases h m.1 m.2 with ⟨h1, h2⟩ | ⟨x, y, h1, h2, h3⟩
    · simp [h1, h2]
    · simp [h1, h2, cellsAgree_sameColor h3]

theorem generateValidMoves_agree {color : Color} {b b1 : Board} (h : boardsAgree color b b1)
    {r c : Int} (hrc : cellAt b r c = cellAt b1 r c) :
    generateValidMoves r c b = generateValidMoves r c b1 := by
  unfold generateValidMoves
  rw [hrc]
  cases cellAt b1 r c with
  | none => rfl
  | some piece =>
    simp only
    rw [rawMoves_agree h piece hrc]
    cases rawMoves piece r c b1 with
    | none => rfl
    | some moves => simp only [filterSameColor_agree h]

theorem findKing_agree {color : Color} {b b1 : Board} (h : boardsAgree color b b1) (c : Color) :
    ∀ l : List Sq, findKing (if c = Color.W then 'K' else 'k') b l =
      findKing (if c = Color.W then 'K' else 'k') b1 l
  | [] => rfl
  | s :: rest => by
    unfold findKing
    rw [findKing_agree h c rest]
    rcases h s.1 s.2 with ⟨h1, h2⟩ | ⟨x, y, h1, h2, h3⟩
    · simp [h1, h2]
    · simp only [h1, h2, cellsAgree_king h3 c]

theorem attackScan_agree {color : Color} {b b1 : Board} (h : boardsAgree color b b1) (k : Sq) :
    ∀ l : List Sq, attackScan color b k l = attackScan color b1 k l
  | [] => rfl
  | s :: rest => by
    unfold attackScan
    rw [attackScan_agree h k rest]
    rcases h s.1 s.2 with ⟨h1, h2⟩ | ⟨x, y, h1, h2, h3⟩
    · simp [h1, h2]
    · obtain ⟨e1, e2⟩ := cellsAgree_enemy h3
      simp only [h1, h2, cellsAgree_dot h3, ← e1]
      by_cases hen : isEnemyPiece color x = true
      · have hxy := e2 hen
        subst hxy
        rw [generateValidMoves_agree h (by rw [h1, h2])]
      · simp [hen]

theorem kingInCheck_agree {color : Color} {b b1 : Board} (h : boardsAgree color b b1) :
    kingInCheck color b = kingInCheck color b1 := by
  unfold kingInCheck
  simp only [findKing_agree h color, attackScan_agree h]

theorem cellsAgree_promoted {color : Color} {piece : Char}
    (hown : isOwnPiece color piece = true) (r2 : Int) :
    cellsAgree color piece (promoted piece r2) := by
  unfold promoted
  split
  · rename_i h
    obtain ⟨rfl, _⟩ := h
    cases color
    · exact Or.inr (Or.inl ⟨rfl, rfl, rfl⟩)
    · exact absurd hown (by decide)
  · split
    · rename_i h
      obtain ⟨rfl, _⟩ := h
      cases color
      · exact absurd hown (by decide)
      · exact Or.inr (Or.inr ⟨rfl, rfl, rfl⟩)
    · exact Or.inl rfl

theorem simulate_agree {color : Color} {b tmp tb : Board} {r c r2 c2 : Int} {piece : Char}
    (hp : cellAt b r c = some piece) (hown : isOwnPiece color piece = true)
    (hne : ¬ (r2 = r ∧ c2 = c))
    (h1 : simulatePlain b r c r2 c2 = some tmp) (h2 : simulateMove b r c r2 c2 = some tb) :
    boardsAgree color tmp tb := by
  obtain ⟨piece1, b1, hp1, hb1, hb2⟩ := simulateMove_eq h2
  rw [hp] at hp1
  cases hp1
  simp only [simulatePlain, copyBoard_eq, hp, hb1, Option.some.injEq] at h1
  subst h1
  have hmid : cellAt b1 r2 c2 = some piece := by
    rw [cellAt_movePiece hb1]
    simp [hne]
  intro i j
  rw [cellAt_promote hb2 hmid i j]
  by_cases hij : i = r2 ∧ j = c2
  · obtain ⟨rfl, rfl⟩ := hij
    right
    exact ⟨piece, promoted piece i, hmid, by simp, cellsAgree_promoted hown i⟩
  · simp only [hij, if_false]
    cases hx : cellAt b1 i j with
    | none => exact Or.inl ⟨rfl, rfl⟩
    | some x => exact Or.inr ⟨x, x, rfl, rfl, Or.inl rfl⟩

/-- C5: `noMovesAvailable(color, board)` is true iff no piece of that colour has a
move that is legal in the sense of the legality filter (simulation with forced
promotion, then `kingInCheck`), and iff `getAllSafeMovesForCurrentPlayer()` with
`currentTurn = color` on that board is empty, although `noMovesAvailable`
simulates without promotion. -/
theorem noMovesAvailable_iff_no_safe_move (s : State) (hb : is8x8 s.board) :
    ∃ v safe, noMovesAvailable s.currentTurn s.board = some v ∧
      getAllSafeMovesForCurrentPlayer s = some safe ∧
      (v = true ↔ safe = []) ∧
      (v = true ↔ ∀ r c p moves, cellAt s.board r c = some p →
        isOwnPiece s.currentTurn p = true → generateValidMoves r c s.board = some moves →
        ∀ m ∈ moves, ∃ tb, simulateMove s.board r c m.1 m.2 = some tb ∧
          kingInCheck s.currentTurn tb = some true) := by
  obtain ⟨v, hv, hviff⟩ := noMovesScan_spec hb s.currentTurn allSquares allSquares_inBounds
  obtain ⟨safe, hsafe, hsiff⟩ :=
    safeMovesScan_spec hb s.currentTurn allSquares allSquares_inBounds
  -- both simulations of a pseudo-legal move of an own piece give the same verdict
  have key : ∀ r c p moves, cellAt s.board r c = some p →
      isOwnPiece s.currentTurn p = true → generateValidMoves r c s.board = some moves →
      ∀ m ∈ moves, ∃ tmp tb chk, simulatePlain s.board r c m.1 m.2 = some tmp ∧
        simulateMove s.board r c m.1 m.2 = some tb ∧
        kingInCheck s.currentTurn tmp = some chk ∧ kingInCheck s.currentTurn tb = some chk := by
    intro r c p moves hp hown hm m hmem
    have hin := inBounds_of_cellAt hb hp
    obtain ⟨_, gm⟩ : ∃ l, generateValidMoves r c s.board = some l ∧
        ∀ m ∈ l, inBounds m.1 m.2 = true := generateValidMoves_total hb hin
    rw [hm] at gm
    have hmin := gm.2 m (by rw [← Option.some.inj gm.1]; exact hmem)
    obtain ⟨tmp, htmp, h8⟩ := simulatePlain_total hb hin hmin
    obtain ⟨tb, htb, _⟩ := simulateMove_total hb hin hmin
    obtain ⟨chk, hchk⟩ := kingInCheck_total h8 s.currentTurn
    have hne : ¬ (m.1 = r ∧ m.2 = c) := by
      rintro ⟨h1, h2⟩
      apply generateValidMoves_ne_self hm
      rw [← h1, ← h2]
      exact hmem
    have hag := simulate_agree hp hown hne htmp htb
    exact ⟨tmp, tb, chk, htmp, htb, hchk, by rw [← kingInCheck_agree hag]; exact hchk⟩
  have second : v = true ↔ ∀ r c p moves, cellAt s.board r c = some p →
      isOwnPiece s.currentTurn p = true → generateValidMoves r c s.board = some moves →
      ∀ m ∈ moves, ∃ tb, simulateMove s.board r c m.1 m.2 = some tb ∧
        kingInCheck s.currentTurn tb = some true := by
    rw [hviff]
    constructor
    · intro hall r c p moves hp hown hm m hmem
      obtain ⟨tmp, tb, chk, h1, h2, h3, h4⟩ := key r c p moves hp hown hm m hmem
      obtain ⟨t, ht, hk⟩ := hall (r, c) (mem_allSquares (inBounds_of_cellAt hb hp)) p moves
        hp hown hm m hmem
      rw [h1] at ht
      cases ht
      rw [h3] at hk
      cases hk
      exact ⟨tb, h2, h4⟩
    · intro hall sq _ p moves hp hown hm m hmem
      obtain ⟨tmp, tb, chk, h1, h2, h3, h4⟩ := key sq.1 sq.2 p moves hp hown hm m hmem
      obtain ⟨t, ht, hk⟩ := hall sq.1 sq.2 p moves hp hown hm m hmem
      rw [h2] at ht
      cases ht
      rw [h4] at hk
      cases hk
      exact ⟨tmp, h1, h3⟩
  refine ⟨v, safe, hv, hsafe, ?_, second⟩
  rw [second]
  constructor
  · intro hall
    apply List.eq_nil_iff_forall_not_mem.mpr
    intro mv hmv
    obtain ⟨_, p, moves, tb, e1, e2, e3, e4, e5, e6⟩ := (hsiff mv).mp hmv
    obtain ⟨t, ht, hk⟩ := hall mv.fromR mv.fromC p moves e1 e2 e3 (mv.toR, mv.toC) e4
    simp only at ht
    rw [e5] at ht
    cases ht
    rw [e6] at hk
    cases hk
  · intro hnil r c p moves hp hown hm m hmem
    obtain ⟨tmp, tb, chk, h1, h2, h3, h4⟩ := key r c p moves hp hown hm m hmem
    cases chk with
    | true => exact ⟨tb, h2, h4⟩
    | false =>
      exfalso
      have : Move.mk r c m.1 m.2 ∈ safe :=
        (hsiff _).mpr ⟨mem_allSquares (inBounds_of_cellAt hb hp), p, moves, tb, hp, hown, hm,
          hmem, h2, h4⟩
      rw [hnil] at this
      cases this

/-- Witness for C5: on the initial position White has safe moves and
`noMovesAvailable` agrees. -/
theorem noMovesAvailable_iff_no_safe_move_witness :
    is8x8 startState.board ∧
    ∃ v safe, noMovesAvailable Color.W initialLayout = some v ∧
      getAllSafeMovesForCurrentPlayer startState = some safe ∧ (v = true ↔ safe = []) := by
  obtain ⟨v, safe, h1, h2, h3, _⟩ := noMovesAvailable_iff_no_safe_move startState (by decide)
  exact ⟨by decide, v, safe, h1, h2, h3⟩

/-! ## Safety of the move generator -/

theorem sameColor_false_iff {p t : Char} (hp : p ≠ '.') :
    sameColor p t = false ↔
      ¬ (isWhitePiece p = true ∧ isWhitePiece t = true) ∧
      ¬ (isBlackPiece p = true ∧ isBlackPiece t = true) := by
  have hd : (p == '.') = false := by simpa using hp
  by_cases ht : t = '.'
  · subst ht
    simp [sameColor, show isWhitePiece '.' = false by decide,
      show isBlackPiece '.' = false by decide]
  · have htd : (t == '.') = false := by simpa using ht
    simp only [sameColor, hd, htd, Bool.or_self, Bool.false_eq_true, if_false,
      Bool.or_eq_false_iff, Bool.and_eq_false_iff, not_and, Bool.not_eq_true]
    constructor
    · rintro ⟨h1, h2⟩
      refine ⟨fun a => ?_, fun a => ?_⟩
      · rcases h1 with h | h
        · rw [h] at a; cases a
        · exact h
      · rcases h2 with h | h
        · rw [h] at a; cases a
        · exact h
    · rintro ⟨h1, h2⟩
      refine ⟨?_, ?_⟩
      · cases hw : isWhitePiece p with
        | false => exact Or.inl rfl
        | true => exact Or.inr (h1 hw)
      · cases hw : isBlackPiece p with
        | false => exact Or.inl rfl
        | true => exact Or.inr (h2 hw)

/-- C18: on an 8×8 board and an in-bounds square `generateValidMoves` returns
(no read falls outside the grid); every returned target is in bounds, differs
from the source square and does not hold a piece of the colour of the piece on
the source square; for an empty source square the list is empty. -/
theorem generateValidMoves_safe (b : Board) (r c : Int) (hb : is8x8 b)
    (hin : inBounds r c = true) :
    ∃ piece moves, cellAt b r c = some piece ∧ generateValidMoves r c b = some moves ∧
      (∀ m ∈ moves, inBounds m.1 m.2 = true ∧ m ≠ (r, c) ∧
        ∃ t, cellAt b m.1 m.2 = some t ∧ sameColor piece t = false ∧
          ¬ (isWhitePiece piece = true ∧ isWhitePiece t = true) ∧
          ¬ (isBlackPiece piece = true ∧ isBlackPiece t = true)) ∧
      (piece = '.' → moves = []) := by
  obtain ⟨piece, hp⟩ := cellAt_isSome hb hin
  obtain ⟨moves, hm, gm⟩ := generateValidMoves_total hb hin
  refine ⟨piece, moves, hp, hm, ?_, ?_⟩
  · intro m hmem
    obtain ⟨p1, t, hp1, ht, hs, hdot⟩ := generateValidMoves_target hm hmem
    rw [hp] at hp1
    cases hp1
    refine ⟨gm m hmem, ?_, t, ht, hs, (sameColor_false_iff hdot).mp hs⟩
    intro he
    subst he
    exact generateValidMoves_ne_self hm hmem
  · intro hd
    subst hd
    simpa [generateValidMoves, hp] using hm.symm

/-- Witness for C18: the knight on b1 of the initial position. -/
theorem generateValidMoves_safe_witness :
    is8x8 initialLayout ∧ inBounds 7 1 = true ∧
    ∃ piece moves, cellAt initialLayout 7 1 = some piece ∧
      generateValidMoves 7 1 initialLayout = some moves ∧
      (∀ m ∈ moves, inBounds m.1 m.2 = true ∧ m ≠ (7, 1) ∧
        ∃ t, cellAt initialLayout m.1 m.2 = some t ∧ sameColor piece t = false ∧
          ¬ (isWhitePiece piece = true ∧ isWhitePiece t = true) ∧
          ¬ (isBlackPiece piece = true ∧ isBlackPiece t = true)) ∧
      (piece = '.' → moves = []) :=
  ⟨by decide, by decide, generateValidMoves_safe initialLayout 7 1 (by decide) (by decide)⟩

/-! ## Frame of an accepted move -/

/-- C19: after an accepted `tryMove(r1,c1,r2,c2)` the source square is empty and
every square other than source and target holds what it held before. -/
theorem tryMove_frame (s s1 : State) (r1 c1 r2 c2 : Int)
    (h : tryMove s r1 c1 r2 c2 = some (true, s1)) :
    cellAt s1.board r1 c1 = some '.' ∧
    ∀ i j : Int, ¬ (i = r1 ∧ j = c1) → ¬ (i = r2 ∧ j = c2) →
      cellAt s1.board i j = cellAt s.board i j := by
  obtain ⟨hsim, _, _⟩ := tryMove_true_board h
  obtain ⟨_, moves, piece, captured, b1, b2, hm, ht, hp, _, hb1, hb2, hsim2, _, _⟩ :=
    tryMove_true_inv h
  rw [hsim] at hsim2
  cases hsim2
  have hne : ¬ (r2 = r1 ∧ c2 = c1) := by
    rintro ⟨rfl, rfl⟩
    exact generateValidMoves_ne_self hm ((hasTarget_iff _ _ _).mp ht)
  have hne' : ¬ (r1 = r2 ∧ c1 = c2) := fun hh => hne ⟨hh.1.symm, hh.2.symm⟩
  have hmid : cellAt b1 r2 c2 = some piece := by
    rw [cellAt_movePiece hb1]
    simp [hne]
  constructor
  · rw [cellAt_promote hb2 hmid, cellAt_movePiece hb1]
    simp [hne']
  · intro i j h1 h2
    rw [cellAt_promote hb2 hmid, cellAt_movePiece hb1]
    simp [h1, h2]

/-- Witness for C19: after e2-e4 from the initial position e2 is empty and a1
still holds the white rook. -/
theorem tryMove_frame_witness :
    cellAt afterE4.board 6 4 = some '.' ∧
    cellAt afterE4.board 7 0 = cellAt startState.board 7 0 := by
  obtain ⟨h1, h2⟩ := tryMove_frame startState afterE4 6 4 4 4 tryMove_startState_e4
  exact ⟨h1, h2 7 0 (by decide) (by decide)⟩

/-! ## Pawn, knight and king moves -/

theorem not_sameColor_iff_cell {piece t : Char} (hp : isCell piece = true) (hpd : piece ≠ '.')
    (ht : isCell t = true) :
    (t ≠ '.' ∧ sameColor piece t = false) ↔ oppositeColor piece t := by
  unfold oppositeColor
  rcases isCell_cases hp with rfl | rfl | rfl | rfl | rfl | rfl | rfl | rfl | rfl | rfl | rfl |
      rfl | rfl <;>
    first
    | exact absurd rfl hpd
    | (rcases isCell_cases ht with rfl | rfl | rfl | rfl | rfl | rfl | rfl | rfl | rfl | rfl |
        rfl | rfl | rfl <;> decide)

/-- C16: for a square holding a pawn, with `f` the row one step ahead,
`generateValidMoves` contains `(f,c)` iff it is in bounds and empty, contains a
diagonal square `(f,c-1)` or `(f,c+1)` iff it is in bounds and holds a piece of
the opposite colour, and contains nothing but these and the two-square advance. -/
theorem pawn_step_and_capture (b : Board) (r c : Int) (piece : Char) (hb : validBoard b)
    (hp : cellAt b r c = some piece) (hpc : piece = 'P' ∨ piece = 'p') :
    ∃ moves, generateValidMoves r c b = some moves ∧
      ((rowAhead piece r 1, c) ∈ moves ↔
        inBounds (rowAhead piece r 1) c = true ∧ cellAt b (rowAhead piece r 1) c = some '.') ∧
      (∀ cc : Int, cc = c - 1 ∨ cc = c + 1 →
        ((rowAhead piece r 1, cc) ∈ moves ↔
          inBounds (rowAhead piece r 1) cc = true ∧
          ∃ t, cellAt b (rowAhead piece r 1) cc = some t ∧ oppositeColor piece t)) ∧
      (∀ m ∈ moves, m = (rowAhead piece r 1, c) ∨ m = (rowAhead piece r 1, c - 1) ∨
        m = (rowAhead piece r 1, c + 1) ∨ m = (rowAhead piece r 2, c)) := by
  have hin := inBounds_of_cellAt hb.1 hp
  obtain ⟨moves, hm, _⟩ := generateValidMoves_total hb.1 hin
  have hmem := mem_generateValidMoves_pawn hpc hp hm
  have hcell : isCell piece = true := by rcases hpc with rfl | rfl <;> decide
  have hpd : piece ≠ '.' := by rcases hpc with rfl | rfl <;> decide
  have hf : r + pawnDirection piece = rowAhead piece r 1 := by
    rcases hpc with rfl | rfl
    · show r + -1 = r - 1; ring
    · rfl
  have h2 : (isWhitePiece piece = true ∧ r - 2 = rowAhead piece r 2) ∨
      (isBlackPiece piece = true ∧ r + 2 = rowAhead piece r 2) := by
    rcases hpc with rfl | rfl
    · exact Or.inl ⟨by decide, rfl⟩
    · exact Or.inr ⟨by decide, rfl⟩
  have hwb : ¬ (isWhitePiece piece = true ∧ isBlackPiece piece = true) := by
    rcases hpc with rfl | rfl <;> decide
  have hne1 : rowAhead piece r 1 ≠ r - 2 ∧ rowAhead piece r 1 ≠ r + 2 := by
    rcases hpc with rfl | rfl <;> simp only [rowAhead] <;> constructor <;>
      simp <;> omega
  rw [hf] at hmem
  refine ⟨moves, hm, ?_, ?_, ?_⟩
  · rw [hmem]
    constructor
    · rintro (⟨g1, g2, _⟩ | ⟨cc, hcc, g1, _⟩)
      · exact ⟨g1, g2⟩
      · simp only [Prod.mk.injEq, true_and] at g1
        omega
    · rintro ⟨g1, g2⟩
      exact Or.inl ⟨g1, g2, Or.inl rfl⟩
  · intro cc hcc
    rw [hmem]
    constructor
    · rintro (⟨_, _, (g3 | ⟨g3, _⟩ | ⟨g3, _⟩)⟩ | ⟨cc1, _, g1, g2, t, g3, g4, g5⟩)
      · simp only [Prod.mk.injEq, true_and] at g3; omega
      · simp only [Prod.mk.injEq] at g3; exact absurd g3.1 hne1.1
      · simp only [Prod.mk.injEq] at g3; exact absurd g3.1 hne1.2
      · simp only [Prod.mk.injEq, true_and] at g1
        subst g1
        exact ⟨g2, t, g3,
          (not_sameColor_iff_cell hcell hpd (isCell_of_cellAt hb g3)).mp ⟨g4, g5⟩⟩
    · rintro ⟨g2, t, g3, g4⟩
      obtain ⟨g5, g6⟩ := (not_sameColor_iff_cell hcell hpd (isCell_of_cellAt hb g3)).mpr g4
      exact Or.inr ⟨cc, hcc, rfl, g2, t, g3, g5, g6⟩
  · intro m hm1
    rcases (hmem m).mp hm1 with ⟨_, _, (g3 | ⟨g3, g4, _⟩ | ⟨g3, g4, _⟩)⟩ | ⟨cc, hcc, g1, _⟩
    · exact Or.inl g3
    · rcases h2 with ⟨_, e⟩ | ⟨e, _⟩
      · right; right; right; rw [g3, e]
      · exact absurd ⟨g4, e⟩ hwb
    · rcases h2 with ⟨e, _⟩ | ⟨_, e⟩
      · exact absurd ⟨e, g4⟩ hwb
      · right; right; right; rw [g3, e]
    · rcases hcc with rfl | rfl
      · exact Or.inr (Or.inl g1)
      · exact Or.inr (Or.inr (Or.inl g1))

/-- Witness for C16: the white e-pawn of the initial position moves to e3 or e4 only. -/
theorem pawn_step_and_capture_witness :
    validBoard initialLayout ∧ cellAt initialLayout 6 4 = some 'P' ∧
    ∃ moves, generateValidMoves 6 4 initialLayout = some moves ∧
      ((rowAhead 'P' 6 1, (4 : Int)) ∈ moves ↔
        inBounds (rowAhead 'P' 6 1) 4 = true ∧
          cellAt initialLayout (rowAhead 'P' 6 1) 4 = some '.') ∧
      (∀ m ∈ moves, m = (rowAhead 'P' 6 1, 4) ∨ m = (rowAhead 'P' 6 1, 4 - 1) ∨
        m = (rowAhead 'P' 6 1, 4 + 1) ∨ m = (rowAhead 'P' 6 2, 4)) := by
  obtain ⟨moves, h1, h2, _, h4⟩ :=
    pawn_step_and_capture initialLayout 6 4 'P' (by decide) (by decide) (Or.inl rfl)
  exact ⟨by decide, by decide, moves, h1, h2, h4⟩

theorem mem_offsetMoves (offsets : List (Int × Int)) (r c : Int) (m : Sq) :
    m ∈ ((offsets.map fun d => (r + d.1, c + d.2)).filter fun s => inBounds s.1 s.2) ↔
      ∃ dr dc : Int, (dr, dc) ∈ offsets ∧ m = (r + dr, c + dc) ∧ inBounds m.1 m.2 = true := by
  rw [List.mem_filter, List.mem_map]
  constructor
  · rintro ⟨⟨d, hd, rfl⟩, hb⟩
    exact ⟨d.1, d.2, hd, rfl, hb⟩
  · rintro ⟨dr, dc, hd, rfl, hb⟩
    exact ⟨⟨(dr, dc), hd, rfl⟩, hb⟩

theorem mem_knightOffsets (dr dc : Int) :
    (dr, dc) ∈ knightOffsets ↔ (|dr| = 1 ∧ |dc| = 2) ∨ (|dr| = 2 ∧ |dc| = 1) := by
  simp only [knightOffsets, List.mem_cons, List.mem_singleton, List.not_mem_nil, or_false,
    Prod.mk.injEq]
  simp only [abs_eq (by norm_num : (0 : Int) ≤ 1), abs_eq (by norm_num : (0 : Int) ≤ 2)]
  omega

theorem mem_kingOffsets (dr dc : Int) :
    (dr, dc) ∈ kingOffsets ↔ max |dr| |dc| = 1 := by
  simp only [kingOffsets, List.mem_cons, List.mem_singleton, List.not_mem_nil, or_false,
    Prod.mk.injEq]
  constructor
  · rintro (⟨rfl, rfl⟩ | ⟨rfl, rfl⟩ | ⟨rfl, rfl⟩ | ⟨rfl, rfl⟩ | ⟨rfl, rfl⟩ | ⟨rfl, rfl⟩ |
      ⟨rfl, rfl⟩ | ⟨rfl, rfl⟩) <;> simp
  · intro h
    have h1 : |dr| ≤ 1 := le_trans (le_max_left _ _) (le_of_eq h)
    have h2 : |dc| ≤ 1 := le_trans (le_max_right _ _) (le_of_eq h)
    rw [abs_le] at h1 h2
    have h3 : ¬ (dr = 0 ∧ dc = 0) := by
      rintro ⟨rfl, rfl⟩
      simp at h
    omega

theorem sameColor_false_iff_not_sameSide {p t : Char} (hp : p ≠ '.') :
    sameColor p t = false ↔ ¬ sameSide p t := by
  unfold sameSide
  have hd : (p == '.') = false := by simpa using hp
  by_cases ht : t = '.'
  · subst ht
    simp [sameColor, show isWhitePiece '.' = false by decide,
      show isBlackPiece '.' = false by decide]
  · have htd : (t == '.') = false := by simpa using ht
    cases hw : isWhitePiece p <;> cases hk : isBlackPiece p <;>
      cases hw1 : isWhitePiece t <;> cases hk1 : isBlackPiece t <;>
      simp [sameColor, hd, htd, hw, hk, hw1, hk1]

/-- Membership in `generateValidMoves` for a knight or a king, in terms of the
offset table of the piece. -/
theorem mem_generateValidMoves_offsets {b : Board} {r c : Int} {piece : Char}
    {offsets : List (Int × Int)} {moves : List Sq}
    (hraw : rawMoves piece r c b =
      some ((offsets.map fun d => (r + d.1, c + d.2)).filter fun s => inBounds s.1 s.2))
    (hpd : piece ≠ '.') (hp : cellAt b r c = some piece)
    (hm : generateValidMoves r c b = some moves) (m : Sq) :
    m ∈ moves ↔ ∃ dr dc : Int, (dr, dc) ∈ offsets ∧ m = (r + dr, c + dc) ∧
      inBounds m.1 m.2 = true ∧ ∃ t, cellAt b m.1 m.2 = some t ∧ ¬ sameSide piece t := by
  have hdot : (piece == '.') = false := by simpa using hpd
  unfold generateValidMoves at hm
  simp only [hp, hdot, Bool.false_eq_true, if_false, hraw] at hm
  rw [mem_filterSameColor hm m, mem_offsetMoves]
  constructor
  · rintro ⟨⟨dr, dc, h1, h2, h3⟩, t, h4, h5⟩
    exact ⟨dr, dc, h1, h2, h3, t, h4, (sameColor_false_iff_not_sameSide hpd).mp h5⟩
  · rintro ⟨dr, dc, h1, h2, h3, t, h4, h5⟩
    exact ⟨⟨dr, dc, h1, h2, h3⟩, t, h4, (sameColor_false_iff_not_sameSide hpd).mpr h5⟩

/-- C17: for a square holding a knight `generateValidMoves` returns exactly the
in-bounds squares `(r+dr,c+dc)` with `(|dr|,|dc|)` in `{(1,2),(2,1)}` that do not
hold a piece of the knight's colour, whatever stands in between; for a king,
exactly the in-bounds squares at Chebyshev distance 1 that do not hold a piece
of the king's colour (so no castling move). -/
theorem knight_and_king_moves (b : Board) (r c : Int) (piece : Char) (hb : is8x8 b)
    (hp : cellAt b r c = some piece)
    (hpc : piece = 'N' ∨ piece = 'n' ∨ piece = 'K' ∨ piece = 'k') :
    ∃ moves, generateValidMoves r c b = some moves ∧
      ((piece = 'N' ∨ piece = 'n') → ∀ m : Sq, m ∈ moves ↔
        ∃ dr dc : Int, ((|dr| = 1 ∧ |dc| = 2) ∨ (|dr| = 2 ∧ |dc| = 1)) ∧
          m = (r + dr, c + dc) ∧ inBounds m.1 m.2 = true ∧
          ∃ t, cellAt b m.1 m.2 = some t ∧ ¬ sameSide piece t) ∧
      ((piece = 'K' ∨ piece = 'k') → ∀ m : Sq, m ∈ moves ↔
        ∃ dr dc : Int, max |dr| |dc| = 1 ∧
          m = (r + dr, c + dc) ∧ inBounds m.1 m.2 = true ∧
          ∃ t, cellAt b m.1 m.2 = some t ∧ ¬ sameSide piece t) := by
  have hin := inBounds_of_cellAt hb hp
  obtain ⟨moves, hm, _⟩ := generateValidMoves_total hb hin
  refine ⟨moves, hm, ?_, ?_⟩
  · intro hn m
    have hraw : rawMoves piece r c b = some ((knightOffsets.map fun d =>
        (r + d.1, c + d.2)).filter fun s => inBounds s.1 s.2) := by
      rcases hn with rfl | rfl <;> rfl
    have hpd : piece ≠ '.' := by rcases hn with rfl | rfl <;> decide
    rw [mem_generateValidMoves_offsets hraw hpd hp hm m]
    simp only [mem_knightOffsets]
  · intro hk m
    have hraw : rawMoves piece r c b = some ((kingOffsets.map fun d =>
        (r + d.1, c + d.2)).filter fun s => inBounds s.1 s.2) := by
      rcases hk with rfl | rfl <;> rfl
    have hpd : piece ≠ '.' := by rcases hk with rfl | rfl <;> decide
    rw [mem_generateValidMoves_offsets hraw hpd hp hm m]
    simp only [mem_kingOffsets]

/-- Witness for C17: the knight on b1 of the initial position. -/
theorem knight_and_king_moves_witness :
    is8x8 initialLayout ∧ cellAt initialLayout 7 1 = some 'N' ∧
    ∃ moves, generateValidMoves 7 1 initialLayout = some moves ∧
      ∀ m : Sq, m ∈ moves ↔
        ∃ dr dc : Int, ((|dr| = 1 ∧ |dc| = 2) ∨ (|dr| = 2 ∧ |dc| = 1)) ∧
          m = (7 + dr, 1 + dc) ∧ inBounds m.1 m.2 = true ∧
          ∃ t, cellAt initialLayout m.1 m.2 = some t ∧ ¬ sameSide 'N' t := by
  obtain ⟨moves, h1, h2, _⟩ :=
    knight_and_king_moves initialLayout 7 1 'N' (by decide) (by decide) (Or.inl rfl)
  exact ⟨by decide, by decide, moves, h1, h2 (Or.inl rfl)⟩

/-! ## Algebraic notation -/

theorem inBounds_cases {r c : Int} (h : inBounds r c = true) :
    (r = 0 ∨ r = 1 ∨ r = 2 ∨ r = 3 ∨ r = 4 ∨ r = 5 ∨ r = 6 ∨ r = 7) ∧
    (c = 0 ∨ c = 1 ∨ c = 2 ∨ c = 3 ∨ c = 4 ∨ c = 5 ∨ c = 6 ∨ c = 7) := by
  rw [inBounds_iff] at h
  constructor <;> omega

theorem toAlgebraic_eq {r c : Int} (h : inBounds r c = true) :
    toAlgebraic r c = algebraicOf r c := by
  obtain ⟨hr, hc⟩ := inBounds_cases h
  rcases hr with rfl | rfl | rfl | rfl | rfl | rfl | rfl | rfl <;>
    rcases hc with rfl | rfl | rfl | rfl | rfl | rfl | rfl | rfl <;> decide

theorem squareOfAlgebraic_toAlgebraic {r c : Int} (h : inBounds r c = true) :
    squareOfAlgebraic (toAlgebraic r c) = (r, c) := by
  obtain ⟨hr, hc⟩ := inBounds_cases h
  rcases hr with rfl | rfl | rfl | rfl | rfl | rfl | rfl | rfl <;>
    rcases hc with rfl | rfl | rfl | rfl | rfl | rfl | rfl | rfl <;> decide

/-- C15: for an in-bounds square `toAlgebraic(r,c)` is the two-character text made
of the file letter and the digit of the rank `8 - r` (so `(6,4)` is `"e2"` and
`(0,0)` is `"a8"`), and `toAlgebraic` is injective on the in-bounds squares. -/
theorem toAlgebraic_file_rank (r c : Int) (h : inBounds r c = true) :
    toAlgebraic r c = algebraicOf r c ∧ (toAlgebraic r c).length = 2 ∧
    (∀ r1 c1 : Int, inBounds r1 c1 = true → toAlgebraic r1 c1 = toAlgebraic r c →
      r1 = r ∧ c1 = c) ∧
    toAlgebraic 6 4 = "e2" ∧ toAlgebraic 0 0 = "a8" := by
  refine ⟨toAlgebraic_eq h, ?_, ?_, by decide, by decide⟩
  · rw [toAlgebraic_eq h]
    rfl
  · intro r1 c1 h1 he
    have e1 := squareOfAlgebraic_toAlgebraic h1
    rw [he, squareOfAlgebraic_toAlgebraic h] at e1
    simp only [Prod.mk.injEq] at e1
    exact ⟨e1.1.symm, e1.2.symm⟩

/-- Witness for C15: the square `(4,7)` is `"h4"`. -/
theorem toAlgebraic_file_rank_witness :
    inBounds 4 7 = true ∧ toAlgebraic 4 7 = "h4" := by
  obtain ⟨h1, _⟩ := toAlgebraic_file_rank 4 7 (by decide)
  exact ⟨by decide, by rw [h1]; decide⟩

/-! ## Material evaluation -/

theorem evalScan_material {b : Board} (hb : validBoard b) :
    ∀ (l : List Sq), (∀ s ∈ l, inBounds s.1 s.2 = true) → ∀ score : Int,
      evalScan b l score =
        some (score + ((l.map (whiteValueAt b)).sum - (l.map (blackValueAt b)).sum))
  | [], _, score => by simp [evalScan]
  | x :: xs, h, score => by
    obtain ⟨p, hp⟩ := cellAt_isSome hb.1 (h x (List.mem_cons_self _ _))
    have hc := isCell_of_cellAt hb hp
    have ih := evalScan_material hb xs (fun m hm => h m (List.mem_cons_of_mem _ hm))
    have hw : whiteValueAt b x = if isWhitePiece p then kindValue p else 0 := by
      simp [whiteValueAt, hp]
    have hk : blackValueAt b x = if isBlackPiece p then kindValue p else 0 := by
      simp [blackValueAt, hp]
    unfold evalScan
    simp only [hp, List.map_cons, List.sum_cons, hw, hk]
    rcases isCell_cases hc with rfl | rfl | rfl | rfl | rfl | rfl | rfl | rfl | rfl | rfl |
      rfl | rfl | rfl <;>
    · simp only [show ∀ a b : Char, (a != b) = !(a == b) from fun _ _ => rfl]
      simp +decide only [pieceValue, kindValue, isWhitePiece, isBlackPiece, ih,
        if_true, if_false, Bool.not_true, Bool.not_false, or_true, true_or, or_false,
        Bool.false_eq_true, Option.some.injEq]
      ring

theorem cellAt_swapColors (b : Board) (r c : Int) :
    cellAt (swapColors b) r c = (cellAt b r c).map swapCase := by
  unfold cellAt swapColors
  split
  · simp only [List.get?_eq_getElem?, List.getElem?_map]
    cases b[r.toNat]? with
    | none => rfl
    | some row => simp [List.getElem?_map]
  · rfl

theorem isCell_swapCase {x : Char} (h : isCell x = true) : isCell (swapCase x) = true := by
  rcases isCell_cases h with rfl | rfl | rfl | rfl | rfl | rfl | rfl | rfl | rfl | rfl |
    rfl | rfl | rfl <;> decide

theorem validBoard_swapColors {b : Board} (hb : validBoard b) : validBoard (swapColors b) := by
  refine ⟨⟨by simp [swapColors, hb.1.1], ?_⟩, ?_⟩
  · intro row hrow
    obtain ⟨row0, h0, rfl⟩ := List.mem_map.mp hrow
    simp [hb.1.2 row0 h0]
  · intro row hrow x hx
    obtain ⟨row0, h0, rfl⟩ := List.mem_map.mp hrow
    obtain ⟨x0, hx0, rfl⟩ := List.mem_map.mp hx
    exact isCell_swapCase (hb.2 row0 h0 x0 hx0)

theorem swapCase_values {p : Char} (h : isCell p = true) :
    (if isWhitePiece (swapCase p) = true then kindValue (swapCase p) else 0) =
        (if isBlackPiece p = true then kindValue p else 0) ∧
    (if isBlackPiece (swapCase p) = true then kindValue (swapCase p) else 0) =
        (if isWhitePiece p = true then kindValue p else 0) := by
  rcases isCell_cases h with rfl | rfl | rfl | rfl | rfl | rfl | rfl | rfl | rfl | rfl |
    rfl | rfl | rfl <;> decide

theorem material_swapColors {b : Board} (hb : validBoard b) :
    whiteMaterial (swapColors b) = blackMaterial b ∧
    blackMaterial (swapColors b) = whiteMaterial b := by
  unfold whiteMaterial blackMaterial
  constructor
  · congr 1
    apply List.map_congr_left
    intro s hs
    obtain ⟨p, hp⟩ := cellAt_isSome hb.1 (allSquares_inBounds s hs)
    simp only [whiteValueAt, blackValueAt, cellAt_swapColors, hp, Option.map_some']
    exact (swapCase_values (isCell_of_cellAt hb hp)).1
  · congr 1
    apply List.map_congr_left
    intro s hs
    obtain ⟨p, hp⟩ := cellAt_isSome hb.1 (allSquares_inBounds s hs)
    simp only [whiteValueAt, blackValueAt, cellAt_swapColors, hp, Option.map_some']
    exact (swapCase_values (isCell_of_cellAt hb hp)).2

/-- C11: on a board whose cells are `'.'` or piece letters `evaluateBoard` is the
sum of the values (Pawn 1, Knight 3, Bishop 3, Rook 5, Queen 9, King 100) of
the white pieces minus that of the black pieces; it is 0 on the initial
layout, and swapping the colours of all pieces negates it. -/
theorem evaluateBoard_material (b : Board) (hb : validBoard b) :
    evaluateBoard b = some (whiteMaterial b - blackMaterial b) ∧
    evaluateBoard (swapColors b) = some (-(whiteMaterial b - blackMaterial b)) ∧
    evaluateBoard initialLayout = some 0 := by
  have key : ∀ b1 : Board, validBoard b1 →
      evaluateBoard b1 = some (whiteMaterial b1 - blackMaterial b1) := by
    intro b1 hb1
    unfold evaluateBoard whiteMaterial blackMaterial
    rw [evalScan_material hb1 allSquares allSquares_inBounds 0, zero_add]
  refine ⟨key b hb, ?_, by decide⟩
  rw [key _ (validBoard_swapColors hb), (material_swapColors hb).1, (material_swapColors hb).2]
  congr 1
  ring

/-- Witness for C11: after the promotion on e8 White is a queen up. -/
theorem evaluateBoard_material_witness :
    validBoard afterPromotion.board ∧
    evaluateBoard afterPromotion.board =
      some (whiteMaterial afterPromotion.board - blackMaterial afterPromotion.board) ∧
    whiteMaterial afterPromotion.board - blackMaterial afterPromotion.board = 9 :=
  ⟨by decide, (evaluateBoard_material afterPromotion.board (by decide)).1, by decide⟩

/-! ## Fool's mate -/

/-- C13: from the initial layout with White to move, f2-f3, e7-e5, g2-g4 and d8-h4
(the turn being switched after each accepted move) are each accepted by
`tryMove`, and after the fourth White is checkmated: `kingInCheck('W')` and
`noMovesAvailable('W')` are true, `gameOver` is set and the status is
`Checkmate! Black wins!`. -/
theorem fools_mate :
    tryMove startState 6 5 5 5 = some (true, foolsMate1) ∧
    tryMove (switchTurn foolsMate1) 1 4 3 4 = some (true, foolsMate2) ∧
    tryMove (switchTurn foolsMate2) 6 6 4 6 = some (true, foolsMate3) ∧
    tryMove (switchTurn foolsMate3) 0 3 4 7 = some (true, foolsMate4) ∧
    kingInCheck Color.W foolsMate4.board = some true ∧
    noMovesAvailable Color.W foolsMate4.board = some true ∧
    foolsMate4.gameOver = true ∧
    foolsMate4.status = "Checkmate! Black wins!" := by
  refine ⟨by decide, by decide, by decide, by decide, by decide, by decide, rfl, rfl⟩

/-! ## Positions with only the two kings -/

theorem kingStep_iff (a e : Sq) :
    kingStep a e ↔ (-1 ≤ a.1 - e.1 ∧ a.1 - e.1 ≤ 1 ∧ -1 ≤ a.2 - e.2 ∧ a.2 - e.2 ≤ 1 ∧
      ¬ (a.1 = e.1 ∧ a.2 = e.2)) := by
  simp only [kingStep, kingOffsets, List.mem_cons, List.mem_singleton, List.not_mem_nil,
    or_false, Prod.mk.injEq]
  omega

/-- A king that is neither on nor next to the square `e` has an in-bounds
neighbour square that is neither `e` nor next to `e`. -/
theorem exists_free_neighbour {k e : Sq} (hk : inBounds k.1 k.2 = true) (hne : k ≠ e)
    (hfar : ¬ kingStep k e) :
    ∃ d ∈ kingOffsets, inBounds (k.1 + d.1) (k.2 + d.2) = true ∧
      (k.1 + d.1, k.2 + d.2) ≠ e ∧ ¬ kingStep (k.1 + d.1, k.2 + d.2) e := by
  rw [inBounds_iff] at hk
  rw [kingStep_iff] at hfar
  have hne' : ¬ (k.1 = e.1 ∧ k.2 = e.2) := fun h => hne (Prod.ext h.1 h.2)
  have hcase : (k.1 - e.1 < -1 ∨ 1 < k.1 - e.1) ∨ (k.2 - e.2 < -1 ∨ 1 < k.2 - e.2) := by
    omega
  rcases hcase with h | h
  · by_cases hc : k.2 + 1 < 8
    · refine ⟨(0, 1), by decide, ?_, ?_, ?_⟩
      · rw [inBounds_iff]; simp only; omega
      · intro he; rw [← he] at h; simp only at h; omega
      · rw [kingStep_iff]; simp only; omega
    · refine ⟨(0, -1), by decide, ?_, ?_, ?_⟩
      · rw [inBounds_iff]; simp only; omega
      · intro he; rw [← he] at h; simp only at h; omega
      · rw [kingStep_iff]; simp only; omega
  · by_cases hc : k.1 + 1 < 8
    · refine ⟨(1, 0), by decide, ?_, ?_, ?_⟩
      · rw [inBounds_iff]; simp only; omega
      · intro he; rw [← he] at h; simp only at h; omega
      · rw [kingStep_iff]; simp only; omega
    · refine ⟨(-1, 0), by decide, ?_, ?_, ?_⟩
      · rw [inBounds_iff]; simp only; omega
      · intro he; rw [← he] at h; simp only at h; omega
      · rw [kingStep_iff]; simp only; omega

/-- What `kingInCheck` computes, with no reference to the scan order. -/
theorem kingInCheck_attacked_iff {b : Board} (hb : is8x8 b) (color : Color) :
    ∃ v, kingInCheck color b = some v ∧
      (v = true ↔ ∃ k : Sq, isFirstOccurrence b (kingCharOf color) k ∧
        ∃ r c p moves, cellAt b r c = some p ∧ isEnemyPiece color p = true ∧
          generateValidMoves r c b = some moves ∧ k ∈ moves) := by
  obtain ⟨res, hres, h1, h2⟩ := findKing_first hb (kingCharOf color)
  unfold kingCharOf at hres
  cases res with
  | none =>
    refine ⟨false, by simp [kingInCheck, hres], ?_⟩
    simp only [Bool.false_eq_true, false_iff, not_exists, not_and]
    intro k hk
    exact absurd hk.1 (h1 rfl k.1 k.2)
  | some k =>
    obtain ⟨v, hv, hiff⟩ := attackScan_spec hb color k allSquares allSquares_inBounds
    have hk := h2 k rfl
    refine ⟨v, by simp [kingInCheck, hres, hv], ?_⟩
    rw [hiff]
    constructor
    · rintro ⟨s, _, p, moves, e1, e2, e3, e4⟩
      exact ⟨k, hk, s.1, s.2, p, moves, e1, e2, e3, e4⟩
    · rintro ⟨k1, hk1, r, c, p, moves, e1, e2, e3, e4⟩
      have := isFirstOccurrence_unique hk hk1
      subst this
      exact ⟨(r, c), mem_allSquares (inBounds_of_cellAt hb e1), p, moves, e1, e2, e3, e4⟩

theorem king_target_iff {b : Board} {e : Sq} {ch : Char} (hch : ch = 'K' ∨ ch = 'k')
    (he : cellAt b e.1 e.2 = some ch) {moves : List Sq}
    (hm : generateValidMoves e.1 e.2 b = some moves) (m : Sq) :
    m ∈ moves ↔ kingStep m e ∧ inBounds m.1 m.2 = true ∧
      ∃ t, cellAt b m.1 m.2 = some t ∧ ¬ sameSide ch t := by
  have hraw : rawMoves ch e.1 e.2 b = some ((kingOffsets.map fun d =>
      (e.1 + d.1, e.2 + d.2)).filter fun s => inBounds s.1 s.2) := by
    rcases hch with rfl | rfl <;> rfl
  have hpd : ch ≠ '.' := by rcases hch with rfl | rfl <;> decide
  rw [mem_generateValidMoves_offsets hraw hpd he hm m]
  unfold kingStep
  constructor
  · rintro ⟨dr, dc, h1, h2, h3⟩
    subst h2
    refine ⟨?_, h3⟩
    have e1 : e.1 + dr - e.1 = dr := by ring
    have e2 : e.2 + dc - e.2 = dc := by ring
    simp only [e1, e2]
    exact h1
  · rintro ⟨h1, h3⟩
    refine ⟨m.1 - e.1, m.2 - e.2, h1, ?_, h3⟩
    apply Prod.ext <;> simp

theorem kingChar_facts (color : Color) :
    (kingCharOf color = 'K' ∨ kingCharOf color = 'k') ∧
    (kingCharOf (opponent color) = 'K' ∨ kingCharOf (opponent color) = 'k') ∧
    kingCharOf color ≠ kingCharOf (opponent color) ∧
    kingCharOf color ≠ '.' ∧ kingCharOf (opponent color) ≠ '.' ∧
    isEnemyPiece color (kingCharOf color) = false ∧
    isEnemyPiece color (kingCharOf (opponent color)) = true ∧
    isEnemyPiece color '.' = false ∧
    isOwnPiece color (kingCharOf color) = true ∧
    ¬ sameSide (kingCharOf (opponent color)) (kingCharOf color) ∧
    ¬ sameSide (kingCharOf color) '.' := by
  unfold sameSide
  cases color <;> decide

/-- On a board with only the two kings, `kingInCheck` is true iff the kings stand
next to each other. -/
theorem twoKings_check (color : Color) {b : Board} (hb : is8x8 b) {k e : Sq}
    (hk : cellAt b k.1 k.2 = some (kingCharOf color))
    (he : cellAt b e.1 e.2 = some (kingCharOf (opponent color)))
    (hrest : ∀ r c : Int, inBounds r c = true → (r, c) ≠ k → (r, c) ≠ e →
      cellAt b r c = some '.') :
    ∃ v, kingInCheck color b = some v ∧ (v = true ↔ kingStep k e) := by
  obtain ⟨f1, f2, f3, f4, f5, f6, f7, f8, _, f10, _⟩ := kingChar_facts color
  -- the own king stands on `k` only, the only enemy piece stands on `e`
  have honly : ∀ r c : Int, cellAt b r c = some (kingCharOf color) → (r, c) = k := by
    intro r c h
    by_contra hne
    by_cases hre : (r, c) = e
    · have h1 : cellAt b e.1 e.2 = some (kingCharOf color) := by rw [← hre]; exact h
      rw [he] at h1
      exact f3 (Option.some.inj h1).symm
    · rw [hrest r c (inBounds_of_cellAt hb h) hne hre] at h
      exact f4 (Option.some.inj h).symm
  have henemy : ∀ (r c : Int) (p : Char), cellAt b r c = some p →
      isEnemyPiece color p = true → (r, c) = e := by
    intro r c p h hen
    by_contra hne
    by_cases hrk : (r, c) = k
    · have h1 : cellAt b k.1 k.2 = some p := by rw [← hrk]; exact h
      rw [hk] at h1
      cases h1
      rw [f6] at hen
      cases hen
    · rw [hrest r c (inBounds_of_cellAt hb h) hrk hne] at h
      cases h
      rw [f8] at hen
      cases hen
  obtain ⟨v, hv, hiff⟩ := kingInCheck_attacked_iff hb color
  refine ⟨v, hv, ?_⟩
  rw [hiff]
  constructor
  · rintro ⟨k1, hk1, r, c, p, moves, e1, e2, e3, e4⟩
    have hkk : k1 = k := honly k1.1 k1.2 hk1.1
    have hee : (r, c) = e := henemy r c p e1 e2
    subst hkk
    have e3' : generateValidMoves e.1 e.2 b = some moves := by rw [← hee]; exact e3
    exact ((king_target_iff f2 he e3' k1).mp e4).1
  · intro hstep
    obtain ⟨moves, hm, _⟩ := generateValidMoves_total hb (inBounds_of_cellAt hb he)
    refine ⟨k, ⟨hk, ?_⟩, e.1, e.2, _, moves, he, f7, hm, ?_⟩
    · intro r c h
      have := honly r c h
      rw [← this]
      exact Or.inr ⟨rfl, le_refl _⟩
    · exact (king_target_iff f2 he hm k).mpr
        ⟨hstep, inBounds_of_cellAt hb hk, _, hk, f10⟩

theorem no_stalemate_two_kings (color : Color) {b : Board} (hb : is8x8 b) {k e : Sq}
    (hk : cellAt b k.1 k.2 = some (kingCharOf color))
    (he : cellAt b e.1 e.2 = some (kingCharOf (opponent color)))
    (hrest : ∀ r c : Int, inBounds r c = true → (r, c) ≠ k → (r, c) ≠ e →
      cellAt b r c = some '.')
    (hchk : kingInCheck color b = some false)
    (hno : noMovesAvailable color b = some true) : False := by
  obtain ⟨f1, _, f3, _, _, _, _, _, f9, _, f11⟩ := kingChar_facts color
  obtain ⟨v, hv, hiff⟩ := twoKings_check color hb hk he hrest
  rw [hchk] at hv
  cases hv
  have hfar : ¬ kingStep k e := fun h => by
    have := hiff.mpr h
    cases this
  have hke : k ≠ e := by
    intro h
    rw [h, he] at hk
    exact f3 (Option.some.inj hk).symm
  have hkin := inBounds_of_cellAt hb hk
  obtain ⟨d, hd, hnin, hne, hnfar⟩ := exists_free_neighbour hkin hke hfar
  have hnk : (k.1 + d.1, k.2 + d.2) ≠ k := by
    intro h
    have h1 : k.1 + d.1 = k.1 := congrArg Prod.fst h
    have h2 : k.2 + d.2 = k.2 := congrArg Prod.snd h
    have : d = (0, 0) := Prod.ext (by simp only; omega) (by simp only; omega)
    subst this
    revert hd
    decide
  have hnempty : cellAt b (k.1 + d.1) (k.2 + d.2) = some '.' := hrest _ _ hnin hnk hne
  obtain ⟨moves, hm, _⟩ := generateValidMoves_total hb hkin
  have hstep : kingStep (k.1 + d.1, k.2 + d.2) k := by
    unfold kingStep
    have e1 : k.1 + d.1 - k.1 = d.1 := by ring
    have e2 : k.2 + d.2 - k.2 = d.2 := by ring
    simp only [e1, e2]
    exact hd
  have hmem : (k.1 + d.1, k.2 + d.2) ∈ moves :=
    (king_target_iff f1 hk hm _).mpr ⟨hstep, hnin, '.', hnempty, f11⟩
  obtain ⟨w, hw, hwiff⟩ := noMovesScan_spec hb color allSquares allSquares_inBounds
  have hw' : noMovesAvailable color b = some w := hw
  rw [hno] at hw'
  cases hw'
  obtain ⟨tmp, htmp, htmpchk⟩ := hwiff.mp rfl k (mem_allSquares hkin) _ moves hk f9 hm _ hmem
  simp only [simulatePlain, copyBoard_eq, hk] at htmp
  have h8 := movePiece_is8x8 htmp hb
  have hcell := cellAt_movePiece htmp
  have hk' : cellAt tmp (k.1 + d.1) (k.2 + d.2) = some (kingCharOf color) := by
    rw [hcell]
    have : ¬ (k.1 + d.1 = k.1 ∧ k.2 + d.2 = k.2) := fun h => hnk (Prod.ext h.1 h.2)
    rw [if_neg this, if_pos ⟨rfl, rfl⟩]
  have he' : cellAt tmp e.1 e.2 = some (kingCharOf (opponent color)) := by
    rw [hcell]
    have h1 : ¬ (e.1 = k.1 ∧ e.2 = k.2) := fun h => hke (Prod.ext h.1.symm h.2.symm)
    have h2 : ¬ (e.1 = k.1 + d.1 ∧ e.2 = k.2 + d.2) :=
      fun h => hne (Prod.ext h.1.symm h.2.symm)
    rw [if_neg h1, if_neg h2, he]
  have hrest' : ∀ r c : Int, inBounds r c = true → (r, c) ≠ (k.1 + d.1, k.2 + d.2) →
      (r, c) ≠ e → cellAt tmp r c = some '.' := by
    intro r c hin h1 h2
    rw [hcell]
    by_cases hrk : r = k.1 ∧ c = k.2
    · rw [if_pos hrk]
    · have h1' : ¬ (r = k.1 + d.1 ∧ c = k.2 + d.2) := fun h => h1 (Prod.ext h.1 h.2)
      rw [if_neg hrk, if_neg h1']
      exact hrest r c hin (fun h => hrk ⟨congrArg Prod.fst h, congrArg Prod.snd h⟩) h2
  obtain ⟨v', hv', hiff'⟩ := twoKings_check color h8 (k := (k.1 + d.1, k.2 + d.2)) hk' he' hrest'
  rw [htmpchk] at hv'
  cases hv'
  exact hnfar (hiff'.mp rfl)

/-- C14, as stated, fails: no position that holds only the white king and the
black king is a stalemate, whichever side is to move. -/
theorem no_stalemate_with_only_kings :
    ¬ ∃ (b : Board) (wk bk : Sq) (color : Color), onlyKings b wk bk ∧
      kingInCheck color b = some false ∧ noMovesAvailable color b = some true := by
  rintro ⟨b, wk, bk, color, ⟨hb, hK, hk, hrest⟩, hchk, hno⟩
  cases color with
  | W => exact no_stalemate_two_kings Color.W hb hK hk hrest hchk hno
  | B =>
    exact no_stalemate_two_kings Color.B hb hk hK
      (fun r c hin h1 h2 => hrest r c hin h2 h1) hchk hno

/-- C14, amended: with one more piece a stalemate exists. Black king a8, white
king b6, white queen c7, Black to move: Black's king is not attacked, Black has
no legal move, and the move that reaches the position (queen h7-c7) is
answered with the status `Stalemate! Draw!` and `gameOver`. -/
theorem stalemate_with_queen :
    validBoard afterStalemate.board ∧
    (afterStalemate.board.flatten.filter fun x => x != '.') = ['k', 'Q', 'K'] ∧
    kingInCheck Color.B afterStalemate.board = some false ∧
    noMovesAvailable Color.B afterStalemate.board = some true ∧
    tryMove beforeStalemate 1 7 1 2 = some (true, afterStalemate) ∧
    afterStalemate.status = "Stalemate! Draw!" ∧ afterStalemate.gameOver = true := by
  refine ⟨by decide, by decide, by decide, by decide, by decide, rfl, rfl⟩

/-! ## The session invariant -/

theorem tryMove_false_frame {s s1 : State} {r1 c1 r2 c2 : Int}
    (h : tryMove s r1 c1 r2 c2 = some (false, s1)) :
    s1.board = s.board ∧ s1.currentTurn = s.currentTurn ∧ s1.gameOver = s.gameOver ∧
      s1.movesData = s.movesData ∧ s1.selectedSquare = s.selectedSquare := by
  unfold tryMove at h
  split at h
  · cases h; exact ⟨rfl, rfl, rfl, rfl, rfl⟩
  · split at h
    · cases h
    · split at h
      · cases h; exact ⟨rfl, rfl, rfl, rfl, rfl⟩
      · split at h
        · cases h
        · split at h
          · cases h
          · split at h
            · cases h
            · cases h; exact ⟨rfl, rfl, rfl, rfl, rfl⟩
            · split at h
              · split at h
                · cases h
                · split at h
                  · cases h
                  · simp only at h
                    split at h
                    · cases h
                    · cases h
              · cases h

theorem tryMove_total {s : State} (hb : is8x8 s.board) {r1 c1 : Int}
    (h1 : inBounds r1 c1 = true) (r2 c2 : Int) : ∃ res, tryMove s r1 c1 r2 c2 = some res := by
  obtain ⟨moves, hm, gm⟩ := generateValidMoves_total hb h1
  by_cases hg : s.gameOver = true
  · exact ⟨_, tryMove_gameOver r1 c1 r2 c2 hg⟩
  · have hg' : s.gameOver = false := by simpa using hg
    by_cases hmem : (r2, c2) ∈ moves
    · obtain ⟨tb, hsim, h8⟩ := simulateMove_total hb h1 (gm _ hmem)
      obtain ⟨chk, hchk⟩ := kingInCheck_total h8 s.currentTurn
      cases chk with
      | true => exact ⟨_, tryMove_into_check hg' hm hmem hsim hchk⟩
      | false =>
        obtain ⟨s1, hs1⟩ := tryMove_accept hb hg' hm hmem hsim hchk
        exact ⟨_, hs1⟩
    · exact ⟨_, tryMove_not_target hg' hm hmem⟩

/-- The cells of the board written by an accepted move. -/
theorem tryMove_true_cells {s s1 : State} {r1 c1 r2 c2 : Int}
    (h : tryMove s r1 c1 r2 c2 = some (true, s1)) :
    ∃ piece captured moves, cellAt s.board r1 c1 = some piece ∧
      cellAt s.board r2 c2 = some captured ∧
      generateValidMoves r1 c1 s.board = some moves ∧ (r2, c2) ∈ moves ∧
      sameColor piece captured = false ∧ ¬ (r2 = r1 ∧ c2 = c1) ∧
      ∀ i j : Int, cellAt s1.board i j =
        if i = r2 ∧ j = c2 then some (promoted piece r2)
        else if i = r1 ∧ j = c1 then some '.' else cellAt s.board i j := by
  obtain ⟨hsim, _, _⟩ := tryMove_true_board h
  obtain ⟨_, moves, piece, captured, b1, b2, hm, ht, hp, hcap, hb1, hb2, hsim2, _, _⟩ :=
    tryMove_true_inv h
  rw [hsim] at hsim2
  cases hsim2
  have hmem := (hasTarget_iff _ _ _).mp ht
  have hne : ¬ (r2 = r1 ∧ c2 = c1) := by
    rintro ⟨rfl, rfl⟩
    exact generateValidMoves_ne_self hm hmem
  have hmid : cellAt b1 r2 c2 = some piece := by
    rw [cellAt_movePiece hb1, if_neg hne, if_pos ⟨rfl, rfl⟩]
  obtain ⟨p1, t, hp1, ht1, hs, _⟩ := generateValidMoves_target hm hmem
  rw [hp] at hp1
  cases hp1
  simp only at ht1
  rw [hcap] at ht1
  cases ht1
  refine ⟨piece, captured, moves, hp, hcap, hm, hmem, hs, hne, ?_⟩
  intro i j
  rw [cellAt_promote hb2 hmid, cellAt_movePiece hb1]
  by_cases h2 : i = r2 ∧ j = c2
  · simp only [if_pos h2]
  · simp only [if_neg h2]

theorem promoted_king_iff {piece ch : Char} (hch : ch = 'K' ∨ ch = 'k') (r2 : Int) :
    promoted piece r2 = ch ↔ piece = ch := by
  unfold promoted
  rcases hch with rfl | rfl
  · split
    · rename_i h; obtain ⟨rfl, _⟩ := h; decide
    · split
      · rename_i h; obtain ⟨rfl, _⟩ := h; decide
      · rfl
  · split
    · rename_i h; obtain ⟨rfl, _⟩ := h; decide
    · split
      · rename_i h; obtain ⟨rfl, _⟩ := h; decide
      · rfl

/-- A move that does not capture the king `ch` keeps exactly one `ch` on the board. -/
theorem exactlyOne_after_move {b b2 : Board} {ch piece captured : Char} {r1 c1 r2 c2 : Int}
    (hch : ch = 'K' ∨ ch = 'k') (h1 : exactlyOne b ch)
    (hp : cellAt b r1 c1 = some piece) (hcap : cellAt b r2 c2 = some captured)
    (hnc : captured ≠ ch)
    (hcells : ∀ i j : Int, cellAt b2 i j =
      if i = r2 ∧ j = c2 then some (promoted piece r2)
      else if i = r1 ∧ j = c1 then some '.' else cellAt b i j) :
    exactlyOne b2 ch := by
  obtain ⟨k, hk, huniq⟩ := h1
  have hdot : ('.' : Char) ≠ ch := by rcases hch with rfl | rfl <;> decide
  by_cases hpc : piece = ch
  · subst hpc
    have hk0 : (r1, c1) = k := huniq r1 c1 hp
    refine ⟨(r2, c2), ?_, ?_⟩
    · rw [hcells, if_pos ⟨rfl, rfl⟩, (promoted_king_iff hch r2).mpr rfl]
    · intro i j hij
      rw [hcells] at hij
      by_cases h2 : i = r2 ∧ j = c2
      · exact Prod.ext h2.1 h2.2
      · rw [if_neg h2] at hij
        by_cases h3 : i = r1 ∧ j = c1
        · rw [if_pos h3] at hij
          exact absurd (Option.some.inj hij) hdot
        · rw [if_neg h3] at hij
          have := huniq i j hij
          rw [← hk0] at this
          exact absurd ⟨congrArg Prod.fst this, congrArg Prod.snd this⟩ h3
  · have hprom : promoted piece r2 ≠ ch := fun h => hpc ((promoted_king_iff hch r2).mp h)
    have hk1 : ¬ (k.1 = r1 ∧ k.2 = c1) := by
      rintro ⟨e1, e2⟩
      rw [e1, e2, hp] at hk
      exact hpc (Option.some.inj hk)
    have hk2 : ¬ (k.1 = r2 ∧ k.2 = c2) := by
      rintro ⟨e1, e2⟩
      rw [e1, e2, hcap] at hk
      exact hnc (Option.some.inj hk)
    refine ⟨k, ?_, ?_⟩
    · rw [hcells, if_neg hk2, if_neg hk1]
      exact hk
    · intro i j hij
      rw [hcells] at hij
      by_cases h2 : i = r2 ∧ j = c2
      · rw [if_pos h2] at hij
        exact absurd (Option.some.inj hij) hprom
      · rw [if_neg h2] at hij
        by_cases h3 : i = r1 ∧ j = c1
        · rw [if_pos h3] at hij
          exact absurd (Option.some.inj hij) hdot
        · rw [if_neg h3] at hij
          exact huniq i j hij

theorem correctTurn_facts {turn : Color} {piece : Char}
    (h : isCorrectTurnPiece turn piece = true) :
    piece ≠ '.' ∧ isEnemyPiece (opponent turn) piece = true ∧
      (∀ t, sameColor piece t = false → t ≠ kingCharOf turn) := by
  have hd : piece ≠ '.' := by
    intro hp
    subst hp
    revert h
    cases turn <;> decide
  have hdb : (piece == '.') = false := by simpa using hd
  refine ⟨hd, ?_, ?_⟩
  · cases turn <;>
      simpa [isCorrectTurnPiece, isEnemyPiece, opponent, hd] using h
  · intro t hs ht
    subst ht
    cases turn
    · have hw : isWhitePiece piece = true := by
        simpa [isCorrectTurnPiece, hd] using h
      simp [sameColor, hdb, kingCharOf, hw, show isWhitePiece 'K' = true by decide] at hs
    · have hw : isBlackPiece piece = true := by
        simpa [isCorrectTurnPiece, hd] using h
      simp [sameColor, hdb, kingCharOf, hw, show isBlackPiece 'k' = true by decide] at hs

/-- A piece of the side to move cannot capture the other king when that king is
not in check. -/
theorem not_capture_enemy_king {turn : Color} {b : Board} (hb : is8x8 b)
    (h1 : exactlyOne b (kingCharOf (opponent turn)))
    (hchk : kingInCheck (opponent turn) b = some false)
    {r1 c1 r2 c2 : Int} {piece captured : Char} {moves : List Sq}
    (hp : cellAt b r1 c1 = some piece) (hown : isCorrectTurnPiece turn piece = true)
    (hm : generateValidMoves r1 c1 b = some moves) (hmem : (r2, c2) ∈ moves)
    (hcap : cellAt b r2 c2 = some captured) : captured ≠ kingCharOf (opponent turn) := by
  intro he
  subst he
  obtain ⟨v, hv, hiff⟩ := kingInCheck_attacked_iff hb (opponent turn)
  rw [hchk] at hv
  cases hv
  have : false = true := by
    rw [hiff]
    obtain ⟨k0, _, huniq⟩ := h1
    refine ⟨(r2, c2), ⟨hcap, ?_⟩, r1, c1, piece, moves, hp, (correctTurn_facts hown).2.1,
      hm, hmem⟩
    intro r c hrc
    have e1 := huniq r c hrc
    have e2 := huniq r2 c2 hcap
    rw [← e2] at e1
    have e3 : r = r2 := congrArg Prod.fst e1
    have e4 : c = c2 := congrArg Prod.snd e1
    exact Or.inr ⟨e3.symm, le_of_eq e4.symm⟩
  cases this

theorem exactlyOne_kings_iff (turn : Color) (b : Board) :
    (exactlyOne b 'K' ∧ exactlyOne b 'k') ↔
      (exactlyOne b (kingCharOf turn) ∧ exactlyOne b (kingCharOf (opponent turn))) := by
  cases turn
  · exact Iff.rfl
  · exact and_comm

/-- An accepted move of a piece of the side to move keeps the invariant, once
the turn is switched. -/
theorem goodState_after_move {s s1 : State} {r1 c1 r2 c2 : Int} (hg : GoodState s)
    {piece : Char} (hp : cellAt s.board r1 c1 = some piece)
    (hown : isCorrectTurnPiece s.currentTurn piece = true)
    (h : tryMove s r1 c1 r2 c2 = some (true, s1)) :
    is8x8 s1.board ∧ exactlyOne s1.board 'K' ∧ exactlyOne s1.board 'k' ∧
      kingInCheck s.currentTurn s1.board = some false := by
  obtain ⟨hb, hK, hk, hchk, _⟩ := hg
  obtain ⟨hsim, _, hsafe⟩ := tryMove_true_board h
  obtain ⟨p1, captured, moves, hp1, hcap, hm, hmem, hs, _, hcells⟩ := tryMove_true_cells h
  rw [hp] at hp1
  cases hp1
  obtain ⟨hown1, hown2⟩ := (exactlyOne_kings_iff s.currentTurn s.board).mp ⟨hK, hk⟩
  obtain ⟨f1, f2, _⟩ := kingChar_facts s.currentTurn
  have hc1 : captured ≠ kingCharOf s.currentTurn := (correctTurn_facts hown).2.2 captured hs
  have hc2 : captured ≠ kingCharOf (opponent s.currentTurn) :=
    not_capture_enemy_king hb hown2 hchk hp hown hm hmem hcap
  have g1 := exactlyOne_after_move f1 hown1 hp hcap hc1 hcells
  have g2 := exactlyOne_after_move f2 hown2 hp hcap hc2 hcells
  obtain ⟨gK, gk⟩ := (exactlyOne_kings_iff s.currentTurn s1.board).mpr ⟨g1, g2⟩
  exact ⟨simulateMove_is8x8 hsim hb, gK, gk, hsafe⟩

theorem opponent_opponent (turn : Color) : opponent (opponent turn) = turn := by
  cases turn <;> rfl

theorem goodState_click {s s1 : State} {row col : Int} (hg : GoodState s)
    (h : onSquareClick s row col = some s1) : GoodState s1 := by
  have hg0 := hg
  obtain ⟨hb, hK, hk, hchk, hsel⟩ := hg
  unfold onSquareClick at h
  split at h
  · cases h; exact hg0
  · split at h
    · -- nothing selected
      split at h
      · cases h
      · cases h; exact hg0
      · split at h
        · cases h
        · rename_i piece hpiece
          split at h
          · rename_i hcorrect
            cases h
            refine ⟨hb, hK, hk, hchk, ?_⟩
            intro sel hs
            simp only [Option.some.injEq] at hs
            subst hs
            exact ⟨piece, hpiece, hcorrect⟩
          · cases h; exact hg0
    · -- a square is selected: a move is attempted
      rename_i sel hselected
      obtain ⟨piece, hp, hown⟩ := hsel sel hselected
      split at h
      · cases h
      · rename_i s2 hmove
        cases h
        obtain ⟨g1, g2, g3, g4⟩ := goodState_after_move hg0 hp hown hmove
        obtain ⟨_, hturn, _⟩ := tryMove_true_board hmove
        refine ⟨g1, g2, g3, ?_, ?_⟩
        · show kingInCheck (opponent (if s2.currentTurn = Color.W then Color.B else Color.W))
            s2.board = some false
          rw [hturn]
          have : opponent (if s.currentTurn = Color.W then Color.B else Color.W)
              = s.currentTurn := opponent_opponent s.currentTurn
          rw [this]
          exact g4
        · intro sel1 hs
          cases hs
      · rename_i s2 hmove
        cases h
        obtain ⟨e1, e2, _⟩ := tryMove_false_frame hmove
        refine ⟨?_, ?_, ?_, ?_, ?_⟩
        · show is8x8 s2.board
          rw [e1]; exact hb
        · show exactlyOne s2.board 'K'
          rw [e1]; exact hK
        · show exactlyOne s2.board 'k'
          rw [e1]; exact hk
        · show kingInCheck (opponent s2.currentTurn) s2.board = some false
          rw [e1, e2]; exact hchk
        · intro sel1 hs
          cases hs

theorem tickClock_frame (s : State) :
    (tickClock s).board = s.board ∧ (tickClock s).currentTurn = s.currentTurn ∧
      (tickClock s).selectedSquare = s.selectedSquare := by
  unfold tickClock
  split
  · exact ⟨rfl, rfl, rfl⟩
  · split
    · simp only
      split <;> exact ⟨rfl, rfl, rfl⟩
    · simp only
      split <;> exact ⟨rfl, rfl, rfl⟩

theorem showBestMove_frame {s s1 : State} (h : showBestMove s = some s1) :
    s1.board = s.board ∧ s1.currentTurn = s.currentTurn ∧
      s1.selectedSquare = s.selectedSquare ∧ s1.gameOver = s.gameOver := by
  unfold showBestMove at h
  split at h
  · cases h; exact ⟨rfl, rfl, rfl, rfl⟩
  · split at h
    · cases h
    · split at h
      · cases h; exact ⟨rfl, rfl, rfl, rfl⟩
      · split at h
        · cases h
        · cases h; exact ⟨rfl, rfl, rfl, rfl⟩
        · cases h; exact ⟨rfl, rfl, rfl, rfl⟩

theorem goodState_of_frame {s s1 : State} (hg : GoodState s) (h1 : s1.board = s.board)
    (h2 : s1.currentTurn = s.currentTurn) (h3 : s1.selectedSquare = s.selectedSquare) :
    GoodState s1 := by
  obtain ⟨hb, hK, hk, hchk, hsel⟩ := hg
  refine ⟨by rw [h1]; exact hb, by rw [h1]; exact hK, by rw [h1]; exact hk,
    by rw [h1, h2]; exact hchk, ?_⟩
  intro sel hs
  rw [h3] at hs
  rw [h1, h2]
  exact hsel sel hs

theorem initGame_board (s0 : State) : (initGame s0).board = initialLayout := by
  simp [initGame]

theorem exactlyOne_initial : exactlyOne initialLayout 'K' ∧ exactlyOne initialLayout 'k' := by
  have h8 : is8x8 initialLayout := by decide
  have hK : ∀ s ∈ allSquares, cellAt initialLayout s.1 s.2 = some 'K' → s = (7, 4) := by decide
  have hk : ∀ s ∈ allSquares, cellAt initialLayout s.1 s.2 = some 'k' → s = (0, 4) := by decide
  constructor
  · exact ⟨(7, 4), by decide, fun r c h =>
      hK (r, c) (mem_allSquares (inBounds_of_cellAt h8 h)) h⟩
  · exact ⟨(0, 4), by decide, fun r c h =>
      hk (r, c) (mem_allSquares (inBounds_of_cellAt h8 h)) h⟩

theorem goodState_init (s0 : State) : GoodState (initGame s0) := by
  refine ⟨?_, ?_, ?_, ?_, ?_⟩
  · rw [initGame_board]; decide
  · rw [initGame_board]; exact exactlyOne_initial.1
  · rw [initGame_board]; exact exactlyOne_initial.2
  · rw [initGame_board]
    show kingInCheck (opponent Color.W) initialLayout = some false
    decide
  · intro sel hs
    cases hs

theorem reachable_goodState {s : State} (h : Reachable s) : GoodState s := by
  induction h with
  | init s0 => exact goodState_init s0
  | click s s1 row col _ _ hc ih => exact goodState_click ih hc
  | tick s _ ih =>
    obtain ⟨h1, h2, h3⟩ := tickClock_frame s
    exact goodState_of_frame ih h1 h2 h3
  | help s s1 _ hh ih =>
    obtain ⟨h1, h2, h3, _⟩ := showBestMove_frame hh
    exact goodState_of_frame ih h1 h2 h3

/-! ## Kings, selection and turns in reachable states -/

theorem reachable_selectedE2 : Reachable selectedE2 :=
  Reachable.click (initGame startState) selectedE2 6 4 (Reachable.init startState)
    (by decide) (by decide)

theorem reachable_afterE4Clicks : Reachable afterE4Clicks :=
  Reachable.click selectedE2 afterE4Clicks 4 4 reachable_selectedE2 (by decide) (by decide)

/-- C12: in every state reached from `initGame` by clicks on squares (and clock
ticks) the board holds exactly one white king `'K'` and exactly one black king
`'k'`: no accepted move captures, duplicates or creates a king. -/
theorem reachable_one_king_each (s : State) (h : Reachable s) :
    exactlyOne s.board 'K' ∧ exactlyOne s.board 'k' := by
  obtain ⟨_, hK, hk, _, _⟩ := reachable_goodState h
  exact ⟨hK, hk⟩

/-- Witness for C12: the state after the clicks e2, e4 from the initial position. -/
theorem reachable_one_king_each_witness :
    Reachable afterE4Clicks ∧
    exactlyOne afterE4Clicks.board 'K' ∧ exactlyOne afterE4Clicks.board 'k' :=
  ⟨reachable_afterE4Clicks, reachable_one_king_each afterE4Clicks reachable_afterE4Clicks⟩

theorem flip_ne (turn : Color) : (if turn = Color.W then Color.B else Color.W) ≠ turn := by
  cases turn <;> decide

/-- One click in a state that satisfies the invariant. -/
theorem onSquareClick_step {s : State} (hg : GoodState s) {row col : Int}
    (hin : inBounds row col = true) :
    ∃ s1, onSquareClick s row col = some s1 ∧
      (s1.currentTurn ≠ s.currentTurn ↔
        (s.gameOver = false ∧ ∃ sel s2, s.selectedSquare = some sel ∧
          tryMove s sel.1 sel.2 row col = some (true, s2))) ∧
      (s1.board ≠ s.board →
        ∃ sel p s2, s.selectedSquare = some sel ∧ cellAt s.board sel.1 sel.2 = some p ∧
          isCorrectTurnPiece s.currentTurn p = true ∧
          tryMove s sel.1 sel.2 row col = some (true, s2) ∧ s1.board = s2.board ∧
          s1.currentTurn = opponent s.currentTurn) := by
  obtain ⟨hb, _, _, _, hsel⟩ := hg
  by_cases hgo : s.gameOver = true
  · refine ⟨s, by simp [onSquareClick, hgo], ?_, fun h => absurd rfl h⟩
    constructor
    · intro h; exact absurd rfl h
    · rintro ⟨h, _⟩; rw [hgo] at h; cases h
  · have hgo' : s.gameOver = false := by simpa using hgo
    cases hs : s.selectedSquare with
    | none =>
      obtain ⟨s1, hs1⟩ := onSquareClick_total_of_unselected hb hs hin
      obtain ⟨e1, e2, _⟩ := onSquareClick_board_of_unselected hs hs1
      refine ⟨s1, hs1, ?_, fun h => absurd e1 h⟩
      constructor
      · intro h; exact absurd e2 h
      · rintro ⟨_, sel, s2, h, _⟩; cases h
    | some sel =>
      obtain ⟨p, hp, hown⟩ := hsel sel hs
      obtain ⟨res, hres⟩ := tryMove_total hb (inBounds_of_cellAt hb hp) row col
      obtain ⟨ok, s2⟩ := res
      cases ok with
      | true =>
        obtain ⟨_, hturn, _⟩ := tryMove_true_board hres
        refine ⟨_, by simp only [onSquareClick, hgo', hs, hres]; rfl, ?_, ?_⟩
        · constructor
          · intro _; exact ⟨hgo', sel, s2, rfl, hres⟩
          · intro _
            show (if s2.currentTurn = Color.W then Color.B else Color.W) ≠ s.currentTurn
            rw [hturn]
            exact flip_ne s.currentTurn
        · intro _
          refine ⟨sel, p, s2, rfl, hp, hown, hres, rfl, ?_⟩
          show (if s2.currentTurn = Color.W then Color.B else Color.W) = opponent s.currentTurn
          rw [hturn]
          rfl
      | false =>
        obtain ⟨e1, e2, _⟩ := tryMove_false_frame hres
        refine ⟨_, by simp only [onSquareClick, hgo', hs, hres]; rfl, ?_, ?_⟩
        · constructor
          · intro h; exact absurd e2 h
          · rintro ⟨_, sel1, s3, h1, h2⟩
            cases h1
            rw [hres] at h2
            cases h2
        · intro h; exact absurd e1 h

/-- C20: in every state reached from `initGame` by clicks, the selected square is
null or holds a piece of the side to move; a click in such a state is always
answered, it changes `currentTurn` exactly when it calls `tryMove` and `tryMove`
returns true, and it changes the board only by such an accepted move of a
piece of the side to move, after which the other side is to move; the game
starts with White to move. -/
theorem reachable_selection_and_turns (s : State) (h : Reachable s) :
    selectionOwn s ∧
    (∀ row col : Int, inBounds row col = true →
      ∃ s1, onSquareClick s row col = some s1 ∧
        (s1.currentTurn ≠ s.currentTurn ↔
          (s.gameOver = false ∧ ∃ sel s2, s.selectedSquare = some sel ∧
            tryMove s sel.1 sel.2 row col = some (true, s2))) ∧
        (s1.board ≠ s.board →
          ∃ sel p s2, s.selectedSquare = some sel ∧ cellAt s.board sel.1 sel.2 = some p ∧
            isCorrectTurnPiece s.currentTurn p = true ∧
            tryMove s sel.1 sel.2 row col = some (true, s2) ∧ s1.board = s2.board ∧
            s1.currentTurn = opponent s.currentTurn)) ∧
    (∀ s0 : State, (initGame s0).currentTurn = Color.W) := by
  have hg := reachable_goodState h
  exact ⟨hg.2.2.2.2, fun row col hin => onSquareClick_step hg hin, fun _ => rfl⟩

/-- Witness for C20: with the white e-pawn selected in the initial position, the
selection holds a white piece and the click on e4 is answered. -/
theorem reachable_selection_and_turns_witness :
    Reachable selectedE2 ∧ selectionOwn selectedE2 ∧
    ∃ s1, onSquareClick selectedE2 4 4 = some s1 ∧
      (s1.currentTurn ≠ selectedE2.currentTurn ↔
        (selectedE2.gameOver = false ∧ ∃ sel s2, selectedE2.selectedSquare = some sel ∧
          tryMove selectedE2 sel.1 sel.2 4 4 = some (true, s2))) := by
  obtain ⟨h1, h2, _⟩ := reachable_selection_and_turns selectedE2 reachable_selectedE2
  obtain ⟨s1, g1, g2, _⟩ := h2 4 4 (by decide)
  exact ⟨reachable_selectedE2, h1, s1, g1, g2⟩

end Chess
